import Mathlib

/-!
Graph-HMM aligner (projects/graph-hmm/main.cpp): seed matching, neighbourhoods,
orchestration.

A shallow embedding of the functions of `main.cpp` and theorems about them.

Conventions of the embedding

* `EdgeId` and `VertexId` are natural numbers (the integer ids of the graph).
* `std::unordered_map<EdgeId, T>` is an association list `List (EdgeId × T)`; the list
  order stands for the (unspecified) iteration order of the container.
* `std::unordered_set<VertexId>` is a `Finset VertexId`.
* `int` values are integers.  Signed overflow is undefined in the source, so signed
  `+`, `-`, `*` are the exact operations; conversions (`static_cast<int>`) and
  unsigned arithmetic are modular and written out with `%`.
* Code the sources call but do not contain (HMMER hits, Dijkstra helpers, graph
  components, cursors, the path solver) enters as parameters.
-/

namespace GraphHMM

abbrev EdgeId := Nat
abbrev VertexId := Nat

/-! ## Machine integers -/

/-- Conversion to the 32-bit `int` (`static_cast<int>`): reduction modulo 2^32 into
the range [-2^31, 2^31). -/
def toInt32 (x : Int) : Int := (x + 2147483648) % 4294967296 - 2147483648

/-- The integer type in which `domain.M() - hmmpos.second` and
`domain.L() - seqpos.second` are evaluated.  The declarations of `Domain::M` and
`Domain::L` are not among the sources, so the type is a parameter: a signed or an
unsigned type of 32 or 64 bits (narrower types promote to `int`). -/
inductive CountTy where
  | i32 | i64 | u32 | u64
  deriving DecidableEq

/-- Result of an arithmetic operation carried out in the given type. -/
def CountTy.wrap : CountTy → Int → Int
  | .i32, x => toInt32 x
  | .i64, x => (x + 9223372036854775808) % 18446744073709551616 - 9223372036854775808
  | .u32, x => x % 4294967296
  | .u64, x => x % 18446744073709551616

/-! ## HMMER hits (hmmer::HMMMatcher) -/

/-- One domain of a hit: `seqpos()`, `hmmpos()` (pairs of `int`), `M()` and `L()`. -/
structure Domain where
  seqpos : Int × Int
  hmmpos : Int × Int
  M : Int
  L : Int
  deriving DecidableEq

/-- One hit of the matcher: `name()`, `reported()`, `included()`, `domains()`. -/
structure Hit where
  name : String
  reported : Bool
  included : Bool
  domains : List Domain
  deriving DecidableEq

/-- Classification `isspace` of the C locale. -/
def isspace (c : Char) : Bool :=
  c.toNat = 32 || (9 ≤ c.toNat && c.toNat ≤ 13)

/-- Value of a string of decimal digits, most significant first. -/
def digitsValue (ds : List Char) : Nat :=
  ds.foldl (fun acc c => 10 * acc + (c.toNat - 48)) 0

/-- The conversion `std::stoull(s)` in base 10: leading white space is skipped, an
optional sign is read, then the longest run of digits.  No digit: `invalid_argument`
(`none`); a magnitude above 2^64 - 1: `out_of_range` (`none`); a minus sign negates
in the unsigned type. -/
def stoull (s : String) : Option Nat :=
  let cs := s.toList.dropWhile isspace
  let neg := cs.head? == some (Char.ofNat 45)
  let cs1 := if cs.head? == some (Char.ofNat 45) || cs.head? == some (Char.ofNat 43)
    then cs.tail else cs
  let ds := cs1.takeWhile Char.isDigit
  if ds.isEmpty then none
  else if 18446744073709551616 ≤ digitsValue ds then none
  else some (if neg then (18446744073709551616 - digitsValue ds) % 18446744073709551616
             else digitsValue ds)

/-! ## Association lists standing for `std::unordered_map<EdgeId, T>` -/

/-- Lookup `m.find(e)`: the value stored under `e`, if any. -/
def mfind {β : Type} : List (EdgeId × β) → EdgeId → Option β
  | [], _ => none
  | (k, v) :: rest, e => if k = e then some v else mfind rest e

/-- Membership test `m.count(e)`. -/
def mcount {β : Type} (m : List (EdgeId × β)) (e : EdgeId) : Bool :=
  (mfind m e).isSome

/-- Update of `m[e]` through `f`; `f none` is the value for a key that was absent
(`operator[]` creates it). -/
def mupdate {β : Type} (f : Option β → β) : List (EdgeId × β) → EdgeId → List (EdgeId × β)
  | [], e => [(e, f none)]
  | (k, v) :: rest, e =>
    if k = e then (k, f (some v)) :: rest else (k, v) :: mupdate f rest e

/-- The keys of a map, in iteration order. -/
def mkeys {β : Type} (m : List (EdgeId × β)) : List EdgeId := m.map Prod.fst

/-! ## Edge matcher: `get_matched_edges` -/

/-- The map `EdgeAlnInfo = unordered_map<EdgeId, pair<int, int>>`. -/
abbrev EdgeAlnInfo := List (EdgeId × (Int × Int))

/-- The value `loverhang` of a domain (line 244): both operands are `int`. -/
def loverhang (d : Domain) : Int := d.hmmpos.1 - d.seqpos.1

/-- The value `roverhang` of a domain (line 243): two differences evaluated in the
type of `M()` and `L()`, each converted to `int`, then subtracted as `int`. -/
def roverhang (ty : CountTy) (d : Domain) : Int :=
  toInt32 (ty.wrap (d.M - d.hmmpos.2)) - toInt32 (ty.wrap (d.L - d.seqpos.2))

/-- Body of the loop over the domains of a hit (lines 246-256). -/
def merge_domain (ty : CountTy) (e : EdgeId) (match_edges : EdgeAlnInfo) (d : Domain) :
    EdgeAlnInfo :=
  if !mcount match_edges e then
    mupdate (fun _ => (loverhang d, roverhang ty d)) match_edges e
  else
    mupdate (fun o =>
      let entry := o.getD (0, 0)
      (if entry.1 < loverhang d then loverhang d else entry.1,
       if entry.2 < roverhang ty d then roverhang ty d else entry.2)) match_edges e

/-- The edge a hit resolves to: `edges[std::stoull(hit.name())]`; `none` when the
conversion throws or the index is outside the vector. -/
def resolve (edges : List EdgeId) (hit : Hit) : Option EdgeId :=
  match stoull hit.name with
  | none => none
  | some i => edges[i]?

/-- Loop over the hits of `get_matched_edges` (lines 230-260), started from the map
built so far. -/
def get_matched_edges_loop (ty : CountTy) (edges : List EdgeId) :
    List Hit → EdgeAlnInfo → Option EdgeAlnInfo
  | [], match_edges => some match_edges
  | hit :: rest, match_edges =>
    if !hit.reported || !hit.included then
      get_matched_edges_loop ty edges rest match_edges
    else
      match resolve edges hit with
      | none => none
      | some e =>
        get_matched_edges_loop ty edges rest (hit.domains.foldl (merge_domain ty e) match_edges)

/-- The function `get_matched_edges` (lines 226-264); `hits` is `matcher.hits()`. -/
def get_matched_edges (ty : CountTy) (edges : List EdgeId) (hits : List Hit) :
    Option EdgeAlnInfo :=
  get_matched_edges_loop ty edges hits []

/-! ### Reference description of the stored record -/

/-- Hits that pass the filter of line 231. -/
def Hit.accepted (h : Hit) : Bool := h.reported && h.included

/-- Reference definition (from the specification): the overhang pairs of all domains
of all reported-and-included hits that resolve to `e`, in order of discovery. -/
def domain_overhangs (ty : CountTy) (edges : List EdgeId) : List Hit → EdgeId → List (Int × Int)
  | [], _ => []
  | h :: rest, e =>
    (if h.accepted && resolve edges h == some e
      then h.domains.map (fun d => (loverhang d, roverhang ty d)) else [])
    ++ domain_overhangs ty edges rest e

/-- The integer `a` is the greatest element of the list `xs`. -/
def IsMaxOf (xs : List Int) (a : Int) : Prop := a ∈ xs ∧ ∀ x ∈ xs, x ≤ a

/-- Two hits that differ at most in the order of their domains. -/
def Hit.sameUpToDomainOrder (h h' : Hit) : Prop :=
  h'.name = h.name ∧ h'.reported = h.reported ∧ h'.included = h.included ∧
    h'.domains.Perm h.domains

/-- The list `hits'` is `hits` with the hits permuted and the domains inside each hit
permuted. -/
def HitsRearranged (hits hits' : List Hit) : Prop :=
  ∃ mid, List.Forall₂ Hit.sameUpToDomainOrder hits mid ∧ mid.Perm hits'

/-- Coordinate-wise maximum of an optional record with a new pair. -/
def ovmax (o : Option (Int × Int)) (p : Int × Int) : Int × Int :=
  match o with
  | none => p
  | some q => (max q.1 p.1, max q.2 p.2)

/-- Folding the records of a list of pairs into an optional record. -/
def ovfold (o : Option (Int × Int)) (ps : List (Int × Int)) : Option (Int × Int) :=
  ps.foldl (fun acc p => some (ovmax acc p)) o

/-! ## Graph, neighbourhoods: `ExtractNeighbourhoods` -/

/-- Read-only view of `ConjugateDeBruijnGraph` used by `main.cpp`: `EdgeStart`,
`EdgeEnd`, `length`, `k()`, `EdgeNucls(e).str()` and the edges in iteration order
(`ConstEdgeBegin`).  An edge is identified with its `int_id`. -/
structure Graph where
  EdgeStart : EdgeId → VertexId
  EdgeEnd : EdgeId → VertexId
  length : EdgeId → Nat
  k : Nat
  EdgeNucls : EdgeId → String
  edges : List EdgeId

/-- The two searches of `omnigraph` (their code is not among the sources):
`fdijkstra bound v` is `ReachedVertices()` of `CreateEdgeBoundedDijkstra(graph, bound)`
run from `v`, `bdijkstra bound v` the same for `CreateBackwardEdgeBoundedDijkstra`. -/
structure Dijkstra where
  fdijkstra : Int → VertexId → List VertexId
  bdijkstra : Int → VertexId → List VertexId

/-- The map `Neighbourhoods = unordered_map<EdgeId, unordered_set<VertexId>>`. -/
abbrev Neighbourhoods := List (EdgeId × Finset VertexId)

/-- The statement `neighbourhoods[e].insert(...)`: union into the set stored under `e`,
which is created empty when absent. -/
def nb_insert (neighbourhoods : Neighbourhoods) (e : EdgeId) (vs : Finset VertexId) :
    Neighbourhoods :=
  mupdate (fun o => o.getD ∅ ∪ vs) neighbourhoods e

/-- Body of the loop of `ExtractNeighbourhoods` (lines 342-368) for one entry of
`matched_edges`. -/
def extract_step (graph : Graph) (dj : Dijkstra) (mult : Int)
    (neighbourhoods : Neighbourhoods) (entry : EdgeId × (Int × Int)) : Neighbourhoods :=
  let e := entry.1
  let overhangs : Int × Int := (entry.2.1 * mult, entry.2.2 * mult)
  let fvertices := if overhangs.2 > 0 then dj.fdijkstra overhangs.2 (graph.EdgeEnd e) else []
  let bvertices := if overhangs.1 > 0 then dj.bdijkstra overhangs.1 (graph.EdgeStart e) else []
  let n1 := nb_insert neighbourhoods e fvertices.toFinset
  let n2 := nb_insert n1 e bvertices.toFinset
  let n3 := nb_insert n2 e {graph.EdgeEnd e}
  nb_insert n3 e {graph.EdgeStart e}

/-- The function `ExtractNeighbourhoods` (lines 335-372). -/
def ExtractNeighbourhoods (matched_edges : EdgeAlnInfo) (graph : Graph) (dj : Dijkstra)
    (mult : Int) : Neighbourhoods :=
  matched_edges.foldl (extract_step graph dj mult) []

/-! ## Merge pass: `join_components` -/

/-- Insertion of `x` into a list sorted by the comparison `lt`. -/
def sort_insert {α : Type} (lt : α → α → Bool) (x : α) : List α → List α
  | [] => [x]
  | y :: ys => if lt x y then x :: y :: ys else y :: sort_insert lt x ys

/-- The call `std::sort(begin, end, lt)`, as an insertion sort.  The standard leaves
the order of equivalent elements open; this is one admissible outcome. -/
def std_sort {α : Type} (lt : α → α → Bool) (l : List α) : List α :=
  l.foldr (sort_insert lt) []

/-- The lambda `unmatched_part_length` (lines 381-384).  The source dereferences
`matched_edges.find(edge_id)` unchecked; a missing key reads as `(0, 0)` here. -/
def unmatched_part_length (matched_edges : EdgeAlnInfo) (edge_id : EdgeId) : Int :=
  let overhangs := (mfind matched_edges edge_id).getD (0, 0)
  max 0 overhangs.1 + max 0 overhangs.2

/-- State of the merge loops: the set `removed`, and a record (not in the source) of
the fusions performed, as pairs (absorbing seed, absorbed seed). -/
structure JoinState where
  removed : List EdgeId
  fused : List (EdgeId × EdgeId)

/-- Inner loop (lines 396-402): `acc` is `it->second`, the list holds the entries
after `it`. -/
def join_scan (graph : Graph) (seed : EdgeId) :
    Finset VertexId → List (EdgeId × Finset VertexId) → JoinState → Finset VertexId × JoinState
  | acc, [], st => (acc, st)
  | acc, to_check :: rest, st =>
    if graph.EdgeStart to_check.1 ∈ acc ∨ graph.EdgeEnd to_check.1 ∈ acc then
      join_scan graph seed (acc ∪ to_check.2) rest
        ⟨to_check.1 :: st.removed, st.fused ++ [(seed, to_check.1)]⟩
    else
      join_scan graph seed acc rest st

/-- Outer loop (lines 392-403) over the sorted vector; returns the vector after the
in-place updates and the final state. -/
def join_pass (graph : Graph) :
    List (EdgeId × Finset VertexId) → JoinState → List (EdgeId × Finset VertexId) × JoinState
  | [], st => ([], st)
  | it :: rest, st =>
    if it.1 ∈ st.removed then
      let r := join_pass graph rest st
      (it :: r.1, r.2)
    else
      let s := join_scan graph it.1 it.2 rest st
      let r := join_pass graph rest s.2
      ((it.1, s.1) :: r.1, r.2)

/-- Final loop (lines 405-410): `result.insert(*it)` for the entries not removed; the
insertion keeps an existing key. -/
def join_collect (removed : List EdgeId) :
    List (EdgeId × Finset VertexId) → Neighbourhoods → Neighbourhoods
  | [], result => result
  | it :: rest, result =>
    if it.1 ∈ removed then join_collect removed rest result
    else if mcount result it.1 then join_collect removed rest result
    else join_collect removed rest (result ++ [it])

/-- The part of `join_components` after the sort (lines 391-412). -/
def join_sorted (graph : Graph) (neighbourhoods_vector : List (EdgeId × Finset VertexId)) :
    Neighbourhoods :=
  let r := join_pass graph neighbourhoods_vector ⟨[], []⟩
  join_collect r.2.removed r.1 []

/-- The fusions `join_sorted` performs, as pairs (absorbing seed, absorbed seed). -/
def join_fusions (graph : Graph) (neighbourhoods_vector : List (EdgeId × Finset VertexId)) :
    List (EdgeId × EdgeId) :=
  (join_pass graph neighbourhoods_vector ⟨[], []⟩).2.fused

/-- The vector of `join_components` after `std::sort` (lines 379-389). -/
def join_vector (neighbourhoods : Neighbourhoods) (matched_edges : EdgeAlnInfo) :
    List (EdgeId × Finset VertexId) :=
  std_sort (fun n1 n2 =>
    decide (unmatched_part_length matched_edges n1.1 < unmatched_part_length matched_edges n2.1))
    neighbourhoods

/-- The function `join_components` (lines 376-413). -/
def join_components (neighbourhoods : Neighbourhoods) (matched_edges : EdgeAlnInfo)
    (graph : Graph) : Neighbourhoods :=
  join_sorted graph (join_vector neighbourhoods matched_edges)

/-- The vector `v` is an arrangement `std::sort` may leave: a permutation of the
entries of the map in ascending order of `unmatched_part_length`. -/
def SortedArrangement (matched_edges : EdgeAlnInfo) (neighbourhoods : Neighbourhoods)
    (v : List (EdgeId × Finset VertexId)) : Prop :=
  v.Perm neighbourhoods ∧
    v.Pairwise (fun n1 n2 =>
      unmatched_part_length matched_edges n1.1 ≤ unmatched_part_length matched_edges n2.1)

/-! ## Cursors, paths and results -/

/-- The observations `to_path` makes of a graph cursor (the cursor classes are not
among the sources): `is_empty()`, `edge()`, `edges()`, and the offset on the edge. -/
structure Cursor where
  is_empty : Bool
  edge : EdgeId
  position : Nat
  edges : List EdgeId
  deriving DecidableEq

/-- Scores are `double` in the source; the model takes them from the integers, which
stand for any totally ordered range of values (no NaN). -/
abbrev Score := Int

/-- One element of the container returned by `top_k`: the cursor trace and its score. -/
structure AnnotatedPath where
  path : List Cursor
  score : Score
  deriving DecidableEq

/-- The record `HMMPathInfo` (lines 474-490). -/
structure HMMPathInfo where
  hmmname : String
  leader : EdgeId
  priority : Nat
  score : Score
  seq : String
  path : List EdgeId
  alignment : String
  deriving DecidableEq

/-- The comparison `HMMPathInfo::operator<` (lines 483-485). -/
def HMMPathInfo.lt (a that : HMMPathInfo) : Bool := decide (a.score < that.score)

/-- Inner loop of `to_path` (lines 181-183) over `it->edges()`. -/
def to_path_edges (path : List EdgeId) (es : List EdgeId) : List EdgeId :=
  es.foldl (fun p e => if p.getLast? ≠ some e then p ++ [e] else p) path

/-- Body of the second loop of `to_path` (lines 175-184). -/
def to_path_step (path : List EdgeId) (it : Cursor) : List EdgeId :=
  if it.is_empty then path
  else if path.length = 0 ∨ path.getLast? ≠ some it.edge then path ++ [it.edge]
  else to_path_edges path it.edges

/-- The function `to_path` (lines 167-189). -/
def to_path (cpath : List Cursor) : List EdgeId :=
  (cpath.dropWhile (fun c => c.is_empty)).foldl to_path_step []

/-- The fields of `cfg` (lines 57-79) that the modelled functions read. -/
structure Cfg where
  k : Nat
  top : Nat
  int_id : Nat
  max_size : Nat
  debug : Bool
  draw : Bool
  save : Bool
  rescore : Bool
  annotate_graph : Bool

/-- Everything `TraceHMM` takes from outside `main.cpp`: the graph, the searches, the
arithmetic type of `M()`/`L()`, the HMM name and alphabet (`hmm.abc()->K == 20`), and
the operations on components, cursors and the solver.
`e_size vs` is `GraphComponent::FromVertices(graph, vs, true).e_size()`,
`get_cursor vs e i` is `get_cursor(component, e, i)` on that component,
`top_k initial top` is `find_best_path(fees, initial).top_k(top)`. -/
structure Env where
  graph : Graph
  dijkstra : Dijkstra
  countTy : CountTy
  hmm_name : String
  hmm_in_aas : Bool
  e_size : Finset VertexId → Nat
  get_cursor : Finset VertexId → EdgeId → Nat → Cursor
  depth_subset : Cursor → Int → Bool → List Cursor
  make_aa_cursors : List Cursor → List Cursor
  top_k : List Cursor → Nat → List AnnotatedPath
  str : List Cursor → String
  event_str : AnnotatedPath → String

/-- Modelled from the spec: `GraphComponent::FromVertices` and the conjugate of a
vertex are not among the sources.  The specification describes the component as the
subgraph induced by a vertex set, closed over the incident edges within the set
(4.7), and gives every vertex a conjugate (3, 4.1).  The argument `true` of the call
(lines 617-619) adds the conjugate of each vertex to the set, so that the component
holds an edge together with its conjugate, which the halving `e_size() / 2` of line
622 counts on.  The result lists the edges of the component; `e_size()` is its
length. -/
def FromVertices (graph : Graph) (conjugate : VertexId → VertexId) (vs : Finset VertexId)
    (add_conjugate : Bool) : List EdgeId :=
  let vertices := if add_conjugate then vs ∪ vs.image conjugate else vs
  graph.edges.filter
    (fun e => decide (graph.EdgeStart e ∈ vertices ∧ graph.EdgeEnd e ∈ vertices))

/-- Body of the loop of `run_search` (lines 598-606): `st` holds `idx` and
`local_results`.  The priority is an `unsigned` built from `idx`. -/
def run_search_step (env : Env) (e : EdgeId) (st : Nat × List HMMPathInfo)
    (annotated_path : AnnotatedPath) : Nat × List HMMPathInfo :=
  let seq := env.str annotated_path.path
  let alignment := env.event_str annotated_path
  let edge_path := to_path annotated_path.path
  if edge_path.length = 0 then st
  else (st.1 + 1, st.2 ++ [⟨env.hmm_name, e, st.1 % 4294967296, annotated_path.score, seq,
    edge_path, alignment⟩])

/-- The lambda `run_search` (lines 586-607). -/
def run_search (env : Env) (initial : List Cursor) (e : EdgeId) (top : Nat)
    (local_results : List HMMPathInfo) : List HMMPathInfo :=
  ((env.top_k initial top).foldl (run_search_step env e) (0, local_results)).2

/-- The initial cursors `neib_cursors` of one neighbourhood (lines 632-655).  The
bounds of the last loop are `size_t` values (modulo 2^64). -/
def initial_cursors (env : Env) (matched_edges : EdgeAlnInfo)
    (kv : EdgeId × Finset VertexId) : List Cursor :=
  let e := kv.1
  let coef : Int := if env.hmm_in_aas then 3 else 1
  let entry := (mfind matched_edges e).getD (0, 0)
  let loverhang : Int := (entry.1 + 10) * coef
  let roverhang : Int := (entry.2 + 10) * coef
  let left_cursors :=
    if loverhang > 0 then env.depth_subset (env.get_cursor kv.2 e 0) (loverhang * 2) false
    else []
  let len : Nat := (env.graph.length e + env.graph.k) % 18446744073709551616
  let right_cursors :=
    if roverhang > 0 then
      env.depth_subset
        (env.get_cursor kv.2 e ((len + 18446744073709551615) % 18446744073709551616))
        (roverhang * 2) true
    else []
  let first : Nat := (max 0 (-loverhang)).toNat
  let last : Nat := (((len : Int) - max 0 (-roverhang)) % 18446744073709551616).toNat
  left_cursors ++ right_cursors ++
    (List.range' first (last - first)).map (fun i => env.get_cursor kv.2 e i)

/-- Body of the loop of `TraceHMM` over the neighbourhoods (lines 613-668) for one
entry: `none` when the size test of line 622 skips the component (no cursor is built
and the solver is not called), otherwise the `local_results` of the search. -/
def trace_neighbourhood (env : Env) (cfg : Cfg) (matched_edges : EdgeAlnInfo)
    (kv : EdgeId × Finset VertexId) : Option (List HMMPathInfo) :=
  if env.e_size kv.2 / 2 > cfg.max_size then none
  else
    let neib_cursors := initial_cursors env matched_edges kv
    if env.hmm_in_aas then
      some (run_search env (env.make_aa_cursors neib_cursors) kv.1 cfg.top [])
    else
      some (run_search env neib_cursors kv.1 cfg.top [])

/-- Loop of `TraceHMM` over the neighbourhoods (lines 613-688), appending to `results`. -/
def TraceHMM_loop (env : Env) (cfg : Cfg) (matched_edges : EdgeAlnInfo) :
    Neighbourhoods → List HMMPathInfo → List HMMPathInfo
  | [], results => results
  | kv :: rest, results =>
    match trace_neighbourhood env cfg matched_edges kv with
    | none => TraceHMM_loop env cfg matched_edges rest results
    | some local_results => TraceHMM_loop env cfg matched_edges rest (results ++ local_results)

/-- The neighbourhoods `TraceHMM` searches (lines 577-581). -/
def joined_neighbourhoods (env : Env) (matched_edges : EdgeAlnInfo) : Neighbourhoods :=
  join_components
    (ExtractNeighbourhoods matched_edges env.graph env.dijkstra (if env.hmm_in_aas then 6 else 2))
    matched_edges env.graph

/-- The function `TraceHMM` (lines 564-689); `hits` are the hits of the matcher that
`MatchedEdges` builds for the edges.  `none` when `get_matched_edges` fails. -/
def TraceHMM (env : Env) (edges : List EdgeId) (hits : List Hit) (cfg : Cfg)
    (results : List HMMPathInfo) : Option (List HMMPathInfo) :=
  match get_matched_edges env.countTy edges hits with
  | none => none
  | some matched_edges =>
    some (TraceHMM_loop env cfg matched_edges (joined_neighbourhoods env matched_edges) results)

/-- One entry of the file `.seqs.fa` (lines 507-508). -/
structure SeqsEntry where
  score : Score
  edges : List EdgeId
  alignment : String
  body : String
  deriving DecidableEq

/-- One entry of the file `.fa` (lines 515-523). -/
structure FaEntry where
  leader : EdgeId
  priority : Nat
  whole_edge : Bool
  body : String
  deriving DecidableEq

/-- The entries `SaveResults` writes (lines 492-531) to `.seqs.fa` and `.fa`; both
lists are empty when no file is opened. -/
def SaveResults (graph : Graph) (cfg : Cfg) (results : List HMMPathInfo) :
    List SeqsEntry × List FaEntry :=
  if cfg.save && results.length != 0 then
    ((results.filter (fun r => r.seq.length != 0)).map
        (fun r => ⟨r.score, r.path, r.alignment, r.seq⟩),
     results.map (fun r =>
        ⟨r.leader, r.priority, r.seq.length == 0,
         if r.seq.length = 0 then graph.EdgeNucls r.leader else r.seq⟩))
  else ([], [])

/-- The vector `results` of one iteration of the loop of `main` after line 742, as
handed to `SaveResults` and `Rescore`. -/
def main_results (env : Env) (edges : List EdgeId) (hits : List Hit) (cfg : Cfg) :
    Option (List HMMPathInfo) :=
  (TraceHMM env edges hits cfg []).map (std_sort HMMPathInfo.lt)

/-! ## Candidate edges of `main` -/

/-- Successor relation of nucleotide cursors (specification, 3 and 4.5): `c2` is on
the same edge at the next offset, or at offset 0 of an edge that leaves the end vertex
of the edge of `c1`. -/
def Cursor.follows (graph : Graph) (c1 c2 : Cursor) : Prop :=
  (c2.edge = c1.edge ∧ c2.position = c1.position + 1) ∨
    (c2.position = 0 ∧ graph.EdgeStart c2.edge = graph.EdgeEnd c1.edge)

instance Cursor.decidableFollows (graph : Graph) (c1 c2 : Cursor) :
    Decidable (Cursor.follows graph c1 c2) :=
  inferInstanceAs (Decidable ((c2.edge = c1.edge ∧ c2.position = c1.position + 1) ∨
    (c2.position = 0 ∧ graph.EdgeStart c2.edge = graph.EdgeEnd c1.edge)))

/-- The checks `VERIFY(g.EdgeEnd(continuous_path[i - 1]) == g.EdgeStart(continuous_path[i]))`
of the loop of `MergeSequences` (lines 321-324): `true` when none fails. -/
def verify_walk (graph : Graph) : List EdgeId → Bool
  | [] => true
  | [_] => true
  | a :: b :: rest => (graph.EdgeEnd a == graph.EdgeStart b) && verify_walk graph (b :: rest)

/-- The function `MergeSequences` (lines 316-326).  `merge` is
`MergeOverlappingSequences` (not among the sources) on the strings of the edge
sequences.  `none` when `continuous_path[0]` does not exist or a `VERIFY` fails. -/
def MergeSequences (graph : Graph) (merge : List String → Nat → String)
    (continuous_path : List EdgeId) : Option String :=
  match continuous_path with
  | [] => none
  | _ :: _ =>
    if verify_walk graph continuous_path then
      some (merge (continuous_path.map graph.EdgeNucls) graph.k)
    else none

/-! ## Reference strings of `ScoreSequences` -/

/-- The conversion `std::to_string` of an unsigned integer: its decimal digits. -/
def to_string (n : Nat) : String := Nat.repr n

/-- The function `join` (lines 46-55) on a vector of edges: the edge ids, as printed
by the stream operator, separated by `sep` (`"_"` at every call in `main.cpp`). -/
def join : List EdgeId → String → String
  | [], _ => ""
  | [x], _ => to_string x
  | x :: y :: rest, sep => to_string x ++ sep ++ join (y :: rest) sep

/-- The comparison of two `std::string` values: lexicographic on the characters. -/
def string_lt (a b : String) : Bool := decide (a.toList < b.toList)

/-- The comparison `operator<` of `std::pair<std::string, std::string>` that the
`std::sort` of line 444 uses. -/
def pair_lt (a b : String × String) : Bool :=
  string_lt a.1 b.1 || (!string_lt b.1 a.1 && string_lt a.2 b.2)

/-- Loop of `EdgesToSequences` (lines 438-442): `none` when `MergeSequences` fails on
an entry. -/
def EdgesToSequences_loop (graph : Graph) (merge : List String → Nat → String) :
    List (List EdgeId) → Option (List (String × String))
  | [] => some []
  | entry :: rest =>
    match MergeSequences graph merge entry with
    | none => none
    | some seq =>
      match EdgesToSequences_loop graph merge rest with
      | none => none
      | some ids_n_seqs => some ((join entry "_", seq) :: ids_n_seqs)

/-- The function `EdgesToSequences` (lines 434-446); `entries` lists the container in
iteration order. -/
def EdgesToSequences (entries : List (List EdgeId)) (graph : Graph)
    (merge : List String → Nat → String) : Option (List (String × String)) :=
  (EdgesToSequences_loop graph merge entries).map (std_sort pair_lt)

/-- The records `ExportEdges` (lines 448-461) writes to its file, in order, each as
the header line and the sequence handed to `io::WriteWrapped`; no record (and no
file) for an empty container, `none` when `MergeSequences` fails. -/
def ExportEdges (entries : List (List EdgeId)) (graph : Graph)
    (merge : List String → Nat → String) : Option (List (String × String)) :=
  if entries.length = 0 then some []
  else (EdgesToSequences entries graph merge).map
    (fun kvs => kvs.map (fun kv => (">" ++ kv.1, kv.2)))

/-! ## The k best paths (specification 4.6) -/

/-- The cursor trace of a path as the specification identifies cursors (3 and 4.5:
a cursor is an `(edge, offset)` pair, equality on `(edge, offset)`). -/
def cursor_trace (path : List Cursor) : List (Nat × Nat) :=
  path.map (fun c => (c.edge, c.position))

/-- The sort key of an annotated path: its cost, then its cursor trace in
lexicographic order, cursors compared by `(edge, offset)`. -/
def path_key (ap : AnnotatedPath) : ℤ ×ₗ List (ℕ ×ₗ ℕ) :=
  toLex (ap.score, (cursor_trace ap.path).map (fun c => toLex c))

/-- The comparison of two annotated paths by cost and then by cursor trace. -/
def path_lt (a b : AnnotatedPath) : Bool := decide (path_key a < path_key b)

/-- Removal of the paths whose cursor trace was already seen, keeping the first path
of every trace. -/
def dedup_trace (seen : List (List (Nat × Nat))) : List AnnotatedPath → List AnnotatedPath
  | [] => []
  | ap :: rest =>
    if cursor_trace ap.path ∈ seen then dedup_trace seen rest
    else ap :: dedup_trace (cursor_trace ap.path :: seen) rest

/-- Modelled from the spec: the solver (`find_best_path` and `top_k`) is not among the
sources.  The specification (4.6) asks of `top_k(k)` only that it returns the `k`
lowest-cost paths, deduplicated by their cursor trace, in ascending-cost order, with
ties broken by the lexicographic order of the cursor sequences.  `candidates` are
the completed paths of the product of HMM states and cursors, in the order the
search happens to find them. -/
def spec_top_k (candidates : List AnnotatedPath) (k : Nat) : List AnnotatedPath :=
  (dedup_trace [] (std_sort path_lt candidates)).take k

/-! ## Offsets of the intra-edge loop, paths handed to `MergeSequences` -/

/-- The initial value `std::max(0, -loverhang)` of the loop of lines 653-655, as the
`size_t` value of `i`. -/
def intra_edge_first (env : Env) (matched_edges : EdgeAlnInfo) (e : EdgeId) : Nat :=
  let coef : Int := if env.hmm_in_aas then 3 else 1
  let entry := (mfind matched_edges e).getD (0, 0)
  let loverhang : Int := (entry.1 + 10) * coef
  (max 0 (-loverhang)).toNat

/-- The bound `len - std::max(0, -roverhang)` of the loop of lines 653-655, evaluated
in `size_t` (modulo 2^64). -/
def intra_edge_last (env : Env) (matched_edges : EdgeAlnInfo) (e : EdgeId) : Nat :=
  let coef : Int := if env.hmm_in_aas then 3 else 1
  let entry := (mfind matched_edges e).getD (0, 0)
  let roverhang : Int := (entry.2 + 10) * coef
  let len : Nat := (env.graph.length e + env.graph.k) % 18446744073709551616
  (((len : Int) - max 0 (-roverhang)) % 18446744073709551616).toNat

/-- The offsets `i` that the loop of lines 653-655 passes to `get_cursor`, in order. -/
def intra_edge_offsets (env : Env) (matched_edges : EdgeAlnInfo) (e : EdgeId) : List Nat :=
  List.range' (intra_edge_first env matched_edges e)
    (intra_edge_last env matched_edges e - intra_edge_first env matched_edges e)

/-- Insertion into a `std::unordered_set` of paths, listed in order of first
insertion. -/
def set_insert (s : List (List EdgeId)) (p : List EdgeId) : List (List EdgeId) :=
  if p ∈ s then s else s ++ [p]

/-- The set `to_rescore` that `Rescore` fills (lines 538-545). -/
def Rescore_to_rescore (results : List HMMPathInfo) : List (List EdgeId) :=
  results.foldl (fun s result => if result.path.length = 0 then s else set_insert s result.path) []

/-- The function `Rescore` (lines 533-562) up to the calls into HMMER: the records
written to the `.edges.fa` file and the reference strings and sequences handed to
`ScoreSequences`; `none` when `MergeSequences` fails. -/
def Rescore (graph : Graph) (merge : List String → Nat → String)
    (results : List HMMPathInfo) :
    Option (List (String × String) × List String × List String) :=
  match ExportEdges (Rescore_to_rescore results) graph merge with
  | none => none
  | some file =>
    match EdgesToSequences (Rescore_to_rescore results) graph merge with
    | none => none
    | some kvs => some (file, kvs.map Prod.fst, kvs.map Prod.snd)

/-- The set `to_rescore` of `main` after the loop over the HMMs (lines 728, 759-768);
`all_results` lists the sorted `results` vector of every HMM. -/
def main_to_rescore (cfg : Cfg) (all_results : List (List HMMPathInfo)) :
    List (List EdgeId) :=
  if cfg.rescore then
    all_results.foldl (fun s results => results.foldl (fun s result => set_insert s result.path) s) []
  else []

/-- The records of the file `all.edges.fa` that `main` writes (lines 771-774). -/
def main_all_edges (cfg : Cfg) (graph : Graph) (merge : List String → Nat → String)
    (all_results : List (List HMMPathInfo)) : Option (List (String × String)) :=
  if cfg.rescore then ExportEdges (main_to_rescore cfg all_results) graph merge else some []

/-! ## Reference description of the edge list of a trace -/

/-- Reference description of the edges a trace visits, in order, before equal
neighbours are collapsed (specification 3 and 4.6: the edge path lists the edges
traversed, consecutive equal edges collapsed); `last` is the edge visited last.  An
empty cursor visits nothing.  A non-empty cursor visits its `edge()`; when that is the
edge visited last (the cursor stays on it), it then visits its `edges()`. -/
def visited_edges : Option EdgeId → List Cursor → List EdgeId
  | _, [] => []
  | last, c :: rest =>
    if c.is_empty then visited_edges last rest
    else if last = some c.edge then
      c.edge :: (c.edges ++ visited_edges (some (c.edges.getLastD c.edge)) rest)
    else c.edge :: visited_edges (some c.edge) rest

/-- The number of times a sequence of edges enters the edge `e`: the positions that
hold `e` and do not follow a position holding `e` (`prev` is the edge before the
sequence, if any). -/
def edge_entries (e : EdgeId) : Option EdgeId → List EdgeId → Nat
  | _, [] => 0
  | prev, x :: rest =>
    (if x = e ∧ prev ≠ some e then 1 else 0) + edge_entries e (some x) rest

/-! ## Example inputs -/

/-- Hits of two sequences: two domains on sequence 0, an excluded hit and a hit
without domains on sequence 1 (names as for an amino-acid HMM). -/
def sample_hits : List Hit :=
  [⟨"0", true, true, [⟨(50, 60), (1, 20), 100, 500⟩, ⟨(5, 490), (10, 80), 100, 500⟩]⟩,
   ⟨"1/2", true, false, [⟨(1, 2), (3, 4), 5, 6⟩]⟩,
   ⟨"1/2", true, true, []⟩]

/-- A chain: edge `e` runs from vertex `e` to vertex `e + 1`. -/
def chain_graph : Graph :=
  ⟨fun e => e, fun e => e + 1, fun _ => 3, 1, fun _ => "ACGT", [1, 2, 3]⟩

/-- Overhangs of two seeds two edges apart on the chain. -/
def apart_matched : EdgeAlnInfo := [(3, (5, 0)), (1, (0, 0))]

/-- Their neighbourhoods: the one of edge 3 reaches back over the endpoints of edge 1. -/
def apart_neighbourhoods : Neighbourhoods := [(3, {0, 1, 2, 3, 4}), (1, {1, 2})]

/-- Overhangs of two adjacent seeds on the chain. -/
def adjacent_matched : EdgeAlnInfo := [(2, (0, 5)), (1, (0, 2))]

/-- Their neighbourhoods. -/
def adjacent_neighbourhoods : Neighbourhoods := [(2, {2, 3, 4, 5, 6}), (1, {1, 2, 3})]

/-- A graph of one edge 0 from vertex 0 to vertex 1 and its conjugate edge 1 from
vertex 2 to vertex 3 (edge `e` runs from `2 * e` to `2 * e + 1`). -/
def pair_graph : Graph :=
  ⟨fun e => 2 * e, fun e => 2 * e + 1, fun _ => 3, 1, fun _ => "ACGT", [0, 1]⟩

/-- The conjugate of a vertex of `pair_graph`: the start of an edge is the conjugate
of the end of the other edge. -/
def pair_conjugate (v : VertexId) : VertexId := 3 - v

/-- The conjugate of an edge of `pair_graph`. -/
def pair_conjugate_edge (e : EdgeId) : EdgeId := 1 - e

/-- An environment over a graph and an edge count of components: nucleotide HMM, the
searches reach nothing, a cursor is its edge and offset, and the solver returns the
initial cursors as its single path, with score 7 plus the edge of the first cursor. -/
def sample_env (graph : Graph) (e_size : Finset VertexId → Nat) : Env where
  graph := graph
  dijkstra := ⟨fun _ _ => [], fun _ _ => []⟩
  countTy := CountTy.i64
  hmm_name := "hmm"
  hmm_in_aas := false
  e_size := e_size
  get_cursor := fun _ e i => ⟨false, e, i, [e]⟩
  depth_subset := fun _ _ _ => []
  make_aa_cursors := fun cs => cs
  top_k := fun initial _ => [⟨initial, 7 + ((initial.head?.map (fun c => c.edge)).getD 0 : Nat)⟩]
  str := fun _ => "ACGT"
  event_str := fun _ => "MMMM"

/-- The sample environment over `pair_graph` whose edge count of a component is that
of `FromVertices` with the conjugate vertices added. -/
def pair_env : Env :=
  sample_env pair_graph (fun vs => (FromVertices pair_graph pair_conjugate vs true).length)

/-- A configuration with the defaults of `cfg` and the given `max_size`. -/
def sample_cfg (max_size : Nat) : Cfg :=
  ⟨1, 10, 0, max_size, false, false, true, true, true⟩

/-- Searches that reach the start vertex and its neighbour on the chain. -/
def sample_dijkstra : Dijkstra := ⟨fun _ v => [v, v + 1], fun _ v => [v, v - 1]⟩

/-- One accepted hit per edge of `pair_graph`, each with one domain covering the whole
model and the whole sequence (both overhangs 0). -/
def pair_hits : List Hit :=
  [⟨"0", true, true, [⟨(1, 10), (1, 10), 10, 10⟩]⟩,
   ⟨"1", true, true, [⟨(1, 10), (1, 10), 10, 10⟩]⟩]

/-- The record the sample solver yields for a seed edge `e` of `pair_graph`. -/
def sample_record (e : EdgeId) : HMMPathInfo :=
  ⟨"hmm", e, 0, 7 + (e : Int), "ACGT", [e], "MMMM"⟩

/-- Two distinct records with the same score. -/
def tie_record_a : HMMPathInfo := ⟨"hmm", 1, 0, 7, "ACGT", [1], "MMMM"⟩

/-- The second of two distinct records with the same score. -/
def tie_record_b : HMMPathInfo := ⟨"hmm", 2, 0, 7, "ACGA", [2], "MMMM"⟩

/-- The sample environment with a depth expansion that steps one edge back (left side)
or one edge forward (right side) on the chain. -/
def depth_env (graph : Graph) (e_size : Finset VertexId → Nat) : Env :=
  { sample_env graph e_size with
    depth_subset := fun c _ forward =>
      if forward then [⟨false, c.edge + 1, 0, [c.edge + 1]⟩]
      else [⟨false, c.edge - 1, 3, [c.edge - 1]⟩] }

/-- The sample environment with a solver whose first path is an empty trace and whose
second path is the initial cursors. -/
def gap_env (graph : Graph) (e_size : Finset VertexId → Nat) : Env :=
  { sample_env graph e_size with
    top_k := fun initial _ => [⟨[], 5⟩, ⟨initial, 6⟩] }

/-- A trace on the chain: an empty cursor, two cursors on edge 1, an empty cursor, one
cursor on edge 2, then edge 1 again (the successor relation does not hold at the
last step). -/
def sample_trace : List Cursor :=
  [⟨true, 0, 0, []⟩, ⟨false, 1, 2, [1]⟩, ⟨false, 1, 3, [1]⟩, ⟨true, 0, 0, []⟩,
   ⟨false, 2, 0, [2]⟩, ⟨false, 1, 0, [1]⟩]

/-- A merge of overlapping sequences that drops the first `k` characters of every
sequence after the first. -/
def sample_merge (seqs : List String) (k : Nat) : String :=
  match seqs with
  | [] => ""
  | s :: rest => rest.foldl (fun acc t => acc ++ t.drop k) s

/-- Three walks on the chain, in an order that is not the order of their joined ids. -/
def sample_paths : List (List EdgeId) := [[2, 3], [1, 2, 3], [1, 2]]

/-- Four completed paths on the chain, two of them with the same cursor trace and two
with the same cost. -/
def sample_candidates : List AnnotatedPath :=
  [⟨[⟨false, 2, 0, [2]⟩, ⟨false, 2, 1, [2]⟩], 9⟩,
   ⟨[⟨false, 1, 0, [1]⟩, ⟨false, 1, 1, [1]⟩], 5⟩,
   ⟨[⟨false, 1, 0, [1]⟩, ⟨false, 1, 1, [1]⟩], 7⟩,
   ⟨[⟨false, 1, 3, [1]⟩, ⟨false, 2, 0, [2]⟩], 9⟩]

/-- The sorted results of `main` for `gap_env` on `pair_graph` with `pair_hits`, one
vector for the single HMM. -/
def gap_results : List (List HMMPathInfo) :=
  [[⟨"hmm", 0, 0, 6, "ACGT", [0], "MMMM"⟩, ⟨"hmm", 1, 0, 6, "ACGT", [1], "MMMM"⟩]]


/-- A graph of two edges of length 30 (`len = 31` with `k = 1`): edge `e` runs from
vertex `2 * e` to vertex `2 * e + 1`. -/
def long_graph : Graph :=
  ⟨fun e => 2 * e, fun e => 2 * e + 1, fun _ => 30, 1, fun _ => "ACGT", [0, 1]⟩

/-- One accepted hit on edge 0 of `long_graph`: a domain on positions 13 to 15 of the
31 positions of the sequence, covering the whole model of length 10 (overhangs -12
and -16). -/
def inner_hits : List Hit :=
  [⟨"0", true, true, [⟨(13, 15), (1, 10), 10, 31⟩]⟩]


/-- A trace with empty cursors whose cursors list further edges in `edges()`: on edge
1, then through edge 2 back to edge 1, on to edge 3, then through edge 4 back to
edge 3. -/
def revisit_trace : List Cursor :=
  [⟨true, 0, 0, []⟩, ⟨false, 1, 0, [1]⟩, ⟨false, 1, 1, [2, 1]⟩, ⟨true, 0, 0, []⟩,
   ⟨false, 3, 0, [3]⟩, ⟨false, 3, 1, [4, 3]⟩]


/-! # Theorems -/

/-! ## Lemmas: machine integers -/

theorem toInt32_of_range (x : Int) (h1 : -2147483648 ≤ x) (h2 : x < 2147483648) :
    toInt32 x = x := by
  unfold toInt32; omega

theorem toInt32_wrap (ty : CountTy) (x : Int) : toInt32 (ty.wrap x) = toInt32 x := by
  cases ty <;> simp only [CountTy.wrap, toInt32] <;> omega

/-! ## Lemmas: association lists -/

theorem mfind_mupdate {β : Type} (f : Option β → β) (m : List (EdgeId × β)) (e e' : EdgeId) :
    mfind (mupdate f m e) e' = if e' = e then some (f (mfind m e)) else mfind m e' := by
  induction m with
  | nil =>
    by_cases h : e' = e
    · simp [mupdate, mfind, h]
    · have h' : ¬ e = e' := fun c => h c.symm
      simp [mupdate, mfind, h, h']
  | cons p rest ih =>
    obtain ⟨k, v⟩ := p
    by_cases hk : k = e
    · subst hk
      by_cases h : e' = k
      · subst h; simp [mupdate, mfind]
      · have h' : ¬ k = e' := fun c => h c.symm
        simp [mupdate, mfind, h, h']
    · by_cases h : e' = e
      · subst h; simp [mupdate, mfind, hk, ih]
      · by_cases hk' : k = e'
        · simp [mupdate, mfind, hk, hk', h]
        · simp [mupdate, mfind, hk, hk', h, ih]

theorem mkeys_mupdate_of_mem {β : Type} (f : Option β → β) (m : List (EdgeId × β)) (e : EdgeId)
    (h : e ∈ mkeys m) : mkeys (mupdate f m e) = mkeys m := by
  induction m with
  | nil => simp [mkeys] at h
  | cons p rest ih =>
    obtain ⟨k, v⟩ := p
    by_cases hk : k = e
    · simp [mupdate, mkeys, hk]
    · have h' : e ∈ mkeys rest := by
        simp only [mkeys, List.map_cons, List.mem_cons] at h
        rcases h with h | h
        · exact absurd h.symm hk
        · exact h
      have := ih h'
      simp only [mkeys] at this
      simp [mupdate, mkeys, hk, this]

theorem mkeys_mupdate_of_not_mem {β : Type} (f : Option β → β) (m : List (EdgeId × β))
    (e : EdgeId) (h : e ∉ mkeys m) : mkeys (mupdate f m e) = mkeys m ++ [e] := by
  induction m with
  | nil => simp [mupdate, mkeys]
  | cons p rest ih =>
    obtain ⟨k, v⟩ := p
    simp only [mkeys, List.map_cons, List.mem_cons, not_or] at h
    have hk : ¬ k = e := fun c => h.1 c.symm
    have := ih h.2
    simp only [mkeys] at this
    simp [mupdate, mkeys, hk, this]

theorem mfind_isSome_iff {β : Type} (m : List (EdgeId × β)) (e : EdgeId) :
    (mfind m e).isSome = true ↔ e ∈ mkeys m := by
  induction m with
  | nil => simp [mfind, mkeys]
  | cons p rest ih =>
    obtain ⟨k, v⟩ := p
    by_cases hk : k = e
    · simp [mfind, mkeys, hk]
    · have hk' : ¬ e = k := fun c => hk c.symm
      simp only [mkeys] at ih
      simp [mfind, mkeys, hk, hk', ih]

theorem mfind_eq_some_of_mem {β : Type} (m : List (EdgeId × β)) (hnd : (mkeys m).Nodup)
    (e : EdgeId) (v : β) (h : (e, v) ∈ m) : mfind m e = some v := by
  induction m with
  | nil => simp at h
  | cons p rest ih =>
    obtain ⟨k, w⟩ := p
    simp only [mkeys, List.map_cons, List.nodup_cons] at hnd
    rcases List.mem_cons.1 h with h | h
    · cases h; simp [mfind]
    · have hk : ¬ k = e := by
        intro c; subst c
        exact hnd.1 (List.mem_map.2 ⟨(k, v), h, rfl⟩)
      simp only [mfind, hk, if_false]
      exact ih hnd.2 h

theorem mem_of_mfind_eq_some {β : Type} (m : List (EdgeId × β)) (e : EdgeId) (v : β)
    (h : mfind m e = some v) : (e, v) ∈ m := by
  induction m with
  | nil => simp [mfind] at h
  | cons p rest ih =>
    obtain ⟨k, w⟩ := p
    by_cases hk : k = e
    · subst hk; simp [mfind] at h; subst h; simp
    · simp only [mfind, hk, if_false] at h
      exact List.mem_cons_of_mem _ (ih h)

/-! ## Lemmas: `get_matched_edges` -/

theorem mfind_merge_domain (ty : CountTy) (e : EdgeId) (m : EdgeAlnInfo) (d : Domain)
    (e' : EdgeId) :
    mfind (merge_domain ty e m d) e' =
      if e' = e then some (ovmax (mfind m e) (loverhang d, roverhang ty d)) else mfind m e' := by
  unfold merge_domain
  cases hm : mfind m e with
  | none =>
    simp [mcount, hm, mfind_mupdate, ovmax]
  | some q =>
    simp only [mcount, hm, Option.isSome_some, Bool.not_true, Bool.false_eq_true, if_false,
      mfind_mupdate, Option.getD_some, ovmax]
    by_cases h : e' = e
    · simp only [h, if_true, Option.some.injEq, Prod.mk.injEq, max_def]
      constructor <;> split_ifs <;> omega
    · simp [h]

theorem mfind_foldl_merge_domain (ty : CountTy) (e : EdgeId) (ds : List Domain)
    (m : EdgeAlnInfo) (e' : EdgeId) :
    mfind (ds.foldl (merge_domain ty e) m) e' =
      if e' = e then ovfold (mfind m e) (ds.map (fun d => (loverhang d, roverhang ty d)))
      else mfind m e' := by
  induction ds generalizing m with
  | nil => by_cases h : e' = e <;> simp [ovfold, h]
  | cons d ds ih =>
    simp only [List.foldl_cons, List.map_cons]
    rw [ih]
    by_cases h : e' = e
    · simp only [h, if_true, mfind_merge_domain, ovfold, List.foldl_cons]
    · simp [h, mfind_merge_domain]

theorem ovfold_append (o : Option (Int × Int)) (ps qs : List (Int × Int)) :
    ovfold o (ps ++ qs) = ovfold (ovfold o ps) qs := by
  simp [ovfold, List.foldl_append]

theorem mfind_get_matched_edges_loop (ty : CountTy) (edges : List EdgeId) (hits : List Hit)
    (m m' : EdgeAlnInfo) (h : get_matched_edges_loop ty edges hits m = some m') (e : EdgeId) :
    mfind m' e = ovfold (mfind m e) (domain_overhangs ty edges hits e) := by
  induction hits generalizing m with
  | nil =>
    simp only [get_matched_edges_loop, Option.some.injEq] at h
    subst h; simp [domain_overhangs, ovfold]
  | cons hit rest ih =>
    unfold get_matched_edges_loop at h
    by_cases hacc : (!hit.reported || !hit.included) = true
    · rw [if_pos hacc] at h
      have hna : hit.accepted = false := by
        unfold Hit.accepted
        cases hr : hit.reported <;> cases hi : hit.included <;> simp_all
      rw [ih m h]
      simp [domain_overhangs, hna]
    · rw [if_neg hacc] at h
      have ha : hit.accepted = true := by
        unfold Hit.accepted
        cases hr : hit.reported <;> cases hi : hit.included <;> simp_all
      cases hres : resolve edges hit with
      | none => rw [hres] at h; simp at h
      | some e0 =>
        rw [hres] at h
        simp only at h
        rw [ih _ h, mfind_foldl_merge_domain]
        by_cases he : e = e0
        · subst he
          simp [domain_overhangs, ha, hres, ovfold_append]
        · have he' : ¬ e0 = e := fun c => he c.symm
          simp [domain_overhangs, ha, hres, he, he']

theorem get_matched_edges_loop_isSome (ty : CountTy) (edges : List EdgeId) (hits : List Hit)
    (hres : ∀ h ∈ hits, h.reported = true → h.included = true → (resolve edges h).isSome = true)
    (m : EdgeAlnInfo) : ∃ m', get_matched_edges_loop ty edges hits m = some m' := by
  induction hits generalizing m with
  | nil => exact ⟨m, rfl⟩
  | cons hit rest ih =>
    have ih' := ih (fun h hh => hres h (List.mem_cons_of_mem _ hh))
    unfold get_matched_edges_loop
    by_cases hacc : (!hit.reported || !hit.included) = true
    · rw [if_pos hacc]; exact ih' m
    · rw [if_neg hacc]
      have hr : hit.reported = true := by
        cases hr : hit.reported <;> simp_all
      have hi : hit.included = true := by
        cases hi : hit.included <;> simp_all
      have := hres hit (List.mem_cons_self _ _) hr hi
      obtain ⟨e0, he0⟩ := Option.isSome_iff_exists.1 this
      rw [he0]
      exact ih' _

theorem ovfold_some_spec (ps : List (Int × Int)) (q : Int × Int) :
    ∃ a b, ovfold (some q) ps = some (a, b) ∧
      IsMaxOf (q.1 :: ps.map Prod.fst) a ∧ IsMaxOf (q.2 :: ps.map Prod.snd) b := by
  induction ps generalizing q with
  | nil =>
    refine ⟨q.1, q.2, by simp [ovfold], ?_, ?_⟩ <;> simp [IsMaxOf]
  | cons p ps ih =>
    obtain ⟨a, b, hab, ha, hb⟩ := ih (max q.1 p.1, max q.2 p.2)
    refine ⟨a, b, by simpa [ovfold, ovmax] using hab, ?_, ?_⟩
    · obtain ⟨hmem, hle⟩ := ha
      constructor
      · simp only [List.map_cons, List.mem_cons] at hmem ⊢
        rcases hmem with h | h
        · rcases max_choice q.1 p.1 with h' | h'
          · left; rw [h, h']
          · right; left; rw [h, h']
        · right; right; exact h
      · intro x hx
        simp only [List.map_cons, List.mem_cons] at hx
        have hm := hle (max q.1 p.1) (by simp)
        rcases hx with h | h | h
        · rw [h]; exact le_trans (le_max_left _ _) hm
        · rw [h]; exact le_trans (le_max_right _ _) hm
        · exact hle x (by simp [h])
    · obtain ⟨hmem, hle⟩ := hb
      constructor
      · simp only [List.map_cons, List.mem_cons] at hmem ⊢
        rcases hmem with h | h
        · rcases max_choice q.2 p.2 with h' | h'
          · left; rw [h, h']
          · right; left; rw [h, h']
        · right; right; exact h
      · intro x hx
        simp only [List.map_cons, List.mem_cons] at hx
        have hm := hle (max q.2 p.2) (by simp)
        rcases hx with h | h | h
        · rw [h]; exact le_trans (le_max_left _ _) hm
        · rw [h]; exact le_trans (le_max_right _ _) hm
        · exact hle x (by simp [h])

theorem ovfold_none_spec (ps : List (Int × Int)) :
    (ps = [] → ovfold none ps = none) ∧
    (ps ≠ [] → ∃ a b, ovfold none ps = some (a, b) ∧
      IsMaxOf (ps.map Prod.fst) a ∧ IsMaxOf (ps.map Prod.snd) b) := by
  constructor
  · intro h; subst h; rfl
  · intro h
    cases ps with
    | nil => exact absurd rfl h
    | cons p ps =>
      obtain ⟨a, b, hab, ha, hb⟩ := ovfold_some_spec ps p
      exact ⟨a, b, by simpa [ovfold, ovmax] using hab, by simpa using ha, by simpa using hb⟩

theorem IsMaxOf_unique (xs ys : List Int) (a b : Int) (h : ∀ x, x ∈ xs ↔ x ∈ ys)
    (ha : IsMaxOf xs a) (hb : IsMaxOf ys b) : a = b :=
  le_antisymm (hb.2 a ((h a).1 ha.1)) (ha.2 b ((h b).2 hb.1))

theorem mem_domain_overhangs (ty : CountTy) (edges : List EdgeId) (hits : List Hit)
    (e : EdgeId) (p : Int × Int) :
    p ∈ domain_overhangs ty edges hits e ↔
      ∃ h ∈ hits, h.reported = true ∧ h.included = true ∧ resolve edges h = some e ∧
        ∃ d ∈ h.domains, (loverhang d, roverhang ty d) = p := by
  induction hits with
  | nil => simp [domain_overhangs]
  | cons hit rest ih =>
    simp only [domain_overhangs, List.mem_append, ih, List.mem_cons, exists_eq_or_imp]
    apply or_congr_left
    by_cases hc : (hit.accepted && resolve edges hit == some e) = true
    · rw [if_pos hc]
      simp only [Hit.accepted, Bool.and_eq_true, beq_iff_eq] at hc
      simp [hc.1.1, hc.1.2, hc.2]
    · rw [if_neg hc]
      simp only [Hit.accepted, Bool.and_eq_true, beq_iff_eq] at hc
      simp only [List.not_mem_nil, false_iff]
      rintro ⟨h1, h2, h3, _⟩
      exact hc ⟨⟨h1, h2⟩, h3⟩

theorem rearranged_backward (hits hits' : List Hit) (h : HitsRearranged hits hits') :
    ∀ h' ∈ hits', ∃ h0 ∈ hits, Hit.sameUpToDomainOrder h0 h' := by
  obtain ⟨mid, hf, hp⟩ := h
  intro h' hh'
  have hmid : h' ∈ mid := hp.symm.subset hh'
  clear hp hh'
  induction hf with
  | nil => simp at hmid
  | cons hab _ ih =>
    rcases List.mem_cons.1 hmid with h | h
    · subst h; exact ⟨_, List.mem_cons_self _ _, hab⟩
    · obtain ⟨h0, hh0, hs⟩ := ih h
      exact ⟨h0, List.mem_cons_of_mem _ hh0, hs⟩

theorem rearranged_forward (hits hits' : List Hit) (h : HitsRearranged hits hits') :
    ∀ h0 ∈ hits, ∃ h' ∈ hits', Hit.sameUpToDomainOrder h0 h' := by
  obtain ⟨mid, hf, hp⟩ := h
  intro h0 hh0
  suffices hs : ∃ h' ∈ mid, Hit.sameUpToDomainOrder h0 h' by
    obtain ⟨h', hm, hs⟩ := hs
    exact ⟨h', hp.subset hm, hs⟩
  clear hp
  induction hf with
  | nil => simp at hh0
  | cons hab _ ih =>
    rcases List.mem_cons.1 hh0 with h | h
    · subst h; exact ⟨_, List.mem_cons_self _ _, hab⟩
    · obtain ⟨h', hm, hs⟩ := ih h
      exact ⟨h', List.mem_cons_of_mem _ hm, hs⟩

theorem resolve_congr (edges : List EdgeId) (h h' : Hit) (hn : h'.name = h.name) :
    resolve edges h' = resolve edges h := by
  simp [resolve, hn]

theorem mem_domain_overhangs_rearranged (ty : CountTy) (edges : List EdgeId)
    (hits hits' : List Hit) (h : HitsRearranged hits hits') (e : EdgeId) (p : Int × Int) :
    p ∈ domain_overhangs ty edges hits e ↔ p ∈ domain_overhangs ty edges hits' e := by
  rw [mem_domain_overhangs, mem_domain_overhangs]
  constructor
  · rintro ⟨h0, hh0, hr, hi, hres, d, hd, hp⟩
    obtain ⟨h', hh', hn, hr', hi', hdp⟩ := rearranged_forward hits hits' h h0 hh0
    exact ⟨h', hh', by rw [hr', hr], by rw [hi', hi],
      by rw [resolve_congr edges h0 h' hn, hres], d, hdp.symm.subset hd, hp⟩
  · rintro ⟨h', hh', hr, hi, hres, d, hd, hp⟩
    obtain ⟨h0, hh0, hn, hr', hi', hdp⟩ := rearranged_backward hits hits' h h' hh'
    exact ⟨h0, hh0, by rw [← hr', hr], by rw [← hi', hi],
      by rw [← resolve_congr edges h0 h' hn, hres], d, hdp.subset hd, hp⟩

theorem ovfold_none_congr (ps qs : List (Int × Int)) (h : ∀ p, p ∈ ps ↔ p ∈ qs) :
    ovfold none ps = ovfold none qs := by
  by_cases hps : ps = []
  · have hqs : qs = [] := by
      subst hps
      cases qs with
      | nil => rfl
      | cons q qs => exact absurd ((h q).2 (List.mem_cons_self _ _)) (List.not_mem_nil _)
    rw [hps, hqs]
  · have hqs : qs ≠ [] := by
      intro c; subst c
      cases ps with
      | nil => exact hps rfl
      | cons p ps => exact absurd ((h p).1 (List.mem_cons_self _ _)) (List.not_mem_nil _)
    obtain ⟨a, b, hab, ha, hb⟩ := (ovfold_none_spec ps).2 hps
    obtain ⟨a', b', hab', ha', hb'⟩ := (ovfold_none_spec qs).2 hqs
    have e1 : a = a' := IsMaxOf_unique _ _ a a' (fun x => by
      simp only [List.mem_map]
      exact ⟨fun ⟨p, hp, hx⟩ => ⟨p, (h p).1 hp, hx⟩, fun ⟨p, hp, hx⟩ => ⟨p, (h p).2 hp, hx⟩⟩) ha ha'
    have e2 : b = b' := IsMaxOf_unique _ _ b b' (fun x => by
      simp only [List.mem_map]
      exact ⟨fun ⟨p, hp, hx⟩ => ⟨p, (h p).1 hp, hx⟩, fun ⟨p, hp, hx⟩ => ⟨p, (h p).2 hp, hx⟩⟩) hb hb'
    rw [hab, hab', e1, e2]

theorem mfind_get_matched_edges (ty : CountTy) (edges : List EdgeId) (hits : List Hit)
    (m : EdgeAlnInfo) (h : get_matched_edges ty edges hits = some m) (e : EdgeId) :
    mfind m e = ovfold none (domain_overhangs ty edges hits e) := by
  have := mfind_get_matched_edges_loop ty edges hits [] m h e
  simpa [mfind] using this

theorem mupdate_nodup_keys {β : Type} (f : Option β → β) (m : List (EdgeId × β)) (e : EdgeId)
    (h : (mkeys m).Nodup) : (mkeys (mupdate f m e)).Nodup := by
  by_cases he : e ∈ mkeys m
  · rw [mkeys_mupdate_of_mem f m e he]; exact h
  · rw [mkeys_mupdate_of_not_mem f m e he]
    exact List.nodup_append.2 ⟨h, List.nodup_singleton e, by
      intro a ha hb
      rw [List.mem_singleton] at hb
      exact he (hb ▸ ha)⟩

theorem merge_domain_nodup_keys (ty : CountTy) (e : EdgeId) (m : EdgeAlnInfo) (d : Domain)
    (h : (mkeys m).Nodup) : (mkeys (merge_domain ty e m d)).Nodup := by
  unfold merge_domain
  split
  · exact mupdate_nodup_keys _ m e h
  · exact mupdate_nodup_keys _ m e h

theorem foldl_merge_domain_nodup_keys (ty : CountTy) (e : EdgeId) (ds : List Domain)
    (m : EdgeAlnInfo) (h : (mkeys m).Nodup) :
    (mkeys (ds.foldl (merge_domain ty e) m)).Nodup := by
  induction ds generalizing m with
  | nil => exact h
  | cons d ds ih => exact ih _ (merge_domain_nodup_keys ty e m d h)

theorem get_matched_edges_loop_nodup_keys (ty : CountTy) (edges : List EdgeId)
    (hits : List Hit) (m m' : EdgeAlnInfo) (hm : (mkeys m).Nodup)
    (h : get_matched_edges_loop ty edges hits m = some m') : (mkeys m').Nodup := by
  induction hits generalizing m with
  | nil =>
    simp only [get_matched_edges_loop, Option.some.injEq] at h
    subst h; exact hm
  | cons hit rest ih =>
    unfold get_matched_edges_loop at h
    by_cases hacc : (!hit.reported || !hit.included) = true
    · rw [if_pos hacc] at h; exact ih m hm h
    · rw [if_neg hacc] at h
      cases hres : resolve edges hit with
      | none => rw [hres] at h; simp at h
      | some e0 =>
        rw [hres] at h
        simp only at h
        exact ih _ (foldl_merge_domain_nodup_keys ty e0 hit.domains m hm) h

/-- The keys of the map returned by `get_matched_edges` are distinct. -/
theorem get_matched_edges_nodup_keys (ty : CountTy) (edges : List EdgeId) (hits : List Hit)
    (m : EdgeAlnInfo) (h : get_matched_edges ty edges hits = some m) : (mkeys m).Nodup :=
  get_matched_edges_loop_nodup_keys ty edges hits [] m (by simp [mkeys]) h

/-! ## Claims on `get_matched_edges` -/

/-- C1. When every reported-and-included hit resolves to an edge, `get_matched_edges`
returns a map whose record for an edge `e` is absent if no domain of such a hit
resolves to `e`, and otherwise is the pair (greatest `loverhang`, greatest
`roverhang`) over all domains of all reported-and-included hits resolving to `e`;
and for every rearrangement of the hits and of the domains inside each hit the
function returns a map with the same record under every edge. -/
theorem get_matched_edges_coordinatewise_max (ty : CountTy) (edges : List EdgeId)
    (hits : List Hit)
    (hres : ∀ h ∈ hits, h.reported = true → h.included = true →
      (resolve edges h).isSome = true) :
    ∃ m, get_matched_edges ty edges hits = some m ∧
      (∀ e,
        (domain_overhangs ty edges hits e = [] → mfind m e = none) ∧
        (domain_overhangs ty edges hits e ≠ [] →
          ∃ a b, mfind m e = some (a, b) ∧
            IsMaxOf ((domain_overhangs ty edges hits e).map Prod.fst) a ∧
            IsMaxOf ((domain_overhangs ty edges hits e).map Prod.snd) b)) ∧
      (∀ hits', HitsRearranged hits hits' →
        ∃ m', get_matched_edges ty edges hits' = some m' ∧ ∀ e, mfind m' e = mfind m e) := by
  obtain ⟨m, hm⟩ := get_matched_edges_loop_isSome ty edges hits hres []
  refine ⟨m, hm, ?_, ?_⟩
  · intro e
    rw [mfind_get_matched_edges ty edges hits m hm e]
    exact ovfold_none_spec _
  · intro hits' hre
    have hres' : ∀ h ∈ hits', h.reported = true → h.included = true →
        (resolve edges h).isSome = true := by
      intro h' hh' hr hi
      obtain ⟨h0, hh0, hn, hr', hi', _⟩ := rearranged_backward hits hits' hre h' hh'
      rw [resolve_congr edges h0 h' hn]
      exact hres h0 hh0 (by rw [← hr', hr]) (by rw [← hi', hi])
    obtain ⟨m', hm'⟩ := get_matched_edges_loop_isSome ty edges hits' hres' []
    refine ⟨m', hm', fun e => ?_⟩
    rw [mfind_get_matched_edges ty edges hits m hm e,
      mfind_get_matched_edges ty edges hits' m' hm' e]
    exact ovfold_none_congr _ _
      (fun p => (mem_domain_overhangs_rearranged ty edges hits hits' hre e p).symm)

/-- C4. Whenever the differences `M - hmm_end` and `L - seq_end` are representable in
`int`, the overhangs computed for a domain are exactly the signed integers
`hmm_start - seq_start` and `(M - hmm_end) - (L - seq_end)`, whichever 32- or 64-bit
type, signed or unsigned, the differences are evaluated in, also when they are
negative; the record stored for a fresh edge is this pair, and it is what
`get_matched_edges` returns for a single accepted hit with this single domain. -/
theorem overhangs_exact_signed (ty : CountTy) (d : Domain) (e : EdgeId)
    (hM1 : -2147483648 ≤ d.M - d.hmmpos.2) (hM2 : d.M - d.hmmpos.2 < 2147483648)
    (hL1 : -2147483648 ≤ d.L - d.seqpos.2) (hL2 : d.L - d.seqpos.2 < 2147483648) :
    loverhang d = d.hmmpos.1 - d.seqpos.1 ∧
    roverhang ty d = (d.M - d.hmmpos.2) - (d.L - d.seqpos.2) ∧
    merge_domain ty e [] d =
      [(e, (d.hmmpos.1 - d.seqpos.1, (d.M - d.hmmpos.2) - (d.L - d.seqpos.2)))] ∧
    ∀ (edges : List EdgeId) (name : String), resolve edges ⟨name, true, true, [d]⟩ = some e →
      get_matched_edges ty edges [⟨name, true, true, [d]⟩] =
        some [(e, (d.hmmpos.1 - d.seqpos.1, (d.M - d.hmmpos.2) - (d.L - d.seqpos.2)))] := by
  have hr : roverhang ty d = (d.M - d.hmmpos.2) - (d.L - d.seqpos.2) := by
    unfold roverhang
    rw [toInt32_wrap, toInt32_wrap, toInt32_of_range _ hM1 hM2, toInt32_of_range _ hL1 hL2]
  have hm : merge_domain ty e [] d =
      [(e, (d.hmmpos.1 - d.seqpos.1, (d.M - d.hmmpos.2) - (d.L - d.seqpos.2)))] := by
    simp [merge_domain, mcount, mfind, mupdate, hr, loverhang]
  refine ⟨rfl, hr, hm, ?_⟩
  intro edges name hres
  simp [get_matched_edges, get_matched_edges_loop, hres, hm]

/-- C5. When every reported-and-included hit resolves to an edge, an edge is a key of
the map returned by `get_matched_edges` if and only if some hit resolving to it is
reported, included and has at least one domain. -/
theorem get_matched_edges_keys (ty : CountTy) (edges : List EdgeId) (hits : List Hit)
    (hres : ∀ h ∈ hits, h.reported = true → h.included = true →
      (resolve edges h).isSome = true) :
    ∃ m, get_matched_edges ty edges hits = some m ∧
      ∀ e, mcount m e = true ↔
        ∃ h ∈ hits, h.reported = true ∧ h.included = true ∧ resolve edges h = some e ∧
          h.domains ≠ [] := by
  obtain ⟨m, hm⟩ := get_matched_edges_loop_isSome ty edges hits hres []
  refine ⟨m, hm, fun e => ?_⟩
  unfold mcount
  rw [mfind_get_matched_edges ty edges hits m hm e]
  constructor
  · intro hsome
    have hne : domain_overhangs ty edges hits e ≠ [] := by
      intro c
      rw [(ovfold_none_spec _).1 c] at hsome
      simp at hsome
    obtain ⟨p, hp⟩ := List.exists_mem_of_ne_nil _ hne
    obtain ⟨h, hh, hr, hi, hre, d, hd, _⟩ := (mem_domain_overhangs ty edges hits e p).1 hp
    exact ⟨h, hh, hr, hi, hre, List.ne_nil_of_mem hd⟩
  · rintro ⟨h, hh, hr, hi, hre, hd⟩
    obtain ⟨d, hd'⟩ := List.exists_mem_of_ne_nil _ hd
    have hp : (loverhang d, roverhang ty d) ∈ domain_overhangs ty edges hits e :=
      (mem_domain_overhangs ty edges hits e _).2 ⟨h, hh, hr, hi, hre, d, hd', rfl⟩
    obtain ⟨a, b, hab, _, _⟩ := (ovfold_none_spec _).2 (List.ne_nil_of_mem hp)
    rw [hab]; rfl

/-! ## Lemmas: `ExtractNeighbourhoods` -/

/-- The vertex set `extract_step` adds under the seed edge of an entry. -/
theorem mfind_extract_step (graph : Graph) (dj : Dijkstra) (mult : Int) (nb : Neighbourhoods)
    (entry : EdgeId × (Int × Int)) (e : EdgeId) :
    mfind (extract_step graph dj mult nb entry) e =
      if e = entry.1 then
        some ((((((mfind nb entry.1).getD ∅) ∪
          (if entry.2.2 * mult > 0 then dj.fdijkstra (entry.2.2 * mult) (graph.EdgeEnd entry.1)
            else []).toFinset) ∪
          (if entry.2.1 * mult > 0 then dj.bdijkstra (entry.2.1 * mult) (graph.EdgeStart entry.1)
            else []).toFinset) ∪ {graph.EdgeEnd entry.1}) ∪ {graph.EdgeStart entry.1})
      else mfind nb e := by
  unfold extract_step nb_insert
  by_cases h : e = entry.1
  · subst h
    simp only [mfind_mupdate, if_true, Option.getD_some]
  · simp only [mfind_mupdate, h, if_false]

theorem mfind_foldl_extract_step_of_not_mem (graph : Graph) (dj : Dijkstra) (mult : Int)
    (me : EdgeAlnInfo) (nb : Neighbourhoods) (e : EdgeId) (h : e ∉ mkeys me) :
    mfind (me.foldl (extract_step graph dj mult) nb) e = mfind nb e := by
  induction me generalizing nb with
  | nil => rfl
  | cons p rest ih =>
    simp only [mkeys, List.map_cons, List.mem_cons, not_or] at h
    simp only [List.foldl_cons]
    rw [ih _ (by simpa [mkeys] using h.2), mfind_extract_step, if_neg h.1]

theorem mfind_foldl_extract_step (graph : Graph) (dj : Dijkstra) (mult : Int)
    (me : EdgeAlnInfo) (hnd : (mkeys me).Nodup) (nb : Neighbourhoods) (e : EdgeId)
    (ov : Int × Int) (hfind : mfind me e = some ov) (hnb : mfind nb e = none) :
    mfind (me.foldl (extract_step graph dj mult) nb) e =
      some (((((if ov.2 * mult > 0 then dj.fdijkstra (ov.2 * mult) (graph.EdgeEnd e)
            else []).toFinset) ∪
          (if ov.1 * mult > 0 then dj.bdijkstra (ov.1 * mult) (graph.EdgeStart e)
            else []).toFinset) ∪ {graph.EdgeEnd e}) ∪ {graph.EdgeStart e}) := by
  induction me generalizing nb with
  | nil => simp [mfind] at hfind
  | cons p rest ih =>
    obtain ⟨k, w⟩ := p
    simp only [mkeys, List.map_cons, List.nodup_cons] at hnd
    simp only [List.foldl_cons]
    by_cases hk : k = e
    · subst hk
      simp only [mfind, if_true, Option.some.injEq] at hfind
      subst hfind
      rw [mfind_foldl_extract_step_of_not_mem _ _ _ _ _ _ hnd.1, mfind_extract_step]
      simp [hnb]
    · simp only [mfind, hk, if_false] at hfind
      have hk' : ¬ e = k := fun c => hk c.symm
      exact ih hnd.2 _ hfind (by rw [mfind_extract_step]; simp [hk', hnb])

/-! ## Claims on `ExtractNeighbourhoods` -/

/-- C6. For a map of matched edges (distinct keys) and a matched edge whose two
overhangs are both at most 0, with `mult` 2 or 6, the neighbourhood built by
`ExtractNeighbourhoods` is exactly the set of the start and the end vertex of the
edge, whatever the two searches would return. -/
theorem ExtractNeighbourhoods_nonpositive_overhangs (matched_edges : EdgeAlnInfo)
    (graph : Graph) (dj : Dijkstra) (mult : Int) (hmult : mult = 2 ∨ mult = 6)
    (hnd : (mkeys matched_edges).Nodup) (e : EdgeId) (left right : Int)
    (hfind : mfind matched_edges e = some (left, right)) (hl : left ≤ 0) (hr : right ≤ 0) :
    mfind (ExtractNeighbourhoods matched_edges graph dj mult) e =
      some {graph.EdgeStart e, graph.EdgeEnd e} := by
  unfold ExtractNeighbourhoods
  rw [mfind_foldl_extract_step graph dj mult matched_edges hnd [] e (left, right) hfind rfl]
  have h1 : ¬ right * mult > 0 := by rcases hmult with h | h <;> subst h <;> omega
  have h2 : ¬ left * mult > 0 := by rcases hmult with h | h <;> subst h <;> omega
  simp only [h1, h2, if_false, List.toFinset_nil, Finset.empty_union, Option.some.injEq]
  ext v
  simp only [Finset.mem_union, Finset.mem_singleton, Finset.mem_insert]
  tauto

/-- C7. For a map of matched edges (distinct keys), a matched edge with overhangs
`(left, right)` and `mult` 2 or 6, the neighbourhood built by `ExtractNeighbourhoods`
is `F ∪ B ∪ {start, end}`, where `F` is what the forward search from the end vertex
with budget `right * mult` reaches if `right > 0` and is empty otherwise, and `B` is
what the backward search from the start vertex with budget `left * mult` reaches if
`left > 0` and is empty otherwise. -/
theorem ExtractNeighbourhoods_union (matched_edges : EdgeAlnInfo)
    (graph : Graph) (dj : Dijkstra) (mult : Int) (hmult : mult = 2 ∨ mult = 6)
    (hnd : (mkeys matched_edges).Nodup) (e : EdgeId) (left right : Int)
    (hfind : mfind matched_edges e = some (left, right)) :
    mfind (ExtractNeighbourhoods matched_edges graph dj mult) e =
      some ((if right > 0 then (dj.fdijkstra (right * mult) (graph.EdgeEnd e)).toFinset else ∅) ∪
        (if left > 0 then (dj.bdijkstra (left * mult) (graph.EdgeStart e)).toFinset else ∅) ∪
        {graph.EdgeStart e, graph.EdgeEnd e}) := by
  unfold ExtractNeighbourhoods
  rw [mfind_foldl_extract_step graph dj mult matched_edges hnd [] e (left, right) hfind rfl]
  have h1 : right * mult > 0 ↔ right > 0 := by
    rcases hmult with h | h <;> subst h <;> constructor <;> intro h <;> omega
  have h2 : left * mult > 0 ↔ left > 0 := by
    rcases hmult with h | h <;> subst h <;> constructor <;> intro h <;> omega
  simp only [h1, h2, Option.some.injEq]
  ext v
  by_cases hr : right > 0 <;> by_cases hl : left > 0 <;>
    simp only [hr, hl, if_true, if_false, List.toFinset_nil, Finset.mem_union,
      Finset.mem_singleton, Finset.mem_insert, Finset.not_mem_empty] <;> tauto

/-! ## Lemmas: `join_components` -/

theorem join_scan_cons_pos (graph : Graph) (seed : EdgeId) (acc : Finset VertexId)
    (x : EdgeId × Finset VertexId) (rest : List (EdgeId × Finset VertexId)) (st : JoinState)
    (h : graph.EdgeStart x.1 ∈ acc ∨ graph.EdgeEnd x.1 ∈ acc) :
    join_scan graph seed acc (x :: rest) st =
      join_scan graph seed (acc ∪ x.2) rest
        ⟨x.1 :: st.removed, st.fused ++ [(seed, x.1)]⟩ := by
  rw [join_scan, if_pos h]

theorem join_scan_cons_neg (graph : Graph) (seed : EdgeId) (acc : Finset VertexId)
    (x : EdgeId × Finset VertexId) (rest : List (EdgeId × Finset VertexId)) (st : JoinState)
    (h : ¬ (graph.EdgeStart x.1 ∈ acc ∨ graph.EdgeEnd x.1 ∈ acc)) :
    join_scan graph seed acc (x :: rest) st = join_scan graph seed acc rest st := by
  rw [join_scan, if_neg h]

theorem join_scan_fst_state (graph : Graph) (seed seed' : EdgeId) (acc : Finset VertexId)
    (l : List (EdgeId × Finset VertexId)) (st st' : JoinState) :
    (join_scan graph seed acc l st).1 = (join_scan graph seed' acc l st').1 := by
  induction l generalizing acc st st' with
  | nil => rfl
  | cons x rest ih =>
    unfold join_scan
    by_cases h : graph.EdgeStart x.1 ∈ acc ∨ graph.EdgeEnd x.1 ∈ acc
    · rw [if_pos h, if_pos h]; exact ih _ _ _
    · rw [if_neg h, if_neg h]; exact ih _ _ _

theorem join_scan_append (graph : Graph) (seed : EdgeId) (acc : Finset VertexId)
    (l1 l2 : List (EdgeId × Finset VertexId)) (st : JoinState) :
    join_scan graph seed acc (l1 ++ l2) st =
      join_scan graph seed (join_scan graph seed acc l1 st).1 l2
        (join_scan graph seed acc l1 st).2 := by
  induction l1 generalizing acc st with
  | nil => rfl
  | cons x rest ih =>
    simp only [List.cons_append]
    by_cases h : graph.EdgeStart x.1 ∈ acc ∨ graph.EdgeEnd x.1 ∈ acc
    · rw [join_scan_cons_pos _ _ _ _ _ _ h, join_scan_cons_pos _ _ _ _ _ _ h]; exact ih _ _
    · rw [join_scan_cons_neg _ _ _ _ _ _ h, join_scan_cons_neg _ _ _ _ _ _ h]; exact ih _ _

theorem join_scan_subset (graph : Graph) (seed : EdgeId) (acc : Finset VertexId)
    (l : List (EdgeId × Finset VertexId)) (st : JoinState) :
    acc ⊆ (join_scan graph seed acc l st).1 := by
  induction l generalizing acc st with
  | nil => exact Finset.Subset.refl _
  | cons x rest ih =>
    unfold join_scan
    by_cases h : graph.EdgeStart x.1 ∈ acc ∨ graph.EdgeEnd x.1 ∈ acc
    · rw [if_pos h]; exact Finset.Subset.trans Finset.subset_union_left (ih _ _)
    · rw [if_neg h]; exact ih _ _

theorem join_scan_removed_mono (graph : Graph) (seed : EdgeId) (acc : Finset VertexId)
    (l : List (EdgeId × Finset VertexId)) (st : JoinState) (k : EdgeId)
    (hk : k ∈ st.removed) : k ∈ (join_scan graph seed acc l st).2.removed := by
  induction l generalizing acc st with
  | nil => exact hk
  | cons x rest ih =>
    unfold join_scan
    by_cases h : graph.EdgeStart x.1 ∈ acc ∨ graph.EdgeEnd x.1 ∈ acc
    · rw [if_pos h]; exact ih _ _ (List.mem_cons_of_mem _ hk)
    · rw [if_neg h]; exact ih _ _ hk

theorem join_pass_removed_mono (graph : Graph) (v : List (EdgeId × Finset VertexId))
    (st : JoinState) (k : EdgeId) (hk : k ∈ st.removed) :
    k ∈ (join_pass graph v st).2.removed := by
  induction v generalizing st with
  | nil => exact hk
  | cons it rest ih =>
    unfold join_pass
    by_cases h : it.1 ∈ st.removed
    · rw [if_pos h]; exact ih _ hk
    · rw [if_neg h]; exact ih _ (join_scan_removed_mono _ _ _ _ _ _ hk)

theorem join_collect_keys_not_removed (removed : List EdgeId)
    (v : List (EdgeId × Finset VertexId)) (result : Neighbourhoods) (k : EdgeId)
    (hk : k ∈ mkeys (join_collect removed v result)) : k ∈ mkeys result ∨ k ∉ removed := by
  induction v generalizing result with
  | nil => exact Or.inl hk
  | cons it rest ih =>
    unfold join_collect at hk
    by_cases h : it.1 ∈ removed
    · rw [if_pos h] at hk; exact ih _ hk
    · rw [if_neg h] at hk
      by_cases hc : mcount result it.1 = true
      · rw [if_pos hc] at hk; exact ih _ hk
      · rw [if_neg hc] at hk
        rcases ih _ hk with h' | h'
        · simp only [mkeys, List.map_append, List.map_cons, List.map_nil, List.mem_append,
            List.mem_singleton] at h'
          rcases h' with h' | h'
          · exact Or.inl h'
          · right; rw [h']; exact h
        · exact Or.inr h'

theorem join_sorted_key_not_removed (graph : Graph) (v : List (EdgeId × Finset VertexId))
    (k : EdgeId) (hk : k ∈ mkeys (join_sorted graph v)) :
    k ∉ (join_pass graph v ⟨[], []⟩).2.removed := by
  unfold join_sorted at hk
  rcases join_collect_keys_not_removed _ _ _ _ hk with h | h
  · simp [mkeys] at h
  · exact h

/-- Survivors ordered `A` before `B`: when `B` is examined against `A`, the set `A`
has accumulated contains neither endpoint of the seed edge of `B`. -/
theorem join_pass_survivors (graph : Graph) (l1 l2 l3 : List (EdgeId × Finset VertexId))
    (A B : EdgeId × Finset VertexId) (st : JoinState)
    (hA : A.1 ∉ (join_pass graph (l1 ++ A :: (l2 ++ B :: l3)) st).2.removed)
    (hB : B.1 ∉ (join_pass graph (l1 ++ A :: (l2 ++ B :: l3)) st).2.removed) :
    graph.EdgeStart B.1 ∉ (join_scan graph A.1 A.2 l2 ⟨[], []⟩).1 ∧
    graph.EdgeEnd B.1 ∉ (join_scan graph A.1 A.2 l2 ⟨[], []⟩).1 := by
  induction l1 generalizing st with
  | nil =>
    simp only [List.nil_append] at hA hB
    unfold join_pass at hA hB
    by_cases h : A.1 ∈ st.removed
    · rw [if_pos h] at hA
      exact absurd (join_pass_removed_mono _ _ _ _ h) hA
    · rw [if_neg h] at hB
      simp only at hB
      rw [join_scan_append] at hB
      rw [join_scan_fst_state graph A.1 A.1 A.2 l2 ⟨[], []⟩ st]
      by_contra hcon
      have hin : graph.EdgeStart B.1 ∈ (join_scan graph A.1 A.2 l2 st).1 ∨
          graph.EdgeEnd B.1 ∈ (join_scan graph A.1 A.2 l2 st).1 := by
        by_contra hno
        exact hcon ⟨fun c => hno (Or.inl c), fun c => hno (Or.inr c)⟩
      apply hB
      apply join_pass_removed_mono
      rw [join_scan_cons_pos _ _ _ _ _ _ hin]
      exact join_scan_removed_mono _ _ _ _ _ _ (List.mem_cons_self _ _)
  | cons C l1 ih =>
    simp only [List.cons_append] at hA hB
    unfold join_pass at hA hB
    by_cases h : C.1 ∈ st.removed
    · rw [if_pos h] at hA hB
      exact ih st hA hB
    · rw [if_neg h] at hA hB
      exact ih _ hA hB

theorem join_scan_fused (graph : Graph) (seed : EdgeId) (acc : Finset VertexId)
    (l : List (EdgeId × Finset VertexId)) (st : JoinState) (p : EdgeId × EdgeId)
    (hp : p ∈ (join_scan graph seed acc l st).2.fused) :
    p ∈ st.fused ∨ (p.1 = seed ∧ p.2 ∈ mkeys l ∧
      p.2 ∈ (join_scan graph seed acc l st).2.removed) := by
  induction l generalizing acc st with
  | nil => exact Or.inl hp
  | cons x rest ih =>
    unfold join_scan at hp ⊢
    by_cases h : graph.EdgeStart x.1 ∈ acc ∨ graph.EdgeEnd x.1 ∈ acc
    · rw [if_pos h] at hp ⊢
      rcases ih _ _ hp with h' | ⟨h1, h2, h3⟩
      · simp only [List.mem_append, List.mem_singleton] at h'
        rcases h' with h' | h'
        · exact Or.inl h'
        · right
          refine ⟨by rw [h'], by rw [h']; simp [mkeys], ?_⟩
          rw [h']
          exact join_scan_removed_mono _ _ _ _ _ _ (List.mem_cons_self _ _)
      · exact Or.inr ⟨h1, by simp only [mkeys, List.map_cons]; exact List.mem_cons_of_mem _ h2, h3⟩
    · rw [if_neg h] at hp ⊢
      rcases ih _ _ hp with h' | ⟨h1, h2, h3⟩
      · exact Or.inl h'
      · exact Or.inr ⟨h1, by simp only [mkeys, List.map_cons]; exact List.mem_cons_of_mem _ h2, h3⟩

/-- Every fusion recorded by the outer loop pairs an entry that was alive when it was
visited with an entry that stands after it in the vector and ends up removed. -/
theorem join_pass_fused (graph : Graph) (key : EdgeId → Int)
    (v : List (EdgeId × Finset VertexId)) (st : JoinState)
    (hsorted : v.Pairwise (fun n1 n2 => key n1.1 ≤ key n2.1)) (p : EdgeId × EdgeId)
    (hp : p ∈ (join_pass graph v st).2.fused) :
    p ∈ st.fused ∨ (key p.1 ≤ key p.2 ∧ p.1 ∈ mkeys v ∧ p.2 ∈ mkeys v ∧
      p.2 ∈ (join_pass graph v st).2.removed) := by
  induction v generalizing st with
  | nil => exact Or.inl hp
  | cons it rest ih =>
    rw [List.pairwise_cons] at hsorted
    unfold join_pass at hp ⊢
    by_cases h : it.1 ∈ st.removed
    · rw [if_pos h] at hp ⊢
      rcases ih _ hsorted.2 hp with h' | ⟨h1, h2, h3, h4⟩
      · exact Or.inl h'
      · exact Or.inr ⟨h1, by simp only [mkeys, List.map_cons]; exact List.mem_cons_of_mem _ h2,
          by simp only [mkeys, List.map_cons]; exact List.mem_cons_of_mem _ h3, h4⟩
    · rw [if_neg h] at hp ⊢
      rcases ih _ hsorted.2 hp with h' | ⟨h1, h2, h3, h4⟩
      · rcases join_scan_fused _ _ _ _ _ _ h' with h'' | ⟨g1, g2, g3⟩
        · exact Or.inl h''
        · right
          obtain ⟨x, hx, hxe⟩ := List.mem_map.1 g2
          refine ⟨?_, by rw [g1]; simp [mkeys],
            by simp only [mkeys, List.map_cons]; exact List.mem_cons_of_mem _ g2, ?_⟩
          · rw [g1, ← hxe]; exact hsorted.1 x hx
          · exact join_pass_removed_mono _ _ _ _ g3
      · exact Or.inr ⟨h1, by simp only [mkeys, List.map_cons]; exact List.mem_cons_of_mem _ h2,
          by simp only [mkeys, List.map_cons]; exact List.mem_cons_of_mem _ h3, h4⟩

theorem join_scan_removed_sub (graph : Graph) (seed : EdgeId) (acc : Finset VertexId)
    (l : List (EdgeId × Finset VertexId)) (st : JoinState) (k : EdgeId)
    (hk : k ∈ (join_scan graph seed acc l st).2.removed) : k ∈ st.removed ∨ k ∈ mkeys l := by
  induction l generalizing acc st with
  | nil => exact Or.inl hk
  | cons x rest ih =>
    by_cases h : graph.EdgeStart x.1 ∈ acc ∨ graph.EdgeEnd x.1 ∈ acc
    · rw [join_scan_cons_pos _ _ _ _ _ _ h] at hk
      rcases ih _ _ hk with h' | h'
      · rcases List.mem_cons.1 h' with h'' | h''
        · right; rw [h'']; simp [mkeys]
        · exact Or.inl h''
      · right; simp only [mkeys, List.map_cons]; exact List.mem_cons_of_mem _ h'
    · rw [join_scan_cons_neg _ _ _ _ _ _ h] at hk
      rcases ih _ _ hk with h' | h'
      · exact Or.inl h'
      · right; simp only [mkeys, List.map_cons]; exact List.mem_cons_of_mem _ h'

theorem join_pass_cons_removed (graph : Graph) (it : EdgeId × Finset VertexId)
    (rest : List (EdgeId × Finset VertexId)) (st : JoinState) (h : it.1 ∈ st.removed) :
    join_pass graph (it :: rest) st =
      (it :: (join_pass graph rest st).1, (join_pass graph rest st).2) := by
  rw [join_pass, if_pos h]

theorem join_pass_cons_alive (graph : Graph) (it : EdgeId × Finset VertexId)
    (rest : List (EdgeId × Finset VertexId)) (st : JoinState) (h : it.1 ∉ st.removed) :
    join_pass graph (it :: rest) st =
      ((it.1, (join_scan graph it.1 it.2 rest st).1) ::
          (join_pass graph rest (join_scan graph it.1 it.2 rest st).2).1,
        (join_pass graph rest (join_scan graph it.1 it.2 rest st).2).2) := by
  rw [join_pass, if_neg h]

theorem join_pass_removed_sub (graph : Graph) (v : List (EdgeId × Finset VertexId))
    (st : JoinState) (k : EdgeId) (hk : k ∈ (join_pass graph v st).2.removed) :
    k ∈ st.removed ∨ k ∈ mkeys v := by
  induction v generalizing st with
  | nil => exact Or.inl hk
  | cons it rest ih =>
    by_cases h : it.1 ∈ st.removed
    · rw [join_pass_cons_removed _ _ _ _ h] at hk
      rcases ih _ hk with h' | h'
      · exact Or.inl h'
      · right; simp only [mkeys, List.map_cons]; exact List.mem_cons_of_mem _ h'
    · rw [join_pass_cons_alive _ _ _ _ h] at hk
      rcases ih _ hk with h' | h'
      · rcases join_scan_removed_sub _ _ _ _ _ _ h' with h'' | h''
        · exact Or.inl h''
        · right; simp only [mkeys, List.map_cons]; exact List.mem_cons_of_mem _ h''
      · right; simp only [mkeys, List.map_cons]; exact List.mem_cons_of_mem _ h'

theorem join_pass_keys (graph : Graph) (v : List (EdgeId × Finset VertexId)) (st : JoinState) :
    mkeys (join_pass graph v st).1 = mkeys v := by
  induction v generalizing st with
  | nil => rfl
  | cons it rest ih =>
    by_cases h : it.1 ∈ st.removed
    · rw [join_pass_cons_removed _ _ _ _ h]
      simp only [mkeys, List.map_cons] at ih ⊢
      rw [ih]
    · rw [join_pass_cons_alive _ _ _ _ h]
      simp only [mkeys, List.map_cons] at ih ⊢
      rw [ih]

theorem join_scan_absorbs (graph : Graph) (seed : EdgeId) (acc : Finset VertexId)
    (l : List (EdgeId × Finset VertexId)) (st : JoinState) (p : EdgeId × EdgeId)
    (hp : p ∈ (join_scan graph seed acc l st).2.fused) :
    p ∈ st.fused ∨ ∃ x ∈ l, x.1 = p.2 ∧ x.2 ⊆ (join_scan graph seed acc l st).1 := by
  induction l generalizing acc st with
  | nil => exact Or.inl hp
  | cons x rest ih =>
    by_cases h : graph.EdgeStart x.1 ∈ acc ∨ graph.EdgeEnd x.1 ∈ acc
    · rw [join_scan_cons_pos _ _ _ _ _ _ h] at hp ⊢
      rcases ih _ _ hp with h' | ⟨y, hy, h1, h2⟩
      · simp only [List.mem_append, List.mem_singleton] at h'
        rcases h' with h' | h'
        · exact Or.inl h'
        · right
          refine ⟨x, List.mem_cons_self _ _, by rw [h'], ?_⟩
          exact Finset.Subset.trans Finset.subset_union_right (join_scan_subset _ _ _ _ _)
      · exact Or.inr ⟨y, List.mem_cons_of_mem _ hy, h1, h2⟩
    · rw [join_scan_cons_neg _ _ _ _ _ _ h] at hp ⊢
      rcases ih _ _ hp with h' | ⟨y, hy, h1, h2⟩
      · exact Or.inl h'
      · exact Or.inr ⟨y, List.mem_cons_of_mem _ hy, h1, h2⟩

theorem entry_unique_of_nodup_keys {β : Type} (m : List (EdgeId × β)) (hnd : (mkeys m).Nodup)
    (k : EdgeId) (a b : β) (ha : (k, a) ∈ m) (hb : (k, b) ∈ m) : a = b := by
  have h1 := mfind_eq_some_of_mem m hnd k a ha
  have h2 := mfind_eq_some_of_mem m hnd k b hb
  rw [h1] at h2
  exact Option.some.inj h2

/-- Under distinct keys, the absorbing entry of a recorded fusion is never removed and
its set in the updated vector contains the set of the absorbed entry. -/
theorem join_pass_fused_alive (graph : Graph) (v : List (EdgeId × Finset VertexId))
    (st : JoinState) (hnd : (mkeys v).Nodup) (p : EdgeId × EdgeId)
    (hp : p ∈ (join_pass graph v st).2.fused) :
    p ∈ st.fused ∨ (p.1 ∉ (join_pass graph v st).2.removed ∧
      ∃ S, (p.1, S) ∈ (join_pass graph v st).1 ∧ ∀ vs, (p.2, vs) ∈ v → vs ⊆ S) := by
  induction v generalizing st with
  | nil => exact Or.inl hp
  | cons it rest ih =>
    have hnd' : it.1 ∉ mkeys rest ∧ (mkeys rest).Nodup := by
      simpa [mkeys] using hnd
    have htriv : rest.Pairwise (fun n1 n2 => (fun _ : EdgeId => (0 : Int)) n1.1 ≤
        (fun _ : EdgeId => (0 : Int)) n2.1) :=
      List.pairwise_of_forall (fun _ _ => le_refl _)
    by_cases h : it.1 ∈ st.removed
    · rw [join_pass_cons_removed _ _ _ _ h] at hp ⊢
      by_cases hst : p ∈ st.fused
      · exact Or.inl hst
      · right
        rcases ih _ hnd'.2 hp with h' | ⟨h1, S, hS, hsub⟩
        · exact absurd h' hst
        · refine ⟨h1, S, List.mem_cons_of_mem _ hS, ?_⟩
          intro vs hvs
          rcases List.mem_cons.1 hvs with hv | hv
          · exfalso
            have e1 : p.2 = it.1 := by rw [← hv]
            rcases join_pass_fused graph (fun _ => 0) rest st htriv p hp with h'' | ⟨_, _, h3, _⟩
            · exact hst h''
            · exact hnd'.1 (e1 ▸ h3)
          · exact hsub vs hv
    · rw [join_pass_cons_alive _ _ _ _ h] at hp ⊢
      by_cases hs : p ∈ (join_scan graph it.1 it.2 rest st).2.fused
      · rcases join_scan_fused _ _ _ _ _ _ hs with h'' | ⟨g1, g2, _⟩
        · exact Or.inl h''
        · rcases join_scan_absorbs _ _ _ _ _ _ hs with h'' | ⟨x, hx, hx1, hx2⟩
          · exact Or.inl h''
          · right
            refine ⟨?_, (join_scan graph it.1 it.2 rest st).1, ?_, ?_⟩
            · intro hrem
              rw [g1] at hrem
              rcases join_pass_removed_sub _ _ _ _ hrem with h1 | h1
              · rcases join_scan_removed_sub _ _ _ _ _ _ h1 with h2 | h2
                · exact h h2
                · exact hnd'.1 h2
              · exact hnd'.1 h1
            · rw [g1]; exact List.mem_cons_self _ _
            · intro vs hvs
              rcases List.mem_cons.1 hvs with hv | hv
              · exfalso
                have e1 : p.2 = it.1 := by rw [← hv]
                exact hnd'.1 (e1 ▸ g2)
              · have hx' : (p.2, x.2) ∈ rest := by rw [← hx1]; exact hx
                rw [entry_unique_of_nodup_keys rest hnd'.2 p.2 vs x.2 hv hx']
                exact hx2
      · right
        rcases ih _ hnd'.2 hp with h' | ⟨h1, S, hS, hsub⟩
        · exact absurd h' hs
        · refine ⟨h1, S, List.mem_cons_of_mem _ hS, ?_⟩
          intro vs hvs
          rcases List.mem_cons.1 hvs with hv | hv
          · exfalso
            have e1 : p.2 = it.1 := by rw [← hv]
            rcases join_pass_fused graph (fun _ => 0) rest _ htriv p hp with h'' | ⟨_, _, h3, _⟩
            · exact hs h''
            · exact hnd'.1 (e1 ▸ h3)
          · exact hsub vs hv

theorem join_collect_result_mono (removed : List EdgeId) (v : List (EdgeId × Finset VertexId))
    (result : Neighbourhoods) (x : EdgeId × Finset VertexId) (hx : x ∈ result) :
    x ∈ join_collect removed v result := by
  induction v generalizing result with
  | nil => exact hx
  | cons it rest ih =>
    unfold join_collect
    by_cases h : it.1 ∈ removed
    · rw [if_pos h]; exact ih _ hx
    · rw [if_neg h]
      by_cases hc : mcount result it.1 = true
      · rw [if_pos hc]; exact ih _ hx
      · rw [if_neg hc]; exact ih _ (List.mem_append_left _ hx)

theorem join_collect_mem (removed : List EdgeId) (v : List (EdgeId × Finset VertexId))
    (result : Neighbourhoods) (hnd : (mkeys v).Nodup)
    (hdis : ∀ k ∈ mkeys v, k ∉ mkeys result) (x : EdgeId × Finset VertexId) (hx : x ∈ v)
    (hrem : x.1 ∉ removed) : x ∈ join_collect removed v result := by
  induction v generalizing result with
  | nil => simp at hx
  | cons it rest ih =>
    have hnd' : it.1 ∉ mkeys rest ∧ (mkeys rest).Nodup := by
      simpa [mkeys] using hnd
    have hdis' : ∀ k ∈ mkeys rest, k ∉ mkeys result := fun k hk =>
      hdis k (by simp only [mkeys, List.map_cons]; exact List.mem_cons_of_mem _ hk)
    unfold join_collect
    rcases List.mem_cons.1 hx with hv | hv
    · subst hv
      rw [if_neg hrem]
      have hc : ¬ mcount result x.1 = true := by
        unfold mcount
        rw [mfind_isSome_iff]
        exact hdis x.1 (by simp [mkeys])
      rw [if_neg hc]
      exact join_collect_result_mono _ _ _ _ (List.mem_append_right _ (List.mem_singleton_self _))
    · by_cases h : it.1 ∈ removed
      · rw [if_pos h]; exact ih _ hnd'.2 hdis' hv
      · rw [if_neg h]
        have hc : ¬ mcount result it.1 = true := by
          unfold mcount
          rw [mfind_isSome_iff]
          exact hdis it.1 (by simp [mkeys])
        rw [if_neg hc]
        refine ih _ hnd'.2 ?_ hv
        intro k hk hk'
        simp only [mkeys, List.map_append, List.map_cons, List.map_nil, List.mem_append,
          List.mem_singleton] at hk'
        rcases hk' with hk' | hk'
        · exact hdis' k hk hk'
        · exact hnd'.1 (hk' ▸ hk)

/-! ## Lemmas: `std_sort` -/

theorem sort_insert_perm {α : Type} (lt : α → α → Bool) (x : α) (l : List α) :
    (sort_insert lt x l).Perm (x :: l) := by
  induction l with
  | nil => exact List.Perm.refl _
  | cons y ys ih =>
    unfold sort_insert
    by_cases h : lt x y = true
    · rw [if_pos h]
    · rw [if_neg h]
      exact (List.Perm.cons y ih).trans (List.Perm.swap x y ys)

theorem std_sort_perm {α : Type} (lt : α → α → Bool) (l : List α) : (std_sort lt l).Perm l := by
  induction l with
  | nil => exact List.Perm.refl _
  | cons x xs ih =>
    have : std_sort lt (x :: xs) = sort_insert lt x (std_sort lt xs) := rfl
    rw [this]
    exact (sort_insert_perm lt x _).trans (List.Perm.cons x ih)

theorem sort_insert_sorted {α : Type} (key : α → Int) (x : α) (l : List α)
    (hl : l.Pairwise (fun a b => key a ≤ key b)) :
    (sort_insert (fun a b => decide (key a < key b)) x l).Pairwise
      (fun a b => key a ≤ key b) := by
  induction l with
  | nil => simp [sort_insert]
  | cons y ys ih =>
    rw [List.pairwise_cons] at hl
    unfold sort_insert
    by_cases h : key x < key y
    · simp only [h, decide_True, if_true]
      refine List.pairwise_cons.2 ⟨?_, List.pairwise_cons.2 hl⟩
      intro z hz
      rcases List.mem_cons.1 hz with hz | hz
      · rw [hz]; exact le_of_lt h
      · exact le_trans (le_of_lt h) (hl.1 z hz)
    · simp only [h, decide_False, Bool.false_eq_true, if_false]
      refine List.pairwise_cons.2 ⟨?_, ih hl.2⟩
      intro z hz
      have hz' := (sort_insert_perm (fun a b => decide (key a < key b)) x ys).subset hz
      rcases List.mem_cons.1 hz' with hz' | hz'
      · rw [hz']; exact not_lt.1 h
      · exact hl.1 z hz'

theorem std_sort_sorted {α : Type} (key : α → Int) (l : List α) :
    (std_sort (fun a b => decide (key a < key b)) l).Pairwise (fun a b => key a ≤ key b) := by
  induction l with
  | nil => simp [std_sort]
  | cons x xs ih =>
    have : std_sort (fun a b => decide (key a < key b)) (x :: xs) =
        sort_insert (fun a b => decide (key a < key b)) x
          (std_sort (fun a b => decide (key a < key b)) xs) := rfl
    rw [this]
    exact sort_insert_sorted key x _ ih

/-- The vector built by `join_components` is an arrangement `std::sort` may leave. -/
theorem join_vector_sorted (neighbourhoods : Neighbourhoods) (matched_edges : EdgeAlnInfo) :
    SortedArrangement matched_edges neighbourhoods (join_vector neighbourhoods matched_edges) :=
  ⟨std_sort_perm _ _,
    std_sort_sorted
      (fun n : EdgeId × Finset VertexId => unmatched_part_length matched_edges n.1) _⟩

/-! ## Claims on `join_components` -/

/-- C2 (as stated) fails: two seeds on a chain, the neighbourhood of edge 3 reaching
back over both endpoints of edge 1; both survive `join_components` and the surviving
neighbourhood of edge 3 contains the start vertex of the seed edge 1. -/
theorem join_components_survivors_overlap :
    join_components apart_neighbourhoods apart_matched chain_graph =
        [(1, {1, 2}), (3, {0, 1, 2, 3, 4})] ∧
    ¬ (∀ A ∈ join_components apart_neighbourhoods apart_matched chain_graph,
        ∀ B ∈ join_components apart_neighbourhoods apart_matched chain_graph, A ≠ B →
          chain_graph.EdgeStart B.1 ∉ A.2 ∧ chain_graph.EdgeEnd B.1 ∉ A.2) := by
  decide

/-- C2 (amended). For every arrangement `v` of the vector that the merge pass walks (in
particular the sorted one of `join_components`) and every two surviving neighbourhoods
`A` and `B` with `A` standing before `B`: the vertex set `A` has accumulated when `B`
is examined (its input set joined with what it absorbed from the entries between the
two) contains neither the start nor the end vertex of the seed edge of `B`; in
particular the input vertex set of `A` contains neither. -/
theorem join_sorted_earlier_excludes_later (graph : Graph)
    (v l1 l2 l3 : List (EdgeId × Finset VertexId)) (A B : EdgeId × Finset VertexId)
    (hv : v = l1 ++ A :: (l2 ++ B :: l3))
    (hA : A.1 ∈ mkeys (join_sorted graph v)) (hB : B.1 ∈ mkeys (join_sorted graph v)) :
    (graph.EdgeStart B.1 ∉ (join_scan graph A.1 A.2 l2 ⟨[], []⟩).1 ∧
      graph.EdgeEnd B.1 ∉ (join_scan graph A.1 A.2 l2 ⟨[], []⟩).1) ∧
    (graph.EdgeStart B.1 ∉ A.2 ∧ graph.EdgeEnd B.1 ∉ A.2) := by
  subst hv
  have h := join_pass_survivors graph l1 l2 l3 A B ⟨[], []⟩
    (join_sorted_key_not_removed graph _ A.1 hA) (join_sorted_key_not_removed graph _ B.1 hB)
  have hsub := join_scan_subset graph A.1 A.2 l2 ⟨[], []⟩
  exact ⟨h, fun c => h.1 (hsub c), fun c => h.2 (hsub c)⟩

/-- Instance of the amended C2 on the two surviving seeds 1 and 3 of the chain. -/
theorem join_sorted_earlier_excludes_later_witness :
    (1 ∈ mkeys (join_sorted chain_graph [(1, {1, 2}), (3, {0, 1, 2, 3, 4})]) ∧
      3 ∈ mkeys (join_sorted chain_graph [(1, {1, 2}), (3, {0, 1, 2, 3, 4})])) ∧
    ((chain_graph.EdgeStart 3 ∉ (join_scan chain_graph 1 {1, 2} [] ⟨[], []⟩).1 ∧
      chain_graph.EdgeEnd 3 ∉ (join_scan chain_graph 1 {1, 2} [] ⟨[], []⟩).1) ∧
    (chain_graph.EdgeStart 3 ∉ ({1, 2} : Finset VertexId) ∧
      chain_graph.EdgeEnd 3 ∉ ({1, 2} : Finset VertexId))) :=
  ⟨by decide,
    join_sorted_earlier_excludes_later chain_graph [(1, {1, 2}), (3, {0, 1, 2, 3, 4})] [] [] []
      (1, {1, 2}) (3, {0, 1, 2, 3, 4}) rfl (by decide) (by decide)⟩

/-- C3 (as stated) fails: of two adjacent seeds with `max(0,left)+max(0,right)` equal
to 2 and 5, `join_components` lets the seed with value 2 absorb the seed with value 5;
the survivor is the smaller one. -/
theorem join_components_survivor_smaller :
    join_fusions chain_graph (join_vector adjacent_neighbourhoods adjacent_matched) = [(1, 2)] ∧
    join_components adjacent_neighbourhoods adjacent_matched chain_graph =
      [(1, {1, 2, 3, 4, 5, 6})] ∧
    ¬ (∀ p ∈ join_fusions chain_graph (join_vector adjacent_neighbourhoods adjacent_matched),
        unmatched_part_length adjacent_matched p.1 ≥
          unmatched_part_length adjacent_matched p.2) := by
  decide

/-- C3 (amended). For every arrangement `v` that `std::sort` may leave of a map with
distinct keys, and every fusion of `join_components` of an absorbed seed `p.2` into
an absorbing seed `p.1`: the value `max(0,left)+max(0,right)` of the absorbing seed
is less than or equal to that of the absorbed seed, the absorbing seed survives, the
absorbed seed is removed, and the surviving set contains the vertex set of the
absorbed neighbourhood. -/
theorem join_fusions_survivor_not_larger (graph : Graph) (matched_edges : EdgeAlnInfo)
    (neighbourhoods : Neighbourhoods) (v : List (EdgeId × Finset VertexId))
    (hv : SortedArrangement matched_edges neighbourhoods v)
    (hnd : (mkeys neighbourhoods).Nodup) (p : EdgeId × EdgeId)
    (hp : p ∈ join_fusions graph v) :
    unmatched_part_length matched_edges p.1 ≤ unmatched_part_length matched_edges p.2 ∧
    p.1 ∈ mkeys (join_sorted graph v) ∧ p.2 ∉ mkeys (join_sorted graph v) ∧
    ∃ S, (p.1, S) ∈ join_sorted graph v ∧ ∀ vs, (p.2, vs) ∈ neighbourhoods → vs ⊆ S := by
  obtain ⟨hperm, hsorted⟩ := hv
  have hndv : (mkeys v).Nodup := (hperm.map Prod.fst).nodup_iff.2 hnd
  unfold join_fusions at hp
  have h1 := join_pass_fused graph (unmatched_part_length matched_edges) v ⟨[], []⟩ hsorted p hp
  have h2 := join_pass_fused_alive graph v ⟨[], []⟩ hndv p hp
  rcases h1 with h1 | ⟨hle, _, _, hrem⟩
  · simp at h1
  rcases h2 with h2 | ⟨halive, S, hS, hsub⟩
  · simp at h2
  have hmem : (p.1, S) ∈ join_sorted graph v := by
    unfold join_sorted
    refine join_collect_mem _ _ [] ?_ ?_ (p.1, S) hS halive
    · rw [join_pass_keys]; exact hndv
    · intro k _ hk; simp [mkeys] at hk
  refine ⟨hle, List.mem_map.2 ⟨(p.1, S), hmem, rfl⟩, ?_, S, hmem, ?_⟩
  · intro c
    exact join_sorted_key_not_removed graph v p.2 c hrem
  · intro vs hvs
    exact hsub vs (hperm.symm.subset hvs)

/-- Instance of the amended C3 on two adjacent seeds of the chain: seed 1 absorbs seed 2. -/
theorem join_fusions_survivor_not_larger_witness :
    (1, 2) ∈ join_fusions chain_graph (join_vector adjacent_neighbourhoods adjacent_matched) ∧
    (unmatched_part_length adjacent_matched 1 ≤ unmatched_part_length adjacent_matched 2 ∧
      1 ∈ mkeys (join_sorted chain_graph (join_vector adjacent_neighbourhoods adjacent_matched)) ∧
      2 ∉ mkeys (join_sorted chain_graph (join_vector adjacent_neighbourhoods adjacent_matched)) ∧
      ∃ S, (1, S) ∈ join_sorted chain_graph
          (join_vector adjacent_neighbourhoods adjacent_matched) ∧
        ∀ vs, (2, vs) ∈ adjacent_neighbourhoods → vs ⊆ S) :=
  ⟨by decide,
    join_fusions_survivor_not_larger chain_graph adjacent_matched adjacent_neighbourhoods
      (join_vector adjacent_neighbourhoods adjacent_matched)
      (join_vector_sorted adjacent_neighbourhoods adjacent_matched) (by decide) (1, 2)
      (by decide)⟩

/-! ## Instances of the claims on `get_matched_edges` and `ExtractNeighbourhoods` -/

/-- Instance of C1 on three hits of two sequences against the edges 7 and 9. -/
theorem get_matched_edges_coordinatewise_max_witness :
    (∀ h ∈ sample_hits, h.reported = true → h.included = true →
      (resolve [7, 9] h).isSome = true) ∧
    ∃ m, get_matched_edges CountTy.u64 [7, 9] sample_hits = some m ∧
      (∀ e,
        (domain_overhangs CountTy.u64 [7, 9] sample_hits e = [] → mfind m e = none) ∧
        (domain_overhangs CountTy.u64 [7, 9] sample_hits e ≠ [] →
          ∃ a b, mfind m e = some (a, b) ∧
            IsMaxOf ((domain_overhangs CountTy.u64 [7, 9] sample_hits e).map Prod.fst) a ∧
            IsMaxOf ((domain_overhangs CountTy.u64 [7, 9] sample_hits e).map Prod.snd) b)) ∧
      (∀ hits', HitsRearranged sample_hits hits' →
        ∃ m', get_matched_edges CountTy.u64 [7, 9] hits' = some m' ∧
          ∀ e, mfind m' e = mfind m e) :=
  ⟨by decide, get_matched_edges_coordinatewise_max CountTy.u64 [7, 9] sample_hits (by decide)⟩

/-- Instance of C4 on a domain with both overhangs negative, evaluated in an unsigned 64-bit type. -/
theorem overhangs_exact_signed_witness :
    ((-2147483648 : Int) ≤ 100 - 20 ∧ (100 : Int) - 20 < 2147483648 ∧
      (-2147483648 : Int) ≤ 500 - 60 ∧ (500 : Int) - 60 < 2147483648) ∧
    (loverhang ⟨(50, 60), (1, 20), 100, 500⟩ = 1 - 50 ∧
      roverhang CountTy.u64 ⟨(50, 60), (1, 20), 100, 500⟩ = (100 - 20) - (500 - 60) ∧
      merge_domain CountTy.u64 7 [] ⟨(50, 60), (1, 20), 100, 500⟩ =
        [(7, ((1 : Int) - 50, ((100 : Int) - 20) - (500 - 60)))] ∧
      ∀ (edges : List EdgeId) (name : String),
        resolve edges ⟨name, true, true, [⟨(50, 60), (1, 20), 100, 500⟩]⟩ = some 7 →
        get_matched_edges CountTy.u64 edges [⟨name, true, true, [⟨(50, 60), (1, 20), 100, 500⟩]⟩] =
          some [(7, ((1 : Int) - 50, ((100 : Int) - 20) - (500 - 60)))]) :=
  ⟨by decide,
    overhangs_exact_signed CountTy.u64 ⟨(50, 60), (1, 20), 100, 500⟩ 7
      (by decide) (by decide) (by decide) (by decide)⟩

/-- Instance of C5 on three hits of two sequences against the edges 7 and 9. -/
theorem get_matched_edges_keys_witness :
    (∀ h ∈ sample_hits, h.reported = true → h.included = true →
      (resolve [7, 9] h).isSome = true) ∧
    ∃ m, get_matched_edges CountTy.i64 [7, 9] sample_hits = some m ∧
      ∀ e, mcount m e = true ↔
        ∃ h ∈ sample_hits, h.reported = true ∧ h.included = true ∧
          resolve [7, 9] h = some e ∧ h.domains ≠ [] :=
  ⟨by decide, get_matched_edges_keys CountTy.i64 [7, 9] sample_hits (by decide)⟩

/-- Instance of C6 on the chain: the seed edge 1 with overhangs 0 and 0, `mult = 6`. -/
theorem ExtractNeighbourhoods_nonpositive_overhangs_witness :
    (((6 : Int) = 2 ∨ (6 : Int) = 6) ∧ (mkeys apart_matched).Nodup ∧
      mfind apart_matched 1 = some (0, 0) ∧ (0 : Int) ≤ 0) ∧
    mfind (ExtractNeighbourhoods apart_matched chain_graph sample_dijkstra 6) 1 =
      some {chain_graph.EdgeStart 1, chain_graph.EdgeEnd 1} :=
  ⟨by decide,
    ExtractNeighbourhoods_nonpositive_overhangs apart_matched chain_graph sample_dijkstra 6
      (by decide) (by decide) 1 0 0 (by decide) (by decide) (by decide)⟩

/-- Instance of C7 on the chain: the seed edge 3 with overhangs 5 and 0, `mult = 2`. -/
theorem ExtractNeighbourhoods_union_witness :
    (((2 : Int) = 2 ∨ (2 : Int) = 6) ∧ (mkeys apart_matched).Nodup ∧
      mfind apart_matched 3 = some (5, 0)) ∧
    mfind (ExtractNeighbourhoods apart_matched chain_graph sample_dijkstra 2) 3 =
      some ((if (0 : Int) > 0 then
            (sample_dijkstra.fdijkstra (0 * 2) (chain_graph.EdgeEnd 3)).toFinset else ∅) ∪
        (if (5 : Int) > 0 then
            (sample_dijkstra.bdijkstra (5 * 2) (chain_graph.EdgeStart 3)).toFinset else ∅) ∪
        {chain_graph.EdgeStart 3, chain_graph.EdgeEnd 3}) :=
  ⟨by decide,
    ExtractNeighbourhoods_union apart_matched chain_graph sample_dijkstra 2
      (by decide) (by decide) 3 5 0 (by decide)⟩

/-! ## Lemmas: `TraceHMM` -/

theorem TraceHMM_loop_append (env : Env) (cfg : Cfg) (me : EdgeAlnInfo)
    (l1 l2 : Neighbourhoods) (results : List HMMPathInfo) :
    TraceHMM_loop env cfg me (l1 ++ l2) results =
      TraceHMM_loop env cfg me l2 (TraceHMM_loop env cfg me l1 results) := by
  induction l1 generalizing results with
  | nil => rfl
  | cons kv rest ih =>
    simp only [List.cons_append, TraceHMM_loop]
    cases trace_neighbourhood env cfg me kv with
    | none => exact ih _
    | some lr => exact ih _

theorem trace_neighbourhood_eq_none_iff (env : Env) (cfg : Cfg) (me : EdgeAlnInfo)
    (kv : EdgeId × Finset VertexId) :
    trace_neighbourhood env cfg me kv = none ↔ env.e_size kv.2 / 2 > cfg.max_size := by
  unfold trace_neighbourhood
  by_cases h : env.e_size kv.2 / 2 > cfg.max_size
  · simp [h]
  · simp only [h, if_false, iff_false]
    cases env.hmm_in_aas <;> simp

theorem TraceHMM_loop_all_skipped (env : Env) (cfg : Cfg) (me : EdgeAlnInfo)
    (nbs : Neighbourhoods) (results : List HMMPathInfo)
    (h : ∀ kv ∈ nbs, env.e_size kv.2 / 2 > cfg.max_size) :
    TraceHMM_loop env cfg me nbs results = results := by
  induction nbs with
  | nil => rfl
  | cons kv rest ih =>
    have hkv := (trace_neighbourhood_eq_none_iff env cfg me kv).2 (h kv (List.mem_cons_self _ _))
    simp only [TraceHMM_loop, hkv]
    exact ih (fun x hx => h x (List.mem_cons_of_mem _ hx))

/-! ## Claims on `TraceHMM` and `main` -/

/-- C8 (as stated) fails: a component of two edges with `max_size = 1`, which is below
the edge count, is not skipped (`2 / 2 > 1` is false): the solver runs and one record
is appended.  First with a component counted as the seed edge and its conjugate, then
with the component that `FromVertices` builds from the two endpoints of the seed edge
of `pair_graph` and their conjugates. -/
theorem trace_neighbourhood_searched_below_e_size :
    ((sample_cfg 1).max_size < (sample_env pair_graph (fun _ => 2)).e_size {0, 1} ∧
      trace_neighbourhood (sample_env pair_graph (fun _ => 2)) (sample_cfg 1)
        [(0, (0, 0)), (1, (0, 0))] (0, {0, 1}) = some [sample_record 0]) ∧
    (FromVertices pair_graph pair_conjugate {0, 1} true = [0, 1] ∧
      (sample_cfg 1).max_size < pair_env.e_size {0, 1} ∧
      pair_env.e_size {0, 1} = 2 ∧
      trace_neighbourhood pair_env (sample_cfg 1) [(0, (0, 0)), (1, (0, 0))] (0, {0, 1}) =
        some [sample_record 0]) := by
  decide

/-- C8 (amended). For every neighbourhood whose component has `e_size() / 2` (integer
division) above `max_size`, `TraceHMM` skips the component: the solver is not called,
no record is appended for that seed, and the other neighbourhoods are processed as
if the skipped one were not there. -/
theorem trace_neighbourhood_skipped (env : Env) (cfg : Cfg) (matched_edges : EdgeAlnInfo)
    (kv : EdgeId × Finset VertexId) (h : env.e_size kv.2 / 2 > cfg.max_size) :
    trace_neighbourhood env cfg matched_edges kv = none ∧
    ∀ (before after : Neighbourhoods) (results : List HMMPathInfo),
      TraceHMM_loop env cfg matched_edges (before ++ kv :: after) results =
        TraceHMM_loop env cfg matched_edges (before ++ after) results := by
  have hkv := (trace_neighbourhood_eq_none_iff env cfg matched_edges kv).2 h
  refine ⟨hkv, fun before after results => ?_⟩
  rw [TraceHMM_loop_append, TraceHMM_loop_append]
  simp only [TraceHMM_loop, hkv]

/-- Instance of the amended C8: a component of four edges with `max_size = 1`. -/
theorem trace_neighbourhood_skipped_witness :
    (sample_env pair_graph (fun _ => 4)).e_size {0, 1} / 2 > (sample_cfg 1).max_size ∧
    (trace_neighbourhood (sample_env pair_graph (fun _ => 4)) (sample_cfg 1)
        [(0, (0, 0)), (1, (0, 0))] (0, {0, 1}) = none ∧
      ∀ (before after : Neighbourhoods) (results : List HMMPathInfo),
        TraceHMM_loop (sample_env pair_graph (fun _ => 4)) (sample_cfg 1)
            [(0, (0, 0)), (1, (0, 0))] (before ++ (0, {0, 1}) :: after) results =
          TraceHMM_loop (sample_env pair_graph (fun _ => 4)) (sample_cfg 1)
            [(0, (0, 0)), (1, (0, 0))] (before ++ after) results) :=
  ⟨by decide,
    trace_neighbourhood_skipped (sample_env pair_graph (fun _ => 4)) (sample_cfg 1)
      [(0, (0, 0)), (1, (0, 0))] (0, {0, 1}) (by decide)⟩

/-- With `max_size = 0` the size test of `TraceHMM` skips a component exactly when it
has at least two edges (`e_size() / 2 > 0`); when the component of every neighbourhood
has at least two edges, all are skipped and the result vector stays empty. -/
theorem max_size_zero_skips_components (env : Env) (cfg : Cfg) (matched_edges : EdgeAlnInfo)
    (hmax : cfg.max_size = 0) :
    (∀ kv, trace_neighbourhood env cfg matched_edges kv = none ↔ 2 ≤ env.e_size kv.2) ∧
    ∀ nbs : Neighbourhoods, (∀ kv ∈ nbs, 2 ≤ env.e_size kv.2) →
      TraceHMM_loop env cfg matched_edges nbs [] = [] ∧
      SaveResults env.graph cfg (TraceHMM_loop env cfg matched_edges nbs []) = ([], []) := by
  have hiff : ∀ kv : EdgeId × Finset VertexId,
      env.e_size kv.2 / 2 > cfg.max_size ↔ 2 ≤ env.e_size kv.2 := by
    intro kv; rw [hmax]; omega
  refine ⟨fun kv => (trace_neighbourhood_eq_none_iff env cfg matched_edges kv).trans (hiff kv),
    fun nbs hall => ?_⟩
  have hloop : TraceHMM_loop env cfg matched_edges nbs [] = [] :=
    TraceHMM_loop_all_skipped env cfg matched_edges nbs []
      (fun kv hkv => (hiff kv).2 (hall kv hkv))
  refine ⟨hloop, ?_⟩
  rw [hloop]
  simp [SaveResults]

/-- C10. Whenever `TraceHMM` returns the collected records, the vector handed to
`SaveResults` and `Rescore` is a permutation of them in ascending order of score:
for all positions `i < j`, the score at `i` is at most the score at `j`. -/
theorem main_results_sorted_by_score (env : Env) (edges : List EdgeId) (hits : List Hit)
    (cfg : Cfg) (collected : List HMMPathInfo)
    (h : TraceHMM env edges hits cfg [] = some collected) :
    ∃ results, main_results env edges hits cfg = some results ∧ results.Perm collected ∧
      ∀ (i j : Nat) (hi : i < results.length) (hj : j < results.length), i < j →
        results[i].score ≤ results[j].score := by
  refine ⟨std_sort HMMPathInfo.lt collected, by simp [main_results, h], std_sort_perm _ _, ?_⟩
  have hs := std_sort_sorted (fun r : HMMPathInfo => r.score) collected
  have hlt : (fun a b : HMMPathInfo => decide (a.score < b.score)) = HMMPathInfo.lt := by
    funext a b; rfl
  rw [hlt] at hs
  intro i j hi hj hij
  exact List.pairwise_iff_getElem.1 hs i j hi hj hij

/-- Instance of C10: two records collected with scores 8 and 7 are handed on in ascending order. -/
theorem main_results_sorted_by_score_witness :
    TraceHMM (sample_env pair_graph (fun _ => 2)) [0, 1] pair_hits (sample_cfg 1000) [] =
      some [sample_record 1, sample_record 0] ∧
    ∃ results,
      main_results (sample_env pair_graph (fun _ => 2)) [0, 1] pair_hits (sample_cfg 1000) =
        some results ∧
      results.Perm [sample_record 1, sample_record 0] ∧
      ∀ (i j : Nat) (hi : i < results.length) (hj : j < results.length), i < j →
        results[i].score ≤ results[j].score :=
  ⟨by decide,
    main_results_sorted_by_score (sample_env pair_graph (fun _ => 2)) [0, 1] pair_hits
      (sample_cfg 1000) [sample_record 1, sample_record 0] (by decide)⟩

/-! ## Claims on the ordering of results and the candidate edges -/

/-- C11 (as stated) fails: two distinct records with the same score are not ordered
by `HMMPathInfo::operator<` in either direction, and sorting the two collection orders
of the same two records gives two different vectors. -/
theorem HMMPathInfo_lt_no_tie_break :
    tie_record_a ≠ tie_record_b ∧ tie_record_a.score = tie_record_b.score ∧
    HMMPathInfo.lt tie_record_a tie_record_b = false ∧
    HMMPathInfo.lt tie_record_b tie_record_a = false ∧
    [tie_record_a, tie_record_b].Perm [tie_record_b, tie_record_a] ∧
    std_sort HMMPathInfo.lt [tie_record_a, tie_record_b] ≠
      std_sort HMMPathInfo.lt [tie_record_b, tie_record_a] := by
  decide

/-- C11 (amended). The ordering used to sort the results of one HMM is ascending score
without a tie-break: `operator<` puts `a` strictly before `b` exactly when the score
of `a` is below the score of `b`, two records are unordered in both directions
exactly when their scores are equal, and for any two ascending arrangements `r1`,
`r2` of the same collected records the sequence of scores is the same (the order is
determined up to the order of records with equal score). -/
theorem HMMPathInfo_lt_score_only (a b : HMMPathInfo) (collected r1 r2 : List HMMPathInfo)
    (h1 : r1.Perm collected) (h2 : r2.Perm collected)
    (s1 : r1.Pairwise (fun x y => HMMPathInfo.lt y x = false))
    (s2 : r2.Pairwise (fun x y => HMMPathInfo.lt y x = false)) :
    (HMMPathInfo.lt a b = true ↔ a.score < b.score) ∧
    (HMMPathInfo.lt a b = false ∧ HMMPathInfo.lt b a = false ↔ a.score = b.score) ∧
    r1.map (fun r => r.score) = r2.map (fun r => r.score) := by
  refine ⟨by simp [HMMPathInfo.lt], ?_, ?_⟩
  · simp only [HMMPathInfo.lt, decide_eq_false_iff_not, not_lt]
    exact ⟨fun h => le_antisymm h.2 h.1, fun h => ⟨le_of_eq h.symm, le_of_eq h⟩⟩
  · have hp : (r1.map (fun r => r.score)).Perm (r2.map (fun r => r.score)) :=
      (h1.trans h2.symm).map _
    have hs : ∀ r : List HMMPathInfo, r.Pairwise (fun x y => HMMPathInfo.lt y x = false) →
        (r.map (fun r => r.score)).Sorted (fun x y : Int => x ≤ y) := by
      intro r hr
      refine List.pairwise_map.2 (hr.imp ?_)
      intro x y hxy
      simpa [HMMPathInfo.lt] using hxy
    exact List.eq_of_perm_of_sorted hp (hs r1 s1) (hs r2 s2)

/-- Instance of the amended C11 on the two records with equal score, in their two
collection orders. -/
theorem HMMPathInfo_lt_score_only_witness :
    ([tie_record_a, tie_record_b].Perm [tie_record_a, tie_record_b] ∧
      [tie_record_b, tie_record_a].Perm [tie_record_a, tie_record_b] ∧
      [tie_record_a, tie_record_b].Pairwise (fun x y => HMMPathInfo.lt y x = false) ∧
      [tie_record_b, tie_record_a].Pairwise (fun x y => HMMPathInfo.lt y x = false)) ∧
    ((HMMPathInfo.lt tie_record_a tie_record_b = true ↔
        tie_record_a.score < tie_record_b.score) ∧
      (HMMPathInfo.lt tie_record_a tie_record_b = false ∧
          HMMPathInfo.lt tie_record_b tie_record_a = false ↔
        tie_record_a.score = tie_record_b.score) ∧
      [tie_record_a, tie_record_b].map (fun r => r.score) =
        [tie_record_b, tie_record_a].map (fun r => r.score)) :=
  ⟨by decide,
    HMMPathInfo_lt_score_only tie_record_a tie_record_b [tie_record_a, tie_record_b]
      [tie_record_a, tie_record_b] [tie_record_b, tie_record_a] (by decide) (by decide)
      (by decide) (by decide)⟩

/-- C15 (as stated) fails: for a seed with both overhangs 0 the bounds
`(0 + 10) * coef` are positive, so `depth_subset` is called on both sides and its
cursors (here on the edges 1 and 3 around the seed edge 2) are part of the initial
cursors, for `coef = 1` and for `coef = 3`. -/
theorem initial_cursors_zero_overhangs_expanded :
    mfind [(2, ((0 : Int), (0 : Int)))] 2 = some (0, 0) ∧
    initial_cursors (depth_env chain_graph (fun _ => 2)) [(2, (0, 0))] (2, {2, 3}) =
      [⟨false, 1, 3, [1]⟩, ⟨false, 3, 0, [3]⟩, ⟨false, 2, 0, [2]⟩, ⟨false, 2, 1, [2]⟩,
        ⟨false, 2, 2, [2]⟩, ⟨false, 2, 3, [2]⟩] ∧
    initial_cursors { depth_env chain_graph (fun _ => 2) with hmm_in_aas := true }
        [(2, (0, 0))] (2, {2, 3}) =
      [⟨false, 1, 3, [1]⟩, ⟨false, 3, 0, [3]⟩, ⟨false, 2, 0, [2]⟩, ⟨false, 2, 1, [2]⟩,
        ⟨false, 2, 2, [2]⟩, ⟨false, 2, 3, [2]⟩] ∧
    ¬ (∀ c ∈ initial_cursors (depth_env chain_graph (fun _ => 2)) [(2, (0, 0))] (2, {2, 3}),
        c.edge = 2) := by
  decide

/-- C15 (amended). For every seed edge whose matched left and right overhangs are both
at most -10 (for `coef = 1` and for `coef = 3`), the initial cursors built in
`TraceHMM` are only the cursors of the seed edge at the offsets from
`-(left + 10) * coef` up to (excluding) `len - (-(right + 10) * coef)` taken modulo
2^64: `depth_subset` contributes nothing on either side. -/
theorem initial_cursors_intra_edge_only (env : Env) (matched_edges : EdgeAlnInfo)
    (kv : EdgeId × Finset VertexId) (left right : Int)
    (hfind : mfind matched_edges kv.1 = some (left, right))
    (hl : left ≤ -10) (hr : right ≤ -10) :
    initial_cursors env matched_edges kv =
      (List.range' (-((left + 10) * (if env.hmm_in_aas then 3 else 1))).toNat
        ((((((env.graph.length kv.1 + env.graph.k) % 18446744073709551616 : Nat) : Int) -
              (-((right + 10) * (if env.hmm_in_aas then 3 else 1)))) %
            18446744073709551616).toNat -
          (-((left + 10) * (if env.hmm_in_aas then 3 else 1))).toNat)).map
        (fun i => env.get_cursor kv.2 kv.1 i) := by
  unfold initial_cursors
  simp only [hfind, Option.getD_some]
  have hcoef : (0 : Int) < (if env.hmm_in_aas then 3 else 1) := by
    cases env.hmm_in_aas <;> simp
  have h1 : ¬ (left + 10) * (if env.hmm_in_aas then (3 : Int) else 1) > 0 := by
    have : (left + 10) * (if env.hmm_in_aas then (3 : Int) else 1) ≤ 0 :=
      mul_nonpos_of_nonpos_of_nonneg (by omega) (le_of_lt hcoef)
    omega
  have h2 : ¬ (right + 10) * (if env.hmm_in_aas then (3 : Int) else 1) > 0 := by
    have : (right + 10) * (if env.hmm_in_aas then (3 : Int) else 1) ≤ 0 :=
      mul_nonpos_of_nonpos_of_nonneg (by omega) (le_of_lt hcoef)
    omega
  have m1 : max 0 (-((left + 10) * (if env.hmm_in_aas then (3 : Int) else 1))) =
      -((left + 10) * (if env.hmm_in_aas then (3 : Int) else 1)) := by
    apply max_eq_right; omega
  have m2 : max 0 (-((right + 10) * (if env.hmm_in_aas then (3 : Int) else 1))) =
      -((right + 10) * (if env.hmm_in_aas then (3 : Int) else 1)) := by
    apply max_eq_right; omega
  simp only [h1, h2, if_false, List.nil_append, m1, m2]

/-- Instance of the amended C15: the seed edge 2 of the chain with overhangs -12 and
-10, nucleotide HMM. -/
theorem initial_cursors_intra_edge_only_witness :
    (mfind [(2, ((-12 : Int), (-10 : Int)))] 2 = some (-12, -10) ∧ (-12 : Int) ≤ -10 ∧
      (-10 : Int) ≤ -10) ∧
    initial_cursors (depth_env chain_graph (fun _ => 2)) [(2, (-12, -10))] (2, {2, 3}) =
      (List.range'
        (-(((-12 : Int) + 10) *
          (if (depth_env chain_graph (fun _ => 2)).hmm_in_aas then 3 else 1))).toNat
        (((((((depth_env chain_graph (fun _ => 2)).graph.length 2 +
                  (depth_env chain_graph (fun _ => 2)).graph.k) %
                18446744073709551616 : Nat) : Int) -
              (-(((-10 : Int) + 10) *
                (if (depth_env chain_graph (fun _ => 2)).hmm_in_aas then 3 else 1)))) %
            18446744073709551616).toNat -
          (-(((-12 : Int) + 10) *
            (if (depth_env chain_graph (fun _ => 2)).hmm_in_aas then 3 else 1))).toNat)).map
        (fun i => (depth_env chain_graph (fun _ => 2)).get_cursor {2, 3} 2 i) :=
  ⟨by decide,
    initial_cursors_intra_edge_only (depth_env chain_graph (fun _ => 2)) [(2, (-12, -10))]
      (2, {2, 3}) (-12) (-10) (by decide) (by decide) (by decide)⟩

theorem foldl_run_search_step (env : Env) (e : EdgeId) (paths : List AnnotatedPath) (n : Nat)
    (acc : List HMMPathInfo) :
    paths.foldl (run_search_step env e) (n, acc) =
      (n + (paths.filter (fun ap => decide ((to_path ap.path).length ≠ 0))).length,
       acc ++ ((paths.filter (fun ap => decide ((to_path ap.path).length ≠ 0))).enumFrom n).map
         (fun ip => ⟨env.hmm_name, e, ip.1 % 4294967296, ip.2.score, env.str ip.2.path,
           to_path ip.2.path, env.event_str ip.2⟩)) := by
  induction paths generalizing n acc with
  | nil => simp
  | cons ap rest ih =>
    simp only [List.foldl_cons]
    by_cases h : (to_path ap.path).length = 0
    · have hs : run_search_step env e (n, acc) ap = (n, acc) := by
        simp [run_search_step, h]
      have hf : (ap :: rest).filter (fun ap => decide ((to_path ap.path).length ≠ 0)) =
          rest.filter (fun ap => decide ((to_path ap.path).length ≠ 0)) :=
        List.filter_cons_of_neg (by simp [h])
      rw [hs, ih, hf]
    · have hs : run_search_step env e (n, acc) ap =
          (n + 1, acc ++ [⟨env.hmm_name, e, n % 4294967296, ap.score, env.str ap.path,
            to_path ap.path, env.event_str ap⟩]) := by
        simp [run_search_step, h]
      have hf : (ap :: rest).filter (fun ap => decide ((to_path ap.path).length ≠ 0)) =
          ap :: rest.filter (fun ap => decide ((to_path ap.path).length ≠ 0)) :=
        List.filter_cons_of_pos (by simp [h])
      rw [hs, ih, hf]
      simp only [List.enumFrom_cons, List.map_cons, List.length_cons, List.append_assoc,
        List.singleton_append]
      congr 1
      omega

/-- C12 (as stated) fails: when the first path returned by `top_k` has an empty edge
path it is skipped without consuming a priority, so the record of the second path
(position 1 in the output of `top_k`) carries priority 0. -/
theorem run_search_priority_skips_empty :
    (gap_env chain_graph (fun _ => 2)).top_k [⟨false, 1, 0, [1]⟩] 10 =
      [⟨[], 5⟩, ⟨[⟨false, 1, 0, [1]⟩], 6⟩] ∧
    run_search (gap_env chain_graph (fun _ => 2)) [⟨false, 1, 0, [1]⟩] 1 10 [] =
      [⟨"hmm", 1, 0, 6, "ACGT", [1], "MMMM"⟩] := by
  decide

/-- C12 (amended). The records appended by `run_search` are, in order, those of the
paths returned by `top_k` whose edge path is not empty; each carries as priority its
rank among these kept paths (the paths with an empty edge path are skipped and
consume no priority), as an `unsigned` value, together with the name of the HMM as
`hmmname`, the seed edge as `leader`, the score of the path and its edge path. -/
theorem run_search_records (env : Env) (initial : List Cursor) (e : EdgeId) (top : Nat)
    (local_results : List HMMPathInfo) :
    run_search env initial e top local_results =
      local_results ++
        ((env.top_k initial top).filter
            (fun ap => decide ((to_path ap.path).length ≠ 0))).enum.map
          (fun ip => ⟨env.hmm_name, e, ip.1 % 4294967296, ip.2.score, env.str ip.2.path,
            to_path ip.2.path, env.event_str ip.2⟩) := by
  unfold run_search
  rw [foldl_run_search_step]
  rfl

/-! ## Lemmas: `to_path` -/

theorem foldl_to_path_step_filter (l : List Cursor) (path : List EdgeId) :
    l.foldl to_path_step path = (l.filter (fun c => !c.is_empty)).foldl to_path_step path := by
  induction l generalizing path with
  | nil => rfl
  | cons c rest ih =>
    by_cases h : c.is_empty = true
    · have hs : to_path_step path c = path := by simp [to_path_step, h]
      simp only [List.foldl_cons, hs, List.filter_cons, h, Bool.not_true, Bool.false_eq_true,
        if_false]
      exact ih path
    · have h' : c.is_empty = false := by simpa using h
      simp only [List.foldl_cons, List.filter_cons, h', Bool.not_false, if_true]
      exact ih _

theorem filter_dropWhile_is_empty (l : List Cursor) :
    (l.dropWhile (fun c => c.is_empty)).filter (fun c => !c.is_empty) =
      l.filter (fun c => !c.is_empty) := by
  induction l with
  | nil => rfl
  | cons c rest ih =>
    by_cases h : c.is_empty = true
    · simp only [List.dropWhile_cons, h, if_true, List.filter_cons, Bool.not_true,
        Bool.false_eq_true, if_false]
      exact ih
    · have h' : c.is_empty = false := by simpa using h
      simp [List.dropWhile_cons, h']

/-- The path of a trace is the fold of the step over its non-empty cursors. -/
theorem to_path_eq_foldl_filter (cpath : List Cursor) :
    to_path cpath = (cpath.filter (fun c => !c.is_empty)).foldl to_path_step [] := by
  unfold to_path
  rw [foldl_to_path_step_filter, filter_dropWhile_is_empty]

theorem to_path_append (l1 l2 : List Cursor) :
    to_path (l1 ++ l2) = l2.foldl to_path_step (to_path l1) := by
  rw [to_path_eq_foldl_filter, to_path_eq_foldl_filter, List.filter_append, List.foldl_append,
    ← foldl_to_path_step_filter l2]

theorem getLast?_append_singleton (p : List EdgeId) (e : EdgeId) :
    (p ++ [e]).getLast? = some e := by
  simp

/-- No two neighbours of the list are equal. -/
theorem chain_ne_append_singleton (p : List EdgeId) (e : EdgeId)
    (hp : p.Chain' (fun a b => a ≠ b)) (hl : p.getLast? ≠ some e) :
    (p ++ [e]).Chain' (fun a b => a ≠ b) := by
  refine List.Chain'.append hp (List.chain'_singleton e) ?_
  intro x hx y hy
  simp only [List.head?_cons, Option.mem_def, Option.some.injEq] at hy
  rw [Option.mem_def] at hx
  intro hxy
  apply hl
  rw [hx, hxy, hy]

theorem to_path_edges_chain_ne (es : List EdgeId) (path : List EdgeId)
    (hp : path.Chain' (fun a b => a ≠ b)) :
    (to_path_edges path es).Chain' (fun a b => a ≠ b) := by
  unfold to_path_edges
  induction es generalizing path with
  | nil => exact hp
  | cons e rest ih =>
    simp only [List.foldl_cons]
    by_cases h : path.getLast? ≠ some e
    · rw [if_pos h]; exact ih _ (chain_ne_append_singleton path e hp h)
    · rw [if_neg h]; exact ih _ hp

theorem to_path_step_chain_ne (path : List EdgeId) (c : Cursor)
    (hp : path.Chain' (fun a b => a ≠ b)) :
    (to_path_step path c).Chain' (fun a b => a ≠ b) := by
  unfold to_path_step
  by_cases he : c.is_empty = true
  · rw [if_pos he]; exact hp
  · rw [if_neg he]
    by_cases h : path.length = 0 ∨ path.getLast? ≠ some c.edge
    · rw [if_pos h]
      rcases h with h | h
      · have : path = [] := List.length_eq_zero.1 h
        subst this
        exact List.chain'_singleton _
      · exact chain_ne_append_singleton path c.edge hp h
    · rw [if_neg h]; exact to_path_edges_chain_ne _ _ hp

theorem foldl_to_path_step_chain_ne (l : List Cursor) (path : List EdgeId)
    (hp : path.Chain' (fun a b => a ≠ b)) :
    (l.foldl to_path_step path).Chain' (fun a b => a ≠ b) := by
  induction l generalizing path with
  | nil => exact hp
  | cons c rest ih => exact ih _ (to_path_step_chain_ne path c hp)

theorem to_path_edges_mem (es : List EdgeId) (path : List EdgeId) (e : EdgeId)
    (h : e ∈ to_path_edges path es) : e ∈ path ∨ e ∈ es := by
  unfold to_path_edges at h
  induction es generalizing path with
  | nil => exact Or.inl h
  | cons x rest ih =>
    simp only [List.foldl_cons] at h
    by_cases hx : path.getLast? ≠ some x
    · rw [if_pos hx] at h
      rcases ih _ h with h' | h'
      · rcases List.mem_append.1 h' with h'' | h''
        · exact Or.inl h''
        · right; rw [List.mem_singleton.1 h'']; exact List.mem_cons_self _ _
      · exact Or.inr (List.mem_cons_of_mem _ h')
    · rw [if_neg hx] at h
      rcases ih _ h with h' | h'
      · exact Or.inl h'
      · exact Or.inr (List.mem_cons_of_mem _ h')

theorem foldl_to_path_step_mem (l : List Cursor) (path : List EdgeId) (e : EdgeId)
    (h : e ∈ l.foldl to_path_step path) :
    e ∈ path ∨ ∃ c ∈ l, c.is_empty = false ∧ (e = c.edge ∨ e ∈ c.edges) := by
  induction l generalizing path with
  | nil => exact Or.inl h
  | cons c rest ih =>
    simp only [List.foldl_cons] at h
    rcases ih _ h with h' | ⟨c', hc', hne, hc⟩
    · unfold to_path_step at h'
      by_cases he : c.is_empty = true
      · rw [if_pos he] at h'; exact Or.inl h'
      · rw [if_neg he] at h'
        have he' : c.is_empty = false := by simpa using he
        by_cases hb : path.length = 0 ∨ path.getLast? ≠ some c.edge
        · rw [if_pos hb] at h'
          rcases List.mem_append.1 h' with h'' | h''
          · exact Or.inl h''
          · exact Or.inr ⟨c, List.mem_cons_self _ _, he', Or.inl (List.mem_singleton.1 h'')⟩
        · rw [if_neg hb] at h'
          rcases to_path_edges_mem _ _ _ h' with h'' | h''
          · exact Or.inl h''
          · exact Or.inr ⟨c, List.mem_cons_self _ _, he', Or.inr h''⟩
    · exact Or.inr ⟨c', List.mem_cons_of_mem _ hc', hne, hc⟩

theorem to_path_edges_prefix (es : List EdgeId) (path : List EdgeId) :
    ∃ ext, to_path_edges path es = path ++ ext := by
  unfold to_path_edges
  induction es generalizing path with
  | nil => exact ⟨[], by simp⟩
  | cons x rest ih =>
    simp only [List.foldl_cons]
    by_cases hx : path.getLast? ≠ some x
    · rw [if_pos hx]
      obtain ⟨ext, hext⟩ := ih (path ++ [x])
      exact ⟨[x] ++ ext, by rw [hext, List.append_assoc]⟩
    · rw [if_neg hx]; exact ih path

theorem foldl_to_path_step_prefix (l : List Cursor) (path : List EdgeId) :
    ∃ ext, l.foldl to_path_step path = path ++ ext := by
  induction l generalizing path with
  | nil => exact ⟨[], by simp⟩
  | cons c rest ih =>
    simp only [List.foldl_cons]
    have hstep : ∃ ext, to_path_step path c = path ++ ext := by
      unfold to_path_step
      by_cases he : c.is_empty = true
      · rw [if_pos he]; exact ⟨[], by simp⟩
      · rw [if_neg he]
        by_cases hb : path.length = 0 ∨ path.getLast? ≠ some c.edge
        · rw [if_pos hb]; exact ⟨[c.edge], rfl⟩
        · rw [if_neg hb]; exact to_path_edges_prefix _ _
    obtain ⟨e1, h1⟩ := hstep
    obtain ⟨e2, h2⟩ := ih (to_path_step path c)
    exact ⟨e1 ++ e2, by rw [h2, h1, List.append_assoc]⟩

theorem chain_ne_getElem (p : List EdgeId) (hp : p.Chain' (fun a b => a ≠ b)) (i : Nat)
    (h : i + 1 < p.length) : p[i] ≠ p[i + 1] := by
  induction p generalizing i with
  | nil => simp at h
  | cons a rest ih =>
    cases rest with
    | nil => simp at h
    | cons b rest' =>
      rw [List.chain'_cons] at hp
      cases i with
      | zero => simpa using hp.1
      | succ j =>
        have hj : j + 1 < (b :: rest').length := by simpa using h
        simpa using ih hp.2 j hj

theorem chain_ne_separated (p : List EdgeId) (hp : p.Chain' (fun a b => a ≠ b))
    (a m b : List EdgeId) (e : EdgeId) (h : p = a ++ e :: (m ++ e :: b)) :
    ∃ x ∈ m, x ≠ e := by
  subst h
  have h1 : (e :: (m ++ e :: b)).Chain' (fun a b => a ≠ b) := (List.chain'_append.1 hp).2.1
  cases m with
  | nil =>
    simp only [List.nil_append, List.chain'_cons] at h1
    exact absurd rfl h1.1
  | cons x m' =>
    simp only [List.cons_append, List.chain'_cons] at h1
    exact ⟨x, List.mem_cons_self _ _, fun c => h1.1 c.symm⟩

/-! ## Lemmas: walks and nucleotide cursors -/

theorem to_path_edges_nucleotide (path : List EdgeId) (e : EdgeId) (es : List EdgeId)
    (hes : ∀ x ∈ es, x = e) (hl : path.getLast? = some e) : to_path_edges path es = path := by
  unfold to_path_edges
  induction es with
  | nil => rfl
  | cons x rest ih =>
    have hx : x = e := hes x (List.mem_cons_self _ _)
    subst hx
    simp only [List.foldl_cons, hl, ne_eq, not_true_eq_false, if_false]
    exact ih (fun y hy => hes y (List.mem_cons_of_mem _ hy))

/-- Step of `to_path` on a non-empty nucleotide cursor. -/
theorem to_path_step_nucleotide (path : List EdgeId) (c : Cursor) (hne : c.is_empty = false)
    (hes : ∀ x ∈ c.edges, x = c.edge) :
    to_path_step path c = if path.getLast? = some c.edge then path else path ++ [c.edge] := by
  unfold to_path_step
  simp only [hne, Bool.false_eq_true, if_false]
  by_cases h : path.getLast? = some c.edge
  · have hlen : ¬ path.length = 0 := by
      intro hz
      rw [List.length_eq_zero.1 hz] at h
      simp at h
    have : ¬ (path.length = 0 ∨ path.getLast? ≠ some c.edge) := by
      rintro (h1 | h1)
      · exact hlen h1
      · exact h1 h
    rw [if_neg this, if_pos h]
    exact to_path_edges_nucleotide path c.edge c.edges hes h
  · rw [if_pos (Or.inr h), if_neg h]

/-- For nucleotide cursors `to_path` is the list of the edges of the non-empty cursors
with runs of equal edges collapsed. -/
theorem foldl_to_path_step_destutter (l : List Cursor) (path : List EdgeId) (a : EdgeId)
    (hlast : path.getLast? = some a)
    (hnuc : ∀ c ∈ l, c.is_empty = false ∧ ∀ x ∈ c.edges, x = c.edge) :
    l.foldl to_path_step path =
      path.dropLast ++ List.destutter' (fun x y => x ≠ y) a (l.map (fun c => c.edge)) := by
  have hsplit : ∀ (p : List EdgeId) (b : EdgeId), p.getLast? = some b → p = p.dropLast ++ [b] := by
    intro p b hb
    have hne : p ≠ [] := by
      intro c; rw [c] at hb; simp at hb
    have := List.dropLast_append_getLast hne
    rw [List.getLast?_eq_getLast _ hne] at hb
    rw [← Option.some.inj hb]
    exact this.symm
  induction l generalizing path a with
  | nil =>
    simp only [List.foldl_nil, List.map_nil, List.destutter'_nil]
    exact hsplit path a hlast
  | cons c rest ih =>
    obtain ⟨hne, hes⟩ := hnuc c (List.mem_cons_self _ _)
    have hrest : ∀ c' ∈ rest, c'.is_empty = false ∧ ∀ x ∈ c'.edges, x = c'.edge :=
      fun c' hc' => hnuc c' (List.mem_cons_of_mem _ hc')
    simp only [List.foldl_cons, List.map_cons]
    rw [to_path_step_nucleotide path c hne hes]
    by_cases h : path.getLast? = some c.edge
    · rw [if_pos h]
      have hac : a = c.edge := by
        rw [hlast] at h; exact Option.some.inj h
      rw [ih path a hlast hrest, List.destutter'_cons_neg _ (by simp [hac])]
    · rw [if_neg h]
      have hac : a ≠ c.edge := by
        intro hc; apply h; rw [hlast, hc]
      rw [ih (path ++ [c.edge]) c.edge (by simp) hrest, List.destutter'_cons_pos _ hac,
        List.dropLast_concat]
      conv_lhs => rw [hsplit path a hlast]
      simp

theorem to_path_eq_destutter (cpath : List Cursor)
    (hnuc : ∀ c ∈ cpath, c.is_empty = false → ∀ x ∈ c.edges, x = c.edge) :
    to_path cpath =
      List.destutter (fun x y => x ≠ y)
        ((cpath.filter (fun c => !c.is_empty)).map (fun c => c.edge)) := by
  rw [to_path_eq_foldl_filter]
  have hn : ∀ c ∈ cpath.filter (fun c => !c.is_empty),
      c.is_empty = false ∧ ∀ x ∈ c.edges, x = c.edge := by
    intro c hc
    obtain ⟨hc1, hc2⟩ := List.mem_filter.1 hc
    have hne : c.is_empty = false := by simpa using hc2
    exact ⟨hne, hnuc c hc1 hne⟩
  generalize cpath.filter (fun c => !c.is_empty) = l at hn
  cases l with
  | nil => rfl
  | cons c rest =>
    obtain ⟨hne, hes⟩ := hn c (List.mem_cons_self _ _)
    simp only [List.foldl_cons, List.map_cons, List.destutter_cons']
    rw [to_path_step_nucleotide [] c hne hes]
    have hnil : ¬ ([] : List EdgeId).getLast? = some c.edge := by simp
    rw [if_neg hnil, List.nil_append]
    rw [foldl_to_path_step_destutter rest [c.edge] c.edge (by simp)
      (fun c' hc' => hn c' (List.mem_cons_of_mem _ hc'))]
    simp

/-! ## Lemmas: what `join_components` keeps -/

theorem join_scan_fused_mono (graph : Graph) (seed : EdgeId) (acc : Finset VertexId)
    (l : List (EdgeId × Finset VertexId)) (st : JoinState) (p : EdgeId × EdgeId)
    (hp : p ∈ st.fused) : p ∈ (join_scan graph seed acc l st).2.fused := by
  induction l generalizing acc st with
  | nil => exact hp
  | cons x rest ih =>
    by_cases h : graph.EdgeStart x.1 ∈ acc ∨ graph.EdgeEnd x.1 ∈ acc
    · rw [join_scan_cons_pos _ _ _ _ _ _ h]
      exact ih _ _ (List.mem_append_left _ hp)
    · rw [join_scan_cons_neg _ _ _ _ _ _ h]
      exact ih _ _ hp

theorem join_pass_fused_mono (graph : Graph) (v : List (EdgeId × Finset VertexId))
    (st : JoinState) (p : EdgeId × EdgeId) (hp : p ∈ st.fused) :
    p ∈ (join_pass graph v st).2.fused := by
  induction v generalizing st with
  | nil => exact hp
  | cons it rest ih =>
    by_cases h : it.1 ∈ st.removed
    · rw [join_pass_cons_removed _ _ _ _ h]; exact ih _ hp
    · rw [join_pass_cons_alive _ _ _ _ h]
      exact ih _ (join_scan_fused_mono _ _ _ _ _ _ hp)

theorem join_scan_removed_fused (graph : Graph) (seed : EdgeId) (acc : Finset VertexId)
    (l : List (EdgeId × Finset VertexId)) (st : JoinState) (k : EdgeId)
    (hk : k ∈ (join_scan graph seed acc l st).2.removed) :
    k ∈ st.removed ∨ ∃ p ∈ (join_scan graph seed acc l st).2.fused, p.2 = k := by
  induction l generalizing acc st with
  | nil => exact Or.inl hk
  | cons x rest ih =>
    by_cases h : graph.EdgeStart x.1 ∈ acc ∨ graph.EdgeEnd x.1 ∈ acc
    · rw [join_scan_cons_pos _ _ _ _ _ _ h] at hk ⊢
      rcases ih _ _ hk with h' | h'
      · rcases List.mem_cons.1 h' with h'' | h''
        · right
          exact ⟨(seed, x.1), join_scan_fused_mono _ _ _ _ _ _
            (List.mem_append_right _ (List.mem_singleton_self _)), h''.symm⟩
        · exact Or.inl h''
      · exact Or.inr h'
    · rw [join_scan_cons_neg _ _ _ _ _ _ h] at hk ⊢
      exact ih _ _ hk

/-- Every removed seed was absorbed in a recorded fusion. -/
theorem join_pass_removed_fused (graph : Graph) (v : List (EdgeId × Finset VertexId))
    (st : JoinState) (k : EdgeId) (hk : k ∈ (join_pass graph v st).2.removed) :
    k ∈ st.removed ∨ ∃ p ∈ (join_pass graph v st).2.fused, p.2 = k := by
  induction v generalizing st with
  | nil => exact Or.inl hk
  | cons it rest ih =>
    by_cases h : it.1 ∈ st.removed
    · rw [join_pass_cons_removed _ _ _ _ h] at hk ⊢
      exact ih _ hk
    · rw [join_pass_cons_alive _ _ _ _ h] at hk ⊢
      rcases ih _ hk with h' | h'
      · rcases join_scan_removed_fused _ _ _ _ _ _ h' with h'' | ⟨p, hp, hpk⟩
        · exact Or.inl h''
        · exact Or.inr ⟨p, join_pass_fused_mono _ _ _ _ hp, hpk⟩
      · exact Or.inr h'

theorem join_scan_mem (graph : Graph) (seed : EdgeId) (acc : Finset VertexId)
    (l : List (EdgeId × Finset VertexId)) (st : JoinState) (x : VertexId)
    (hx : x ∈ (join_scan graph seed acc l st).1) : x ∈ acc ∨ ∃ y ∈ l, x ∈ y.2 := by
  induction l generalizing acc st with
  | nil => exact Or.inl hx
  | cons y rest ih =>
    by_cases h : graph.EdgeStart y.1 ∈ acc ∨ graph.EdgeEnd y.1 ∈ acc
    · rw [join_scan_cons_pos _ _ _ _ _ _ h] at hx
      rcases ih _ _ hx with h' | ⟨z, hz, hxz⟩
      · rcases Finset.mem_union.1 h' with h'' | h''
        · exact Or.inl h''
        · exact Or.inr ⟨y, List.mem_cons_self _ _, h''⟩
      · exact Or.inr ⟨z, List.mem_cons_of_mem _ hz, hxz⟩
    · rw [join_scan_cons_neg _ _ _ _ _ _ h] at hx
      rcases ih _ _ hx with h' | ⟨z, hz, hxz⟩
      · exact Or.inl h'
      · exact Or.inr ⟨z, List.mem_cons_of_mem _ hz, hxz⟩

/-- Every entry of the updated vector is an input entry grown by input vertices. -/
theorem join_pass_entry (graph : Graph) (v : List (EdgeId × Finset VertexId))
    (st : JoinState) (k : EdgeId) (S : Finset VertexId)
    (h : (k, S) ∈ (join_pass graph v st).1) :
    ∃ vs, (k, vs) ∈ v ∧ vs ⊆ S ∧ ∀ x ∈ S, ∃ y ∈ v, x ∈ y.2 := by
  induction v generalizing st with
  | nil => simp [join_pass] at h
  | cons it rest ih =>
    by_cases hr : it.1 ∈ st.removed
    · rw [join_pass_cons_removed _ _ _ _ hr] at h
      rcases List.mem_cons.1 h with h' | h'
      · refine ⟨S, by rw [h']; exact List.mem_cons_self _ _, Finset.Subset.refl _, ?_⟩
        intro x hx
        exact ⟨it, List.mem_cons_self _ _, by rw [← h']; exact hx⟩
      · obtain ⟨vs, hvs, hsub, hall⟩ := ih _ h'
        refine ⟨vs, List.mem_cons_of_mem _ hvs, hsub, fun x hx => ?_⟩
        obtain ⟨y, hy, hxy⟩ := hall x hx
        exact ⟨y, List.mem_cons_of_mem _ hy, hxy⟩
    · rw [join_pass_cons_alive _ _ _ _ hr] at h
      rcases List.mem_cons.1 h with h' | h'
      · have hk : k = it.1 := (Prod.mk.inj h').1
        have hS : S = (join_scan graph it.1 it.2 rest st).1 := (Prod.mk.inj h').2
        refine ⟨it.2, by rw [hk]; exact List.mem_cons_self _ _, ?_, ?_⟩
        · rw [hS]; exact join_scan_subset _ _ _ _ _
        · intro x hx
          rw [hS] at hx
          rcases join_scan_mem _ _ _ _ _ _ hx with h'' | ⟨y, hy, hxy⟩
          · exact ⟨it, List.mem_cons_self _ _, h''⟩
          · exact ⟨y, List.mem_cons_of_mem _ hy, hxy⟩
      · obtain ⟨vs, hvs, hsub, hall⟩ := ih _ h'
        refine ⟨vs, List.mem_cons_of_mem _ hvs, hsub, fun x hx => ?_⟩
        obtain ⟨y, hy, hxy⟩ := hall x hx
        exact ⟨y, List.mem_cons_of_mem _ hy, hxy⟩

theorem join_collect_sub (removed : List EdgeId) (v : List (EdgeId × Finset VertexId))
    (result : Neighbourhoods) (x : EdgeId × Finset VertexId)
    (hx : x ∈ join_collect removed v result) : x ∈ result ∨ (x ∈ v ∧ x.1 ∉ removed) := by
  induction v generalizing result with
  | nil => exact Or.inl hx
  | cons it rest ih =>
    unfold join_collect at hx
    by_cases h : it.1 ∈ removed
    · rw [if_pos h] at hx
      rcases ih _ hx with h' | h'
      · exact Or.inl h'
      · exact Or.inr ⟨List.mem_cons_of_mem _ h'.1, h'.2⟩
    · rw [if_neg h] at hx
      by_cases hc : mcount result it.1 = true
      · rw [if_pos hc] at hx
        rcases ih _ hx with h' | h'
        · exact Or.inl h'
        · exact Or.inr ⟨List.mem_cons_of_mem _ h'.1, h'.2⟩
      · rw [if_neg hc] at hx
        rcases ih _ hx with h' | h'
        · rcases List.mem_append.1 h' with h'' | h''
          · exact Or.inl h''
          · right
            rw [List.mem_singleton.1 h'']
            exact ⟨List.mem_cons_self _ _, h⟩
        · exact Or.inr ⟨List.mem_cons_of_mem _ h'.1, h'.2⟩

theorem join_pass_entry_exists (graph : Graph) (v : List (EdgeId × Finset VertexId))
    (st : JoinState) (k : EdgeId) (vs : Finset VertexId) (h : (k, vs) ∈ v) :
    ∃ S, (k, S) ∈ (join_pass graph v st).1 ∧ vs ⊆ S := by
  induction v generalizing st with
  | nil => simp at h
  | cons it rest ih =>
    by_cases hr : it.1 ∈ st.removed
    · rw [join_pass_cons_removed _ _ _ _ hr]
      rcases List.mem_cons.1 h with h' | h'
      · exact ⟨vs, by rw [h']; exact List.mem_cons_self _ _, Finset.Subset.refl _⟩
      · obtain ⟨S, hS, hsub⟩ := ih _ h'
        exact ⟨S, List.mem_cons_of_mem _ hS, hsub⟩
    · rw [join_pass_cons_alive _ _ _ _ hr]
      rcases List.mem_cons.1 h with h' | h'
      · have hk : k = it.1 := by rw [← h']
        have hvs : vs = it.2 := by rw [← h']
        refine ⟨(join_scan graph it.1 it.2 rest st).1, ?_, ?_⟩
        · rw [hk]; exact List.mem_cons_self _ _
        · rw [hvs]; exact join_scan_subset _ _ _ _ _
      · obtain ⟨S, hS, hsub⟩ := ih _ h'
        exact ⟨S, List.mem_cons_of_mem _ hS, hsub⟩

/-- Every input neighbourhood is contained in a surviving neighbourhood. -/
theorem join_sorted_covers (graph : Graph) (v : List (EdgeId × Finset VertexId))
    (hnd : (mkeys v).Nodup) (k : EdgeId) (vs : Finset VertexId) (h : (k, vs) ∈ v) :
    ∃ k' S, (k', S) ∈ join_sorted graph v ∧ vs ⊆ S := by
  have hcollect : ∀ x ∈ (join_pass graph v ⟨[], []⟩).1,
      x.1 ∉ (join_pass graph v ⟨[], []⟩).2.removed → x ∈ join_sorted graph v := by
    intro x hx hrem
    unfold join_sorted
    refine join_collect_mem _ _ [] ?_ ?_ x hx hrem
    · rw [join_pass_keys]; exact hnd
    · intro k' _ hk'; simp [mkeys] at hk'
  by_cases hrem : k ∈ (join_pass graph v ⟨[], []⟩).2.removed
  · rcases join_pass_removed_fused graph v ⟨[], []⟩ k hrem with h' | ⟨p, hp, hpk⟩
    · simp at h'
    · rcases join_pass_fused_alive graph v ⟨[], []⟩ hnd p hp with h'' | ⟨halive, S, hS, hsub⟩
      · simp at h''
      · exact ⟨p.1, S, hcollect _ hS halive, hsub vs (by rw [hpk]; exact h)⟩
  · obtain ⟨S, hS, hsub⟩ := join_pass_entry_exists graph v ⟨[], []⟩ k vs h
    exact ⟨k, S, hcollect _ hS hrem, hsub⟩

/-! ## Claim on what `join_components` keeps -/

/-- C20. For every map of neighbourhoods (distinct keys) and every arrangement `v` of
its entries on which the merge pass runs (in particular the sorted vector of
`join_components`): every surviving seed is an input seed, every surviving vertex set
contains the input vertex set of its own seed, every input vertex set (of a removed
neighbourhood too) is contained in a surviving vertex set, the union of the
surviving vertex sets is the union of the input vertex sets, and a non-empty input
gives a non-empty result. -/
theorem join_sorted_keeps_vertices (graph : Graph) (neighbourhoods : Neighbourhoods)
    (v : List (EdgeId × Finset VertexId)) (hnd : (mkeys neighbourhoods).Nodup)
    (hv : v.Perm neighbourhoods) :
    (∀ k ∈ mkeys (join_sorted graph v), k ∈ mkeys neighbourhoods) ∧
    (∀ k S, (k, S) ∈ join_sorted graph v → ∃ vs, (k, vs) ∈ neighbourhoods ∧ vs ⊆ S) ∧
    (∀ k vs, (k, vs) ∈ neighbourhoods → ∃ k' S, (k', S) ∈ join_sorted graph v ∧ vs ⊆ S) ∧
    (∀ x, (∃ k S, (k, S) ∈ join_sorted graph v ∧ x ∈ S) ↔
      (∃ k vs, (k, vs) ∈ neighbourhoods ∧ x ∈ vs)) ∧
    (neighbourhoods ≠ [] → join_sorted graph v ≠ []) := by
  have hndv : (mkeys v).Nodup := (hv.map Prod.fst).nodup_iff.2 hnd
  have hentry : ∀ k S, (k, S) ∈ join_sorted graph v →
      ∃ vs, (k, vs) ∈ v ∧ vs ⊆ S ∧ ∀ x ∈ S, ∃ y ∈ v, x ∈ y.2 := by
    intro k S h
    unfold join_sorted at h
    rcases join_collect_sub _ _ _ _ h with h' | h'
    · simp at h'
    · exact join_pass_entry graph v _ k S h'.1
  have hcover : ∀ k vs, (k, vs) ∈ neighbourhoods →
      ∃ k' S, (k', S) ∈ join_sorted graph v ∧ vs ⊆ S :=
    fun k vs h => join_sorted_covers graph v hndv k vs (hv.symm.subset h)
  refine ⟨?_, ?_, hcover, ?_, ?_⟩
  · intro k hk
    obtain ⟨x, hx, hxk⟩ := List.mem_map.1 hk
    obtain ⟨vs, hvs, _, _⟩ := hentry x.1 x.2 hx
    rw [← hxk]
    exact List.mem_map.2 ⟨(x.1, vs), hv.subset hvs, rfl⟩
  · intro k S h
    obtain ⟨vs, hvs, hsub, _⟩ := hentry k S h
    exact ⟨vs, hv.subset hvs, hsub⟩
  · intro x
    constructor
    · rintro ⟨k, S, h, hx⟩
      obtain ⟨_, _, _, hall⟩ := hentry k S h
      obtain ⟨y, hy, hxy⟩ := hall x hx
      exact ⟨y.1, y.2, hv.subset hy, hxy⟩
    · rintro ⟨k, vs, h, hx⟩
      obtain ⟨k', S, hS, hsub⟩ := hcover k vs h
      exact ⟨k', S, hS, hsub hx⟩
  · intro hne
    obtain ⟨y, hy⟩ := List.exists_mem_of_ne_nil _ hne
    obtain ⟨k', S, hS, _⟩ := hcover y.1 y.2 hy
    exact List.ne_nil_of_mem hS

/-- Instance of C20 on the two adjacent seeds of the chain, on the vector that
`join_components` builds. -/
theorem join_sorted_keeps_vertices_witness :
    ((mkeys adjacent_neighbourhoods).Nodup ∧
      (join_vector adjacent_neighbourhoods adjacent_matched).Perm adjacent_neighbourhoods ∧
      join_components adjacent_neighbourhoods adjacent_matched chain_graph =
        join_sorted chain_graph (join_vector adjacent_neighbourhoods adjacent_matched)) ∧
    ((∀ k ∈ mkeys (join_sorted chain_graph
          (join_vector adjacent_neighbourhoods adjacent_matched)),
        k ∈ mkeys adjacent_neighbourhoods) ∧
    (∀ k S, (k, S) ∈ join_sorted chain_graph
          (join_vector adjacent_neighbourhoods adjacent_matched) →
        ∃ vs, (k, vs) ∈ adjacent_neighbourhoods ∧ vs ⊆ S) ∧
    (∀ k vs, (k, vs) ∈ adjacent_neighbourhoods →
      ∃ k' S, (k', S) ∈ join_sorted chain_graph
          (join_vector adjacent_neighbourhoods adjacent_matched) ∧ vs ⊆ S) ∧
    (∀ x, (∃ k S, (k, S) ∈ join_sorted chain_graph
          (join_vector adjacent_neighbourhoods adjacent_matched) ∧ x ∈ S) ↔
      (∃ k vs, (k, vs) ∈ adjacent_neighbourhoods ∧ x ∈ vs)) ∧
    (adjacent_neighbourhoods ≠ [] →
      join_sorted chain_graph (join_vector adjacent_neighbourhoods adjacent_matched) ≠ [])) :=
  ⟨⟨by decide, by decide, rfl⟩,
    join_sorted_keeps_vertices chain_graph adjacent_neighbourhoods
      (join_vector adjacent_neighbourhoods adjacent_matched) (by decide) (by decide)⟩

/-! ## Lemmas: decimal strings and `stoull` -/

theorem sort_insert_sorted_key {α β : Type} [LinearOrder β] (key : α → β)
    (lt : α → α → Bool) (hlt : ∀ a b, lt a b = decide (key a < key b)) (x : α) (l : List α)
    (hl : l.Pairwise (fun a b => key a ≤ key b)) :
    (sort_insert lt x l).Pairwise (fun a b => key a ≤ key b) := by
  induction l with
  | nil => simp [sort_insert]
  | cons y ys ih =>
    rw [List.pairwise_cons] at hl
    unfold sort_insert
    by_cases h : key x < key y
    · have hb : lt x y = true := by rw [hlt]; exact decide_eq_true h
      rw [if_pos hb]
      refine List.pairwise_cons.2 ⟨?_, List.pairwise_cons.2 hl⟩
      intro z hz
      rcases List.mem_cons.1 hz with hz | hz
      · rw [hz]; exact le_of_lt h
      · exact le_trans (le_of_lt h) (hl.1 z hz)
    · have hb : ¬ lt x y = true := by rw [hlt]; simpa using h
      rw [if_neg hb]
      refine List.pairwise_cons.2 ⟨?_, ih hl.2⟩
      intro z hz
      have hz' := (sort_insert_perm lt x ys).subset hz
      rcases List.mem_cons.1 hz' with hz' | hz'
      · rw [hz']; exact not_lt.1 h
      · exact hl.1 z hz'

/-- Sorting with a comparison that is the strict order of a key yields a list in
ascending order of the key. -/
theorem std_sort_sorted_key {α β : Type} [LinearOrder β] (key : α → β)
    (lt : α → α → Bool) (hlt : ∀ a b, lt a b = decide (key a < key b)) (l : List α) :
    (std_sort lt l).Pairwise (fun a b => key a ≤ key b) := by
  induction l with
  | nil => simp [std_sort]
  | cons x xs ih =>
    have : std_sort lt (x :: xs) = sort_insert lt x (std_sort lt xs) := rfl
    rw [this]
    exact sort_insert_sorted_key key lt hlt x _ ih

theorem pair_lt_eq_lex (a b : String × String) :
    pair_lt a b =
      decide ((toLex (a.1.toList, a.2.toList) : List Char ×ₗ List Char) <
        toLex (b.1.toList, b.2.toList)) := by
  rw [Bool.eq_iff_iff]
  simp only [pair_lt, string_lt, Bool.or_eq_true, Bool.and_eq_true, Bool.not_eq_true',
    decide_eq_true_eq, decide_eq_false_iff_not, Prod.Lex.lt_iff]
  constructor
  · rintro (h | ⟨h1, h2⟩)
    · exact Or.inl h
    · rcases lt_trichotomy a.1.toList b.1.toList with h | h | h
      · exact Or.inl h
      · exact Or.inr ⟨h, h2⟩
      · exact absurd h h1
  · rintro (h | ⟨h1, h2⟩)
    · exact Or.inl h
    · exact Or.inr ⟨by rw [h1]; exact lt_irrefl _, h2⟩

theorem EdgesToSequences_loop_spec (graph : Graph) (merge : List String → Nat → String)
    (entries : List (List EdgeId))
    (hvalid : ∀ p ∈ entries, p ≠ [] ∧ verify_walk graph p = true) :
    EdgesToSequences_loop graph merge entries =
      some (entries.map (fun p => (join p "_", merge (p.map graph.EdgeNucls) graph.k))) := by
  induction entries with
  | nil => rfl
  | cons p rest ih =>
    obtain ⟨hne, hw⟩ := hvalid p (List.mem_cons_self _ _)
    have hm : MergeSequences graph merge p = some (merge (p.map graph.EdgeNucls) graph.k) := by
      cases p with
      | nil => exact absurd rfl hne
      | cons a r => simp [MergeSequences, hw]
    simp only [EdgesToSequences_loop, hm, ih (fun q hq => hvalid q (List.mem_cons_of_mem _ hq)),
      List.map_cons]

/-! ## Claim on `EdgesToSequences` and `ExportEdges` -/

/-- C16. For every collection of edge paths that are non-empty walks (on any other path
`MergeSequences` fails), `EdgesToSequences` returns exactly one (joined id, merged
sequence) entry per input path, the id being the edge ids of the path joined with
`_`; the entries are in non-decreasing order of the id as a string; and `ExportEdges`
writes one record per entry to its file in that order. -/
theorem EdgesToSequences_sorted_by_id (entries : List (List EdgeId)) (graph : Graph)
    (merge : List String → Nat → String)
    (hvalid : ∀ p ∈ entries, p ≠ [] ∧ verify_walk graph p = true) :
    ∃ out, EdgesToSequences entries graph merge = some out ∧
      out.Perm (entries.map (fun p => (join p "_", merge (p.map graph.EdgeNucls) graph.k))) ∧
      out.length = entries.length ∧
      out.Pairwise (fun a b => a.1 ≤ b.1) ∧
      ExportEdges entries graph merge = some (out.map (fun kv => (">" ++ kv.1, kv.2))) := by
  have hloop := EdgesToSequences_loop_spec graph merge entries hvalid
  have hout : EdgesToSequences entries graph merge =
      some (std_sort pair_lt
        (entries.map (fun p => (join p "_", merge (p.map graph.EdgeNucls) graph.k)))) := by
    simp [EdgesToSequences, hloop]
  refine ⟨_, hout, std_sort_perm _ _, ?_, ?_, ?_⟩
  · rw [(std_sort_perm _ _).length_eq, List.length_map]
  · have hs := std_sort_sorted_key
      (fun a : String × String => (toLex (a.1.toList, a.2.toList) : List Char ×ₗ List Char))
      pair_lt pair_lt_eq_lex
      (entries.map (fun p => (join p "_", merge (p.map graph.EdgeNucls) graph.k)))
    refine hs.imp ?_
    intro a b hab
    rw [String.le_iff_toList_le]
    rcases (Prod.Lex.le_iff _ _).1 hab with h | h
    · exact le_of_lt h
    · exact le_of_eq h.1
  · unfold ExportEdges
    by_cases he : entries.length = 0
    · have : entries = [] := List.length_eq_zero.1 he
      subst this
      simp [std_sort]
    · rw [if_neg he, hout]
      rfl

/-- Instance of C16 on three walks of the chain. -/
theorem EdgesToSequences_sorted_by_id_witness :
    ((∀ p ∈ sample_paths, p ≠ [] ∧ verify_walk chain_graph p = true) ∧
      EdgesToSequences sample_paths chain_graph sample_merge =
        some [("1_2", "ACGTCGT"), ("1_2_3", "ACGTCGTCGT"), ("2_3", "ACGTCGT")]) ∧
    ∃ out, EdgesToSequences sample_paths chain_graph sample_merge = some out ∧
      out.Perm (sample_paths.map
        (fun p => (join p "_", sample_merge (p.map chain_graph.EdgeNucls) chain_graph.k))) ∧
      out.length = sample_paths.length ∧
      out.Pairwise (fun a b => a.1 ≤ b.1) ∧
      ExportEdges sample_paths chain_graph sample_merge =
        some (out.map (fun kv => (">" ++ kv.1, kv.2))) :=
  ⟨by decide, EdgesToSequences_sorted_by_id sample_paths chain_graph sample_merge (by decide)⟩

/-! ## Lemmas: the k best paths -/

theorem dedup_trace_sublist (seen : List (List (Nat × Nat))) (l : List AnnotatedPath) :
    (dedup_trace seen l).Sublist l := by
  induction l generalizing seen with
  | nil => exact List.Sublist.refl _
  | cons ap rest ih =>
    unfold dedup_trace
    by_cases h : cursor_trace ap.path ∈ seen
    · rw [if_pos h]; exact (ih seen).trans (List.sublist_cons_self _ _)
    · rw [if_neg h]; exact (ih _).cons₂ _

theorem dedup_trace_nodup (seen : List (List (Nat × Nat))) (l : List AnnotatedPath) :
    ((dedup_trace seen l).map (fun a => cursor_trace a.path)).Nodup ∧
    ∀ a ∈ dedup_trace seen l, cursor_trace a.path ∉ seen := by
  induction l generalizing seen with
  | nil => simp [dedup_trace]
  | cons ap rest ih =>
    unfold dedup_trace
    by_cases h : cursor_trace ap.path ∈ seen
    · rw [if_pos h]; exact ih seen
    · rw [if_neg h]
      obtain ⟨hnd, hseen⟩ := ih (cursor_trace ap.path :: seen)
      constructor
      · rw [List.map_cons, List.nodup_cons]
        refine ⟨?_, hnd⟩
        intro hmem
        obtain ⟨b, hb, hbe⟩ := List.mem_map.1 hmem
        exact hseen b hb (by rw [hbe]; exact List.mem_cons_self _ _)
      · intro a ha
        rcases List.mem_cons.1 ha with ha | ha
        · rw [ha]; exact h
        · exact fun c => hseen a ha (List.mem_cons_of_mem _ c)

theorem map_eq_of_injOn {α β : Type} (f : α → β) (l l' : List α) (h : l.map f = l'.map f)
    (hinj : ∀ a ∈ l, ∀ b ∈ l', f a = f b → a = b) : l = l' := by
  induction l generalizing l' with
  | nil =>
    cases l' with
    | nil => rfl
    | cons b r => simp at h
  | cons a r ih =>
    cases l' with
    | nil => simp at h
    | cons b r' =>
      simp only [List.map_cons, List.cons.injEq] at h
      have hab : a = b := hinj a (List.mem_cons_self _ _) b (List.mem_cons_self _ _) h.1
      rw [hab, ih r' h.2 (fun x hx y hy =>
        hinj x (List.mem_cons_of_mem _ hx) y (List.mem_cons_of_mem _ hy))]

theorem path_key_injOn (candidates : List AnnotatedPath)
    (hcur : ∀ a ∈ candidates, ∀ b ∈ candidates, ∀ c ∈ a.path, ∀ c' ∈ b.path,
      c.edge = c'.edge → c.position = c'.position → c = c')
    (a : AnnotatedPath) (ha : a ∈ candidates) (b : AnnotatedPath) (hb : b ∈ candidates)
    (h : path_key a = path_key b) : a = b := by
  unfold path_key at h
  have h' : (a.score, (cursor_trace a.path).map (fun c => toLex c)) =
      (b.score, (cursor_trace b.path).map (fun c => toLex c)) := toLex.injective h
  obtain ⟨hs, ht⟩ := Prod.mk.inj h'
  have ht' : cursor_trace a.path = cursor_trace b.path :=
    List.map_injective_iff.2 toLex.injective ht
  have hp : a.path = b.path := by
    refine map_eq_of_injOn (fun c : Cursor => (c.edge, c.position)) _ _ ht' ?_
    intro c hc c' hc' hcc
    obtain ⟨h1, h2⟩ := Prod.mk.inj hcc
    exact hcur a ha b hb c hc c' hc' h1 h2
  cases a
  cases b
  simp only at hs hp
  rw [hs, hp]

theorem std_sort_path_lt_sorted (l : List AnnotatedPath) :
    (std_sort path_lt l).Pairwise (fun a b => path_key a ≤ path_key b) :=
  std_sort_sorted_key path_key path_lt (fun _ _ => rfl) l

/-- Sorting by cost and trace does not depend on the order in which the candidates are
listed, when cursors are identified by edge and offset. -/
theorem std_sort_path_lt_perm (candidates candidates' : List AnnotatedPath)
    (hperm : candidates'.Perm candidates)
    (hcur : ∀ a ∈ candidates, ∀ b ∈ candidates, ∀ c ∈ a.path, ∀ c' ∈ b.path,
      c.edge = c'.edge → c.position = c'.position → c = c') :
    std_sort path_lt candidates' = std_sort path_lt candidates := by
  have hp : (std_sort path_lt candidates').Perm (std_sort path_lt candidates) :=
    ((std_sort_perm _ _).trans hperm).trans (std_sort_perm _ _).symm
  have hk : (std_sort path_lt candidates').map path_key =
      (std_sort path_lt candidates).map path_key := by
    haveI : IsAntisymm (ℤ ×ₗ List (ℕ ×ₗ ℕ)) (fun x y => x ≤ y) :=
      ⟨fun _ _ h1 h2 => le_antisymm h1 h2⟩
    have s1 : ((std_sort path_lt candidates').map path_key).Sorted (fun x y => x ≤ y) :=
      List.pairwise_map.2 (std_sort_path_lt_sorted candidates')
    have s2 : ((std_sort path_lt candidates).map path_key).Sorted (fun x y => x ≤ y) :=
      List.pairwise_map.2 (std_sort_path_lt_sorted candidates)
    exact List.eq_of_perm_of_sorted (hp.map _) s1 s2
  refine map_eq_of_injOn path_key _ _ hk ?_
  intro a ha b hb hab
  have ha' : a ∈ candidates := hperm.subset ((std_sort_perm _ _).subset ha)
  have hb' : b ∈ candidates := (std_sort_perm _ _).subset hb
  exact path_key_injOn candidates hcur a ha' b hb' hab

/-! ## Claim on `top_k` -/

/-- C18 (on the solver as the specification describes it). For every list of completed
candidate paths in which cursors are identified by edge and offset, and every `k`:
`top_k(k)` returns the same list whatever the order in which the search finds the
candidates; the returned paths are in non-decreasing order of cost; no two returned
paths have the same cursor trace; at most `k` paths are returned and each is a
candidate. -/
theorem spec_top_k_deterministic_sorted (candidates candidates' : List AnnotatedPath)
    (k : Nat) (hperm : candidates'.Perm candidates)
    (hcur : ∀ a ∈ candidates, ∀ b ∈ candidates, ∀ c ∈ a.path, ∀ c' ∈ b.path,
      c.edge = c'.edge → c.position = c'.position → c = c') :
    spec_top_k candidates' k = spec_top_k candidates k ∧
    (spec_top_k candidates k).Pairwise (fun a b => a.score ≤ b.score) ∧
    ((spec_top_k candidates k).map (fun a => cursor_trace a.path)).Nodup ∧
    (spec_top_k candidates k).length ≤ k ∧
    ∀ a ∈ spec_top_k candidates k, a ∈ candidates := by
  have hsub : (spec_top_k candidates k).Sublist (std_sort path_lt candidates) :=
    (List.take_sublist _ _).trans (dedup_trace_sublist _ _)
  refine ⟨?_, ?_, ?_, ?_, ?_⟩
  · unfold spec_top_k
    rw [std_sort_path_lt_perm candidates candidates' hperm hcur]
  · refine ((std_sort_path_lt_sorted candidates).sublist hsub).imp ?_
    intro a b hab
    rcases (Prod.Lex.le_iff _ _).1 hab with h | h
    · exact le_of_lt h
    · exact le_of_eq h.1
  · have h1 := (dedup_trace_nodup [] (std_sort path_lt candidates)).1
    exact h1.sublist ((List.take_sublist _ _).map _)
  · unfold spec_top_k
    rw [List.length_take]
    exact Nat.min_le_left _ _
  · intro a ha
    exact (std_sort_perm _ _).subset (hsub.subset ha)

/-- Instance of C18 on four candidates and their reverse order, `k = 2`. -/
theorem spec_top_k_deterministic_sorted_witness :
    (sample_candidates.reverse.Perm sample_candidates ∧
      (∀ a ∈ sample_candidates, ∀ b ∈ sample_candidates, ∀ c ∈ a.path, ∀ c' ∈ b.path,
        c.edge = c'.edge → c.position = c'.position → c = c') ∧
      (spec_top_k sample_candidates 2).map (fun a => (a.score, cursor_trace a.path)) =
        [(5, [(1, 0), (1, 1)]), (9, [(1, 3), (2, 0)])]) ∧
    (spec_top_k sample_candidates.reverse 2 = spec_top_k sample_candidates 2 ∧
    (spec_top_k sample_candidates 2).Pairwise (fun a b => a.score ≤ b.score) ∧
    ((spec_top_k sample_candidates 2).map (fun a => cursor_trace a.path)).Nodup ∧
    (spec_top_k sample_candidates 2).length ≤ 2 ∧
    ∀ a ∈ spec_top_k sample_candidates 2, a ∈ sample_candidates) :=
  ⟨⟨List.reverse_perm _, by decide, by decide⟩,
    spec_top_k_deterministic_sorted sample_candidates sample_candidates.reverse 2
      (List.reverse_perm _) (by decide)⟩

/-! ## Lemmas: offsets of the intra-edge loop -/

/-- The initial cursors end with the cursors of the seed edge at the offsets of the
loop of lines 653-655. -/
theorem initial_cursors_offsets (env : Env) (matched_edges : EdgeAlnInfo)
    (kv : EdgeId × Finset VertexId) :
    ∃ left_cursors right_cursors, initial_cursors env matched_edges kv =
      left_cursors ++ right_cursors ++
        (intra_edge_offsets env matched_edges kv.1).map (fun i => env.get_cursor kv.2 kv.1 i) :=
  ⟨_, _, rfl⟩

/-- The bounds on the domains are needed: an entry with overhangs 0 and -20 for the
seed edge 2 of the chain (`len = 3 + 1 = 4`, `coef = 1`), which no domain inside a
sequence of 4 positions gives, has `roverhang = -10`, and the bound
`len - max(0, -roverhang) = 4 - 10` wraps to 2^64 - 6. -/
theorem intra_edge_offsets_wrap :
    mfind [(2, ((0 : Int), (-20 : Int)))] 2 = some (0, -20) ∧
    chain_graph.length 2 + chain_graph.k = 4 ∧
    intra_edge_first (sample_env chain_graph (fun _ => 2)) [(2, (0, -20))] 2 = 0 ∧
    intra_edge_last (sample_env chain_graph (fun _ => 2)) [(2, (0, -20))] 2 =
      18446744073709551610 ∧
    4 ∈ intra_edge_offsets (sample_env chain_graph (fun _ => 2)) [(2, (0, -20))] 2 ∧
    ¬ (∀ i ∈ intra_edge_offsets (sample_env chain_graph (fun _ => 2)) [(2, (0, -20))] 2,
        i < chain_graph.length 2 + chain_graph.k) := by
  have h1 : intra_edge_first (sample_env chain_graph (fun _ => 2)) [(2, (0, -20))] 2 = 0 := by
    decide
  have h2 : intra_edge_last (sample_env chain_graph (fun _ => 2)) [(2, (0, -20))] 2 =
      18446744073709551610 := by decide
  have h3 : 4 ∈ intra_edge_offsets (sample_env chain_graph (fun _ => 2)) [(2, (0, -20))] 2 := by
    unfold intra_edge_offsets
    rw [h1, h2, List.mem_range'_1]
    omega
  refine ⟨by decide, by decide, h1, h2, h3, fun h => ?_⟩
  have := h 4 h3
  exact absurd this (by decide)

/-- With `loverhang` and `roverhang` representable in `int`, the offsets of the
intra-edge loop are all below `len` exactly when `-roverhang <= len`, that is when
the bound `len - max(0, -roverhang)` does not wrap. -/
theorem intra_edge_offsets_in_range (env : Env) (matched_edges : EdgeAlnInfo) (e : EdgeId)
    (left right : Int) (hfind : mfind matched_edges e = some (left, right))
    (hlen : env.graph.length e + env.graph.k < 18446744073709551616)
    (hl : -2147483648 ≤ (left + 10) * (if env.hmm_in_aas then 3 else 1))
    (hr : -2147483648 ≤ (right + 10) * (if env.hmm_in_aas then 3 else 1)) :
    (∀ i ∈ intra_edge_offsets env matched_edges e, i < env.graph.length e + env.graph.k) ↔
      -((right + 10) * (if env.hmm_in_aas then 3 else 1)) ≤
        ((env.graph.length e + env.graph.k : Nat) : Int) := by
  have hmod : (env.graph.length e + env.graph.k) % 18446744073709551616 =
      env.graph.length e + env.graph.k := Nat.mod_eq_of_lt hlen
  unfold intra_edge_offsets intra_edge_first intra_edge_last
  simp only [hfind, Option.getD_some, hmod]
  generalize (left + 10) * (if env.hmm_in_aas then (3 : Int) else 1) = lo at hl
  generalize (right + 10) * (if env.hmm_in_aas then (3 : Int) else 1) = ro at hr
  generalize env.graph.length e + env.graph.k = len at hlen
  constructor
  · intro h
    by_contra hcon
    have hmem : (((len : Int) - max 0 (-ro)) % 18446744073709551616).toNat - 1 ∈
        List.range' (max 0 (-lo)).toNat
          ((((len : Int) - max 0 (-ro)) % 18446744073709551616).toNat - (max 0 (-lo)).toNat) := by
      rw [List.mem_range'_1]
      omega
    have := h _ hmem
    omega
  · intro hb i hi
    rw [List.mem_range'_1] at hi
    omega

/-! ## Lemmas: non-empty paths of the results -/

theorem run_search_appended (env : Env) (initial : List Cursor) (e : EdgeId) (top : Nat)
    (local_results : List HMMPathInfo) :
    ∃ appended, run_search env initial e top local_results = local_results ++ appended ∧
      (∀ r ∈ appended, 0 < r.path.length) ∧
      appended.map (fun r => r.priority) =
        (List.range appended.length).map (fun i => i % 4294967296) ∧
      appended.length = ((env.top_k initial top).filter
        (fun ap => decide ((to_path ap.path).length ≠ 0))).length := by
  refine ⟨(((env.top_k initial top).filter
      (fun ap => decide ((to_path ap.path).length ≠ 0))).enumFrom 0).map
      (fun ip => ⟨env.hmm_name, e, ip.1 % 4294967296, ip.2.score, env.str ip.2.path,
        to_path ip.2.path, env.event_str ip.2⟩), ?_, ?_, ?_, ?_⟩
  · unfold run_search
    rw [foldl_run_search_step]
  · intro r hr
    rw [List.mem_map] at hr
    obtain ⟨ip, hip, rfl⟩ := hr
    have hmem := List.mem_filter.1 (List.snd_mem_of_mem_enumFrom hip)
    have hne : (to_path ip.2.path).length ≠ 0 := by simpa using hmem.2
    exact Nat.pos_of_ne_zero hne
  · rw [List.map_map, List.length_map, List.enumFrom_length, List.range_eq_range',
      ← List.enumFrom_map_fst, List.map_map]
    rfl
  · rw [List.length_map, List.enumFrom_length]

theorem run_search_path_pos (env : Env) (initial : List Cursor) (e : EdgeId) (top : Nat)
    (r : HMMPathInfo) (hr : r ∈ run_search env initial e top []) : 0 < r.path.length := by
  obtain ⟨appended, heq, hpos, _, _⟩ := run_search_appended env initial e top []
  rw [heq, List.nil_append] at hr
  exact hpos r hr

theorem trace_neighbourhood_path_pos (env : Env) (cfg : Cfg) (me : EdgeAlnInfo)
    (kv : EdgeId × Finset VertexId) (local_results : List HMMPathInfo)
    (h : trace_neighbourhood env cfg me kv = some local_results) :
    ∀ r ∈ local_results, 0 < r.path.length := by
  unfold trace_neighbourhood at h
  intro r hr
  split at h
  · exact absurd h (by simp)
  · split at h
    · cases h
      exact run_search_path_pos _ _ _ _ r hr
    · cases h
      exact run_search_path_pos _ _ _ _ r hr

theorem TraceHMM_loop_path_pos (env : Env) (cfg : Cfg) (me : EdgeAlnInfo)
    (nbs : Neighbourhoods) (results : List HMMPathInfo)
    (h : ∀ r ∈ results, 0 < r.path.length) :
    ∀ r ∈ TraceHMM_loop env cfg me nbs results, 0 < r.path.length := by
  induction nbs generalizing results with
  | nil => exact h
  | cons kv rest ih =>
    simp only [TraceHMM_loop]
    cases hty : trace_neighbourhood env cfg me kv with
    | none => exact ih results h
    | some lr =>
      refine ih (results ++ lr) (fun r hr => ?_)
      rcases List.mem_append.1 hr with hr | hr
      · exact h r hr
      · exact trace_neighbourhood_path_pos env cfg me kv lr hty r hr

theorem TraceHMM_path_pos (env : Env) (edges : List EdgeId) (hits : List Hit) (cfg : Cfg)
    (results : List HMMPathInfo) (h : TraceHMM env edges hits cfg [] = some results) :
    ∀ r ∈ results, 0 < r.path.length := by
  unfold TraceHMM at h
  cases hm : get_matched_edges env.countTy edges hits with
  | none => rw [hm] at h; exact absurd h (by simp)
  | some me =>
    rw [hm] at h
    cases h
    exact TraceHMM_loop_path_pos env cfg me _ [] (fun r hr => absurd hr (List.not_mem_nil r))

theorem main_results_path_pos (env : Env) (edges : List EdgeId) (hits : List Hit) (cfg : Cfg)
    (results : List HMMPathInfo) (h : main_results env edges hits cfg = some results) :
    ∀ r ∈ results, 0 < r.path.length := by
  unfold main_results at h
  cases ht : TraceHMM env edges hits cfg [] with
  | none => rw [ht] at h; exact absurd h (by simp)
  | some rs =>
    rw [ht] at h
    cases h
    intro r hr
    exact TraceHMM_path_pos env edges hits cfg rs ht r ((std_sort_perm _ rs).mem_iff.1 hr)

theorem mem_set_insert (s : List (List EdgeId)) (p q : List EdgeId) :
    q ∈ set_insert s p ↔ q ∈ s ∨ q = p := by
  unfold set_insert
  by_cases h : p ∈ s
  · rw [if_pos h]
    constructor
    · exact Or.inl
    · rintro (hq | rfl)
      · exact hq
      · exact h
  · rw [if_neg h, List.mem_append, List.mem_singleton]

theorem mem_foldl_rescore (results : List HMMPathInfo) (s : List (List EdgeId))
    (p : List EdgeId)
    (hp : p ∈ results.foldl
      (fun s result => if result.path.length = 0 then s else set_insert s result.path) s) :
    p ∈ s ∨ (0 < p.length ∧ ∃ r ∈ results, r.path = p) := by
  induction results generalizing s with
  | nil => exact Or.inl hp
  | cons r rest ih =>
    rw [List.foldl_cons] at hp
    rcases ih _ hp with h | ⟨hpos, r1, hr1, hr1p⟩
    · by_cases hz : r.path.length = 0
      · rw [if_pos hz] at h
        exact Or.inl h
      · rw [if_neg hz, mem_set_insert] at h
        rcases h with h | h
        · exact Or.inl h
        · exact Or.inr ⟨h ▸ Nat.pos_of_ne_zero hz, r, List.mem_cons_self _ _, h.symm⟩
    · exact Or.inr ⟨hpos, r1, List.mem_cons_of_mem _ hr1, hr1p⟩

theorem mem_Rescore_to_rescore (results : List HMMPathInfo) (p : List EdgeId)
    (hp : p ∈ Rescore_to_rescore results) : 0 < p.length ∧ ∃ r ∈ results, r.path = p := by
  rcases mem_foldl_rescore results [] p hp with h | h
  · exact absurd h (List.not_mem_nil p)
  · exact h

theorem mem_foldl_insert_paths (results : List HMMPathInfo) (s : List (List EdgeId))
    (p : List EdgeId)
    (hp : p ∈ results.foldl (fun s result => set_insert s result.path) s) :
    p ∈ s ∨ ∃ r ∈ results, r.path = p := by
  induction results generalizing s with
  | nil => exact Or.inl hp
  | cons r rest ih =>
    rw [List.foldl_cons] at hp
    rcases ih _ hp with h | ⟨r1, hr1, hr1p⟩
    · rw [mem_set_insert] at h
      rcases h with h | h
      · exact Or.inl h
      · exact Or.inr ⟨r, List.mem_cons_self _ _, h.symm⟩
    · exact Or.inr ⟨r1, List.mem_cons_of_mem _ hr1, hr1p⟩

theorem mem_foldl_all_results (all_results : List (List HMMPathInfo))
    (s : List (List EdgeId)) (p : List EdgeId)
    (hp : p ∈ all_results.foldl
      (fun s results => results.foldl (fun s result => set_insert s result.path) s) s) :
    p ∈ s ∨ ∃ rs ∈ all_results, ∃ r ∈ rs, r.path = p := by
  induction all_results generalizing s with
  | nil => exact Or.inl hp
  | cons rs rest ih =>
    rw [List.foldl_cons] at hp
    rcases ih _ hp with h | ⟨rs1, hrs1, h⟩
    · rcases mem_foldl_insert_paths rs s p h with h | h
      · exact Or.inl h
      · exact Or.inr ⟨rs, List.mem_cons_self _ _, h⟩
    · exact Or.inr ⟨rs1, List.mem_cons_of_mem _ hrs1, h⟩

theorem mem_main_to_rescore (cfg : Cfg) (all_results : List (List HMMPathInfo))
    (p : List EdgeId) (hp : p ∈ main_to_rescore cfg all_results) :
    ∃ rs ∈ all_results, ∃ r ∈ rs, r.path = p := by
  unfold main_to_rescore at hp
  split at hp
  · rcases mem_foldl_all_results all_results [] p hp with h | h
    · exact absurd h (List.not_mem_nil p)
    · exact h
  · exact absurd hp (List.not_mem_nil p)

theorem MergeSequences_of_pos (graph : Graph) (merge : List String → Nat → String)
    (p : List EdgeId) (hp : 0 < p.length) :
    MergeSequences graph merge p =
      if verify_walk graph p then some (merge (p.map graph.EdgeNucls) graph.k) else none := by
  cases p with
  | nil => exact absurd hp (by simp)
  | cons a rest => rfl

theorem EdgesToSequences_loop_isSome (graph : Graph) (merge : List String → Nat → String)
    (entries : List (List EdgeId))
    (h : ∀ p ∈ entries, 0 < p.length ∧ verify_walk graph p = true) :
    (EdgesToSequences_loop graph merge entries).isSome = true := by
  induction entries with
  | nil => rfl
  | cons p rest ih =>
    have hp := h p (List.mem_cons_self _ _)
    have ih1 := ih (fun q hq => h q (List.mem_cons_of_mem _ hq))
    obtain ⟨l, hl⟩ := Option.isSome_iff_exists.1 ih1
    simp only [EdgesToSequences_loop, MergeSequences_of_pos graph merge p hp.1, hp.2, if_true, hl]
    rfl

theorem ExportEdges_isSome (graph : Graph) (merge : List String → Nat → String)
    (entries : List (List EdgeId))
    (h : ∀ p ∈ entries, 0 < p.length ∧ verify_walk graph p = true) :
    (EdgesToSequences entries graph merge).isSome = true ∧
      (ExportEdges entries graph merge).isSome = true := by
  have h1 : (EdgesToSequences entries graph merge).isSome = true := by
    unfold EdgesToSequences
    rw [Option.isSome_map']
    exact EdgesToSequences_loop_isSome graph merge entries h
  refine ⟨h1, ?_⟩
  unfold ExportEdges
  split
  · rfl
  · rw [Option.isSome_map']
    exact h1

/-! ## Claim on the non-empty paths handed to `MergeSequences` -/

/-- C22. Every record that `run_search` appends to the results has a non-empty edge
path: the appended records are as many as the paths of `top_k` whose `to_path` is not
empty, and their priorities are 0, 1, 2, ... (as `unsigned`), so that a dropped path
consumes no priority.  Hence, for the sorted result vectors of `main`, every path of
the `to_rescore` sets of `Rescore` and of `main`, which `ExportEdges` and
`EdgesToSequences` hand to `MergeSequences`, is non-empty: `continuous_path[0]` is in
bounds, `MergeSequences` can fail only on its `VERIFY`, and when all result paths
are walks, `Rescore` and the export of `main` produce their records. -/
theorem results_paths_nonempty (env : Env) (initial : List Cursor) (e : EdgeId) (top : Nat)
    (local_results : List HMMPathInfo) (cfg : Cfg) (graph : Graph)
    (merge : List String → Nat → String) (all_results : List (List HMMPathInfo))
    (hall : ∀ rs ∈ all_results, ∃ env1 edges hits,
      main_results env1 edges hits cfg = some rs) :
    (∃ appended, run_search env initial e top local_results = local_results ++ appended ∧
      (∀ r ∈ appended, 0 < r.path.length) ∧
      appended.map (fun r => r.priority) =
        (List.range appended.length).map (fun i => i % 4294967296) ∧
      appended.length = ((env.top_k initial top).filter
        (fun ap => decide ((to_path ap.path).length ≠ 0))).length) ∧
    (∀ rs ∈ all_results, ∀ r ∈ rs, 0 < r.path.length) ∧
    (∀ rs ∈ all_results, ∀ p ∈ Rescore_to_rescore rs, 0 < p.length ∧
      MergeSequences graph merge p =
        if verify_walk graph p then some (merge (p.map graph.EdgeNucls) graph.k) else none) ∧
    (∀ p ∈ main_to_rescore cfg all_results, 0 < p.length ∧
      MergeSequences graph merge p =
        if verify_walk graph p then some (merge (p.map graph.EdgeNucls) graph.k) else none) ∧
    ((∀ rs ∈ all_results, ∀ r ∈ rs, verify_walk graph r.path = true) →
      (∀ rs ∈ all_results, (Rescore graph merge rs).isSome = true) ∧
      (main_all_edges cfg graph merge all_results).isSome = true) := by
  have hres : ∀ rs ∈ all_results, ∀ r ∈ rs, 0 < r.path.length := by
    intro rs hrs
    obtain ⟨env1, edges, hits, hm⟩ := hall rs hrs
    exact main_results_path_pos env1 edges hits cfg rs hm
  have hmain : ∀ p ∈ main_to_rescore cfg all_results, 0 < p.length := by
    intro p hp
    obtain ⟨rs, hrs, r, hr, rfl⟩ := mem_main_to_rescore cfg all_results p hp
    exact hres rs hrs r hr
  refine ⟨run_search_appended env initial e top local_results, hres, ?_, ?_, ?_⟩
  · intro rs _ p hp
    have hpos := (mem_Rescore_to_rescore rs p hp).1
    exact ⟨hpos, MergeSequences_of_pos graph merge p hpos⟩
  · intro p hp
    exact ⟨hmain p hp, MergeSequences_of_pos graph merge p (hmain p hp)⟩
  · intro hwalk
    constructor
    · intro rs hrs
      have h : ∀ p ∈ Rescore_to_rescore rs, 0 < p.length ∧ verify_walk graph p = true := by
        intro p hp
        obtain ⟨hpos, r, hr, rfl⟩ := mem_Rescore_to_rescore rs p hp
        exact ⟨hpos, hwalk rs hrs r hr⟩
      obtain ⟨h1, h2⟩ := ExportEdges_isSome graph merge _ h
      obtain ⟨file, hfile⟩ := Option.isSome_iff_exists.1 h2
      obtain ⟨kvs, hkvs⟩ := Option.isSome_iff_exists.1 h1
      simp only [Rescore, hfile, hkvs]
      rfl
    · unfold main_all_edges
      split
      · refine (ExportEdges_isSome graph merge _ (fun p hp => ⟨hmain p hp, ?_⟩)).2
        obtain ⟨rs, hrs, r, hr, rfl⟩ := mem_main_to_rescore cfg all_results p hp
        exact hwalk rs hrs r hr
      · rfl

/-- Instance of C22: the solver of `gap_env` returns an empty trace and then the
initial cursors; on `pair_graph` with `pair_hits` the sorted results are
`gap_results`, whose paths `[0]` and `[1]` are rescored. -/
theorem results_paths_nonempty_witness :
    (main_results (gap_env pair_graph (fun _ => 2)) [0, 1] pair_hits (sample_cfg 1000) =
        some [⟨"hmm", 0, 0, 6, "ACGT", [0], "MMMM"⟩, ⟨"hmm", 1, 0, 6, "ACGT", [1], "MMMM"⟩] ∧
      run_search (gap_env pair_graph (fun _ => 2)) [⟨false, 0, 0, [0]⟩] 0 10 [] =
        [⟨"hmm", 0, 0, 6, "ACGT", [0], "MMMM"⟩] ∧
      main_to_rescore (sample_cfg 1000) gap_results = [[0], [1]] ∧
      Rescore pair_graph sample_merge
          [⟨"hmm", 0, 0, 6, "ACGT", [0], "MMMM"⟩, ⟨"hmm", 1, 0, 6, "ACGT", [1], "MMMM"⟩] =
        some ([(">0", "ACGT"), (">1", "ACGT")], ["0", "1"], ["ACGT", "ACGT"]) ∧
      main_all_edges (sample_cfg 1000) pair_graph sample_merge gap_results =
        some [(">0", "ACGT"), (">1", "ACGT")]) ∧
    ((∃ appended,
        run_search (gap_env pair_graph (fun _ => 2)) [⟨false, 0, 0, [0]⟩] 0 10 [] =
          [] ++ appended ∧
        (∀ r ∈ appended, 0 < r.path.length) ∧
        appended.map (fun r => r.priority) =
          (List.range appended.length).map (fun i => i % 4294967296) ∧
        appended.length = (((gap_env pair_graph (fun _ => 2)).top_k [⟨false, 0, 0, [0]⟩] 10).filter
          (fun ap => decide ((to_path ap.path).length ≠ 0))).length) ∧
      (∀ rs ∈ gap_results, ∀ r ∈ rs, 0 < r.path.length) ∧
      (∀ rs ∈ gap_results, ∀ p ∈ Rescore_to_rescore rs, 0 < p.length ∧
        MergeSequences pair_graph sample_merge p =
          if verify_walk pair_graph p then
            some (sample_merge (p.map pair_graph.EdgeNucls) pair_graph.k) else none) ∧
      (∀ p ∈ main_to_rescore (sample_cfg 1000) gap_results, 0 < p.length ∧
        MergeSequences pair_graph sample_merge p =
          if verify_walk pair_graph p then
            some (sample_merge (p.map pair_graph.EdgeNucls) pair_graph.k) else none) ∧
      ((∀ rs ∈ gap_results, ∀ r ∈ rs, verify_walk pair_graph r.path = true) →
        (∀ rs ∈ gap_results, (Rescore pair_graph sample_merge rs).isSome = true) ∧
        (main_all_edges (sample_cfg 1000) pair_graph sample_merge gap_results).isSome = true)) :=
  ⟨by decide,
    results_paths_nonempty (gap_env pair_graph (fun _ => 2)) [⟨false, 0, 0, [0]⟩] 0 10 []
      (sample_cfg 1000) pair_graph sample_merge gap_results
      (fun rs hrs => ⟨gap_env pair_graph (fun _ => 2), [0, 1], pair_hits, by
        rw [gap_results, List.mem_singleton] at hrs
        rw [hrs]
        decide⟩)⟩

/-! ## Lemmas: the right overhang stored for domains that lie inside their sequence -/

theorem roverhang_ge (ty : CountTy) (d : Domain)
    (hM : 0 ≤ d.M - d.hmmpos.2) (hM' : d.M - d.hmmpos.2 < 2147483648)
    (hL : 0 ≤ d.L - d.seqpos.2) (hL' : d.L - d.seqpos.2 < 2147483648)
    (hs : 1 ≤ d.seqpos.2) : 1 - d.L ≤ roverhang ty d := by
  unfold roverhang
  rw [toInt32_wrap, toInt32_wrap, toInt32_of_range _ (by omega) hM',
    toInt32_of_range _ (by omega) hL']
  omega

/-- For hits whose domains end inside their sequence and inside the model, on a
sequence of `L` positions with `coef * L <= len`, the stored right overhang meets the
condition under which the bound of the intra-edge loop does not wrap. -/
theorem matched_roverhang_no_wrap (env : Env) (edges : List EdgeId) (hits : List Hit)
    (m : EdgeAlnInfo) (e : EdgeId) (left right : Int)
    (hget : get_matched_edges env.countTy edges hits = some m)
    (hfind : mfind m e = some (left, right))
    (hdom : ∀ h ∈ hits, h.reported = true → h.included = true → resolve edges h = some e →
      ∀ d ∈ h.domains, 0 ≤ d.M - d.hmmpos.2 ∧ d.M - d.hmmpos.2 < 2147483648 ∧
        0 ≤ d.L - d.seqpos.2 ∧ d.L - d.seqpos.2 < 2147483648 ∧ 1 ≤ d.seqpos.2 ∧
        d.L * (if env.hmm_in_aas then 3 else 1) ≤
          ((env.graph.length e + env.graph.k : Nat) : Int)) :
    -((right + 10) * (if env.hmm_in_aas then 3 else 1)) ≤
      ((env.graph.length e + env.graph.k : Nat) : Int) := by
  rw [mfind_get_matched_edges env.countTy edges hits m hget e] at hfind
  have hne : domain_overhangs env.countTy edges hits e ≠ [] := by
    intro hnil
    rw [(ovfold_none_spec _).1 hnil] at hfind
    exact absurd hfind (by simp)
  obtain ⟨a, b, hab, _, hb⟩ := (ovfold_none_spec _).2 hne
  rw [hab] at hfind
  have hbr : b = right := congrArg Prod.snd (Option.some.inj hfind)
  subst hbr
  obtain ⟨p, hp, hpb⟩ := List.mem_map.1 hb.1
  obtain ⟨h, hh, hr, hi, hres, d, hd, hdp⟩ :=
    (mem_domain_overhangs env.countTy edges hits e p).1 hp
  obtain ⟨h1, h2, h3, h4, h5, h6⟩ := hdom h hh hr hi hres d hd
  have hge := roverhang_ge env.countTy d h1 h2 h3 h4 h5
  have hb2 : b = roverhang env.countTy d := by rw [← hpb, ← hdp]
  rw [hb2]
  generalize ((env.graph.length e + env.graph.k : Nat) : Int) = len at h6 ⊢
  generalize roverhang env.countTy d = ro at hge
  by_cases haa : env.hmm_in_aas = true
  · rw [if_pos haa] at h6 ⊢
    omega
  · rw [if_neg haa] at h6 ⊢
    omega

/-! ## Claim on the offsets of the intra-edge loop -/

/-- C21. For every seed edge with `len = length(e) + k` (a `size_t` value) and the
pair of overhangs that `get_matched_edges` stores for it, from hits whose domains end
inside the model and inside their sequence of `L` positions with `coef * L <= len`
(the sequence of the edge itself, translated for an amino-acid HMM), every offset `i`
that the intra-edge loop of `TraceHMM` passes to `get_cursor` satisfies `i < len`:
the bound `len - max(0, -roverhang)`, evaluated modulo 2^64, does not wrap, and the
cursors of the loop are those of the offsets from `max(0, -loverhang)` up to it. -/
theorem intra_edge_offsets_lt_len (env : Env) (edges : List EdgeId) (hits : List Hit)
    (matched_edges : EdgeAlnInfo) (e : EdgeId) (left right : Int)
    (hget : get_matched_edges env.countTy edges hits = some matched_edges)
    (hfind : mfind matched_edges e = some (left, right))
    (hlen : env.graph.length e + env.graph.k < 18446744073709551616)
    (hdom : ∀ h ∈ hits, h.reported = true → h.included = true → resolve edges h = some e →
      ∀ d ∈ h.domains, 0 ≤ d.M - d.hmmpos.2 ∧ d.M - d.hmmpos.2 < 2147483648 ∧
        0 ≤ d.L - d.seqpos.2 ∧ d.L - d.seqpos.2 < 2147483648 ∧ 1 ≤ d.seqpos.2 ∧
        d.L * (if env.hmm_in_aas then 3 else 1) ≤
          ((env.graph.length e + env.graph.k : Nat) : Int)) :
    (∀ i ∈ intra_edge_offsets env matched_edges e, i < env.graph.length e + env.graph.k) ∧
    ((intra_edge_last env matched_edges e : Nat) : Int) =
      ((env.graph.length e + env.graph.k : Nat) : Int) -
        max 0 (-((right + 10) * (if env.hmm_in_aas then 3 else 1))) ∧
    ((intra_edge_first env matched_edges e : Nat) : Int) =
      max 0 (-((left + 10) * (if env.hmm_in_aas then 3 else 1))) ∧
    (∀ vs : Finset VertexId, ∃ left_cursors right_cursors,
      initial_cursors env matched_edges (e, vs) =
        left_cursors ++ right_cursors ++
          (List.range' (intra_edge_first env matched_edges e)
            (intra_edge_last env matched_edges e - intra_edge_first env matched_edges e)).map
            (fun i => env.get_cursor vs e i)) := by
  have hro := matched_roverhang_no_wrap env edges hits matched_edges e left right hget hfind hdom
  have hmod : (env.graph.length e + env.graph.k) % 18446744073709551616 =
      env.graph.length e + env.graph.k := Nat.mod_eq_of_lt hlen
  have hlast : ((intra_edge_last env matched_edges e : Nat) : Int) =
      ((env.graph.length e + env.graph.k : Nat) : Int) -
        max 0 (-((right + 10) * (if env.hmm_in_aas then 3 else 1))) := by
    unfold intra_edge_last
    simp only [hfind, Option.getD_some, hmod]
    generalize (right + 10) * (if env.hmm_in_aas then (3 : Int) else 1) = ro at hro
    generalize env.graph.length e + env.graph.k = len at hlen hro
    omega
  have hfirst : ((intra_edge_first env matched_edges e : Nat) : Int) =
      max 0 (-((left + 10) * (if env.hmm_in_aas then 3 else 1))) := by
    unfold intra_edge_first
    simp only [hfind, Option.getD_some]
    generalize (left + 10) * (if env.hmm_in_aas then (3 : Int) else 1) = lo
    omega
  refine ⟨?_, hlast, hfirst, fun vs => ⟨_, _, rfl⟩⟩
  intro i hi
  unfold intra_edge_offsets at hi
  rw [List.mem_range'_1] at hi
  generalize (right + 10) * (if env.hmm_in_aas then (3 : Int) else 1) = ro at hro hlast
  omega

/-- Instance of C21: edge 0 of `long_graph` (`len = 31`) with the hit of `inner_hits`,
stored overhangs -12 and -16: the loop passes the offsets 2 to 24. -/
theorem intra_edge_offsets_lt_len_witness :
    (get_matched_edges (sample_env long_graph (fun _ => 2)).countTy [0, 1] inner_hits =
        some [(0, (-12, -16))] ∧
      intra_edge_offsets (sample_env long_graph (fun _ => 2)) [(0, (-12, -16))] 0 =
        List.range' 2 23) ∧
    ((∀ i ∈ intra_edge_offsets (sample_env long_graph (fun _ => 2)) [(0, (-12, -16))] 0,
        i < (sample_env long_graph (fun _ => 2)).graph.length 0 +
          (sample_env long_graph (fun _ => 2)).graph.k) ∧
      ((intra_edge_last (sample_env long_graph (fun _ => 2)) [(0, (-12, -16))] 0 : Nat) : Int) =
        (((sample_env long_graph (fun _ => 2)).graph.length 0 +
          (sample_env long_graph (fun _ => 2)).graph.k : Nat) : Int) -
          max 0 (-((-16 + 10) *
            (if (sample_env long_graph (fun _ => 2)).hmm_in_aas then 3 else 1))) ∧
      ((intra_edge_first (sample_env long_graph (fun _ => 2)) [(0, (-12, -16))] 0 : Nat) : Int) =
        max 0 (-((-12 + 10) *
          (if (sample_env long_graph (fun _ => 2)).hmm_in_aas then 3 else 1))) ∧
      (∀ vs : Finset VertexId, ∃ left_cursors right_cursors,
        initial_cursors (sample_env long_graph (fun _ => 2)) [(0, (-12, -16))] (0, vs) =
          left_cursors ++ right_cursors ++
            (List.range' (intra_edge_first (sample_env long_graph (fun _ => 2))
                [(0, (-12, -16))] 0)
              (intra_edge_last (sample_env long_graph (fun _ => 2)) [(0, (-12, -16))] 0 -
                intra_edge_first (sample_env long_graph (fun _ => 2)) [(0, (-12, -16))] 0)).map
              (fun i => (sample_env long_graph (fun _ => 2)).get_cursor vs 0 i))) :=
  ⟨by decide,
    intra_edge_offsets_lt_len (sample_env long_graph (fun _ => 2)) [0, 1] inner_hits
      [(0, (-12, -16))] 0 (-12) (-16) (by decide) (by decide) (by decide) (by decide)⟩

/-! ## Lemmas: the seed edge and its conjugate in the component of a neighbourhood -/

theorem extract_step_nodup_keys (graph : Graph) (dj : Dijkstra) (mult : Int)
    (nb : Neighbourhoods) (entry : EdgeId × (Int × Int)) (h : (mkeys nb).Nodup) :
    (mkeys (extract_step graph dj mult nb entry)).Nodup := by
  unfold extract_step nb_insert
  exact mupdate_nodup_keys _ _ _ (mupdate_nodup_keys _ _ _
    (mupdate_nodup_keys _ _ _ (mupdate_nodup_keys _ _ _ h)))

theorem foldl_extract_step_nodup_keys (graph : Graph) (dj : Dijkstra) (mult : Int)
    (me : EdgeAlnInfo) (nb : Neighbourhoods) (h : (mkeys nb).Nodup) :
    (mkeys (me.foldl (extract_step graph dj mult) nb)).Nodup := by
  induction me generalizing nb with
  | nil => exact h
  | cons p rest ih => exact ih _ (extract_step_nodup_keys graph dj mult nb p h)

/-- Every neighbourhood that `ExtractNeighbourhoods` builds is keyed by a matched edge
and holds the two endpoints of that edge (lines 365-366). -/
theorem ExtractNeighbourhoods_endpoints (matched_edges : EdgeAlnInfo) (graph : Graph)
    (dj : Dijkstra) (mult : Int) (hnd : (mkeys matched_edges).Nodup) (k : EdgeId)
    (vs : Finset VertexId) (h : (k, vs) ∈ ExtractNeighbourhoods matched_edges graph dj mult) :
    k ∈ mkeys matched_edges ∧ graph.EdgeStart k ∈ vs ∧ graph.EdgeEnd k ∈ vs := by
  unfold ExtractNeighbourhoods at h
  have hkeys := foldl_extract_step_nodup_keys graph dj mult matched_edges [] (by simp [mkeys])
  have hfind := mfind_eq_some_of_mem _ hkeys k vs h
  have hk : k ∈ mkeys matched_edges := by
    by_contra hc
    rw [mfind_foldl_extract_step_of_not_mem graph dj mult matched_edges [] k hc] at hfind
    simp [mfind] at hfind
  obtain ⟨ov, hov⟩ := Option.isSome_iff_exists.1 ((mfind_isSome_iff matched_edges k).2 hk)
  rw [mfind_foldl_extract_step graph dj mult matched_edges hnd [] k ov hov rfl] at hfind
  have hvs := Option.some.inj hfind
  refine ⟨hk, ?_, ?_⟩
  · rw [← hvs]; simp
  · rw [← hvs]; simp

/-- Every neighbourhood that `join_components` keeps is one of the input seeds with a
set that holds the input set of that seed. -/
theorem join_components_entry (neighbourhoods : Neighbourhoods) (matched_edges : EdgeAlnInfo)
    (graph : Graph) (k : EdgeId) (S : Finset VertexId)
    (h : (k, S) ∈ join_components neighbourhoods matched_edges graph) :
    ∃ vs, (k, vs) ∈ neighbourhoods ∧ vs ⊆ S := by
  unfold join_components join_sorted at h
  rcases join_collect_sub _ _ _ _ h with h' | h'
  · simp at h'
  · obtain ⟨vs, hvs, hsub, _⟩ := join_pass_entry graph _ _ k S h'.1
    exact ⟨vs, (std_sort_perm _ neighbourhoods).mem_iff.1 hvs, hsub⟩

theorem joined_neighbourhoods_endpoints (env : Env) (matched_edges : EdgeAlnInfo)
    (hnd : (mkeys matched_edges).Nodup) (kv : EdgeId × Finset VertexId)
    (h : kv ∈ joined_neighbourhoods env matched_edges) :
    kv.1 ∈ mkeys matched_edges ∧ env.graph.EdgeStart kv.1 ∈ kv.2 ∧
      env.graph.EdgeEnd kv.1 ∈ kv.2 := by
  obtain ⟨k, S⟩ := kv
  unfold joined_neighbourhoods at h
  obtain ⟨vs, hvs, hsub⟩ := join_components_entry _ _ _ k S h
  obtain ⟨hk, hs, he⟩ := ExtractNeighbourhoods_endpoints matched_edges env.graph env.dijkstra _
    hnd k vs hvs
  exact ⟨hk, hsub hs, hsub he⟩

theorem resolve_mem (edges : List EdgeId) (h : Hit) (e : EdgeId)
    (hres : resolve edges h = some e) : e ∈ edges := by
  unfold resolve at hres
  cases hs : stoull h.name with
  | none => rw [hs] at hres; exact absurd hres (by simp)
  | some i =>
    rw [hs] at hres
    exact List.mem_iff_getElem?.2 ⟨i, hres⟩

/-- Every key of the map of `get_matched_edges` is one of the candidate edges. -/
theorem get_matched_edges_key_mem (ty : CountTy) (edges : List EdgeId) (hits : List Hit)
    (m : EdgeAlnInfo) (hm : get_matched_edges ty edges hits = some m) (e : EdgeId)
    (he : e ∈ mkeys m) : e ∈ edges := by
  have hsome := (mfind_isSome_iff m e).2 he
  rw [mfind_get_matched_edges ty edges hits m hm e] at hsome
  have hne : domain_overhangs ty edges hits e ≠ [] := by
    intro c
    rw [(ovfold_none_spec _).1 c] at hsome
    simp at hsome
  obtain ⟨p, hp⟩ := List.exists_mem_of_ne_nil _ hne
  obtain ⟨h, _, _, _, hre, _⟩ := (mem_domain_overhangs ty edges hits e p).1 hp
  exact resolve_mem edges h e hre

theorem two_le_length_of_mem {α : Type} (l : List α) (a b : α) (ha : a ∈ l) (hb : b ∈ l)
    (hab : a ≠ b) : 2 ≤ l.length := by
  obtain ⟨s, t, rfl⟩ := List.append_of_mem ha
  rcases List.mem_append.1 hb with h | h
  · have := List.length_pos_of_mem h
    simp only [List.length_append, List.length_cons]
    omega
  · rcases List.mem_cons.1 h with h | h
    · exact absurd h.symm hab
    · have := List.length_pos_of_mem h
      simp only [List.length_append, List.length_cons]
      omega

/-- A component built with the conjugate vertices from a set that holds the endpoints
of an edge holds that edge and its conjugate: at least two edges. -/
theorem FromVertices_two_edges (graph : Graph) (conjugate : VertexId → VertexId)
    (conjugate_edge : EdgeId → EdgeId) (vs : Finset VertexId) (e : EdgeId)
    (he : e ∈ graph.edges) (hce : conjugate_edge e ∈ graph.edges) (hne : conjugate_edge e ≠ e)
    (hstart : graph.EdgeStart (conjugate_edge e) = conjugate (graph.EdgeEnd e))
    (hend : graph.EdgeEnd (conjugate_edge e) = conjugate (graph.EdgeStart e))
    (hs : graph.EdgeStart e ∈ vs) (ht : graph.EdgeEnd e ∈ vs) :
    e ∈ FromVertices graph conjugate vs true ∧
      conjugate_edge e ∈ FromVertices graph conjugate vs true ∧
      2 ≤ (FromVertices graph conjugate vs true).length := by
  have h1 : e ∈ FromVertices graph conjugate vs true := by
    unfold FromVertices
    simp only [if_true, List.mem_filter, decide_eq_true_eq, Finset.mem_union]
    exact ⟨he, Or.inl hs, Or.inl ht⟩
  have h2 : conjugate_edge e ∈ FromVertices graph conjugate vs true := by
    unfold FromVertices
    simp only [if_true, List.mem_filter, decide_eq_true_eq, Finset.mem_union, Finset.mem_image]
    exact ⟨hce, Or.inr ⟨_, ht, hstart.symm⟩, Or.inr ⟨_, hs, hend.symm⟩⟩
  exact ⟨h1, h2, two_le_length_of_mem _ _ _ h1 h2 (fun c => hne c.symm)⟩

/-! ## Claim on `max_size = 0` -/

/-- C9. With `max_size = 0`, on a graph in which every edge has a conjugate edge other
than itself (specification 3; palindromes are not in the input) and a component that
`FromVertices` builds from the vertices of a neighbourhood and their conjugates: when
every reported and included hit resolves to a candidate edge of the graph, the map of
matched edges exists, every neighbourhood that `TraceHMM` handles holds the two
endpoints of its seed edge, its component holds the seed edge and its conjugate, so
`e_size() / 2 > 0` and the size test skips it; the result vector stays empty and
`SaveResults` writes no entry. -/
theorem max_size_zero_all_skipped (env : Env) (conjugate : VertexId → VertexId)
    (conjugate_edge : EdgeId → EdgeId) (edges : List EdgeId) (hits : List Hit) (cfg : Cfg)
    (hmax : cfg.max_size = 0)
    (hsize : ∀ vs, env.e_size vs = (FromVertices env.graph conjugate vs true).length)
    (hedges : ∀ e ∈ edges, e ∈ env.graph.edges)
    (hconj : ∀ e ∈ env.graph.edges, conjugate_edge e ∈ env.graph.edges ∧
      conjugate_edge e ≠ e ∧
      env.graph.EdgeStart (conjugate_edge e) = conjugate (env.graph.EdgeEnd e) ∧
      env.graph.EdgeEnd (conjugate_edge e) = conjugate (env.graph.EdgeStart e))
    (hres : ∀ h ∈ hits, h.reported = true → h.included = true →
      (resolve edges h).isSome = true) :
    ∃ matched_edges, get_matched_edges env.countTy edges hits = some matched_edges ∧
      (∀ kv ∈ joined_neighbourhoods env matched_edges,
        env.graph.EdgeStart kv.1 ∈ kv.2 ∧ env.graph.EdgeEnd kv.1 ∈ kv.2 ∧
        kv.1 ∈ FromVertices env.graph conjugate kv.2 true ∧
        conjugate_edge kv.1 ∈ FromVertices env.graph conjugate kv.2 true ∧
        env.e_size kv.2 / 2 > cfg.max_size ∧
        trace_neighbourhood env cfg matched_edges kv = none) ∧
      TraceHMM env edges hits cfg [] = some [] ∧
      main_results env edges hits cfg = some [] ∧
      (main_results env edges hits cfg).map (SaveResults env.graph cfg) = some ([], []) := by
  obtain ⟨m, hm⟩ := get_matched_edges_loop_isSome env.countTy edges hits hres []
  have hm' : get_matched_edges env.countTy edges hits = some m := hm
  have hnd := get_matched_edges_nodup_keys env.countTy edges hits m hm'
  have hall : ∀ kv ∈ joined_neighbourhoods env m,
      env.graph.EdgeStart kv.1 ∈ kv.2 ∧ env.graph.EdgeEnd kv.1 ∈ kv.2 ∧
      kv.1 ∈ FromVertices env.graph conjugate kv.2 true ∧
      conjugate_edge kv.1 ∈ FromVertices env.graph conjugate kv.2 true ∧
      env.e_size kv.2 / 2 > cfg.max_size ∧ trace_neighbourhood env cfg m kv = none := by
    intro kv hkv
    obtain ⟨hk, hs, ht⟩ := joined_neighbourhoods_endpoints env m hnd kv hkv
    have hke : kv.1 ∈ env.graph.edges :=
      hedges _ (get_matched_edges_key_mem env.countTy edges hits m hm' kv.1 hk)
    obtain ⟨hc1, hc2, hc3, hc4⟩ := hconj kv.1 hke
    obtain ⟨h1, h2, h3⟩ := FromVertices_two_edges env.graph conjugate conjugate_edge kv.2 kv.1
      hke hc1 hc2 hc3 hc4 hs ht
    have hgt : env.e_size kv.2 / 2 > cfg.max_size := by
      rw [hsize, hmax]
      omega
    exact ⟨hs, ht, h1, h2, hgt, (trace_neighbourhood_eq_none_iff env cfg m kv).2 hgt⟩
  have htrace : TraceHMM env edges hits cfg [] = some [] := by
    unfold TraceHMM
    rw [hm']
    simp only
    rw [TraceHMM_loop_all_skipped env cfg m _ [] (fun kv hkv => (hall kv hkv).2.2.2.2.1)]
  have hmain : main_results env edges hits cfg = some [] := by
    unfold main_results
    rw [htrace]
    rfl
  refine ⟨m, hm', hall, htrace, hmain, ?_⟩
  rw [hmain]
  simp [SaveResults]

/-- Instance of C9 on `pair_graph`, whose two edges are conjugate to each other, with
one hit per edge: the two neighbourhoods are the endpoint pairs, each component has
both edges, and nothing is searched. -/
theorem max_size_zero_all_skipped_witness :
    ((sample_cfg 0).max_size = 0 ∧
      get_matched_edges CountTy.i64 [0, 1] pair_hits = some [(0, (0, 0)), (1, (0, 0))] ∧
      joined_neighbourhoods pair_env [(0, (0, 0)), (1, (0, 0))] =
        [(1, {2, 3}), (0, {0, 1})] ∧
      FromVertices pair_graph pair_conjugate {2, 3} true = [0, 1] ∧
      FromVertices pair_graph pair_conjugate {0, 1} true = [0, 1]) ∧
    (∃ matched_edges,
      get_matched_edges pair_env.countTy [0, 1] pair_hits = some matched_edges ∧
      (∀ kv ∈ joined_neighbourhoods pair_env matched_edges,
        pair_env.graph.EdgeStart kv.1 ∈ kv.2 ∧ pair_env.graph.EdgeEnd kv.1 ∈ kv.2 ∧
        kv.1 ∈ FromVertices pair_env.graph pair_conjugate kv.2 true ∧
        pair_conjugate_edge kv.1 ∈ FromVertices pair_env.graph pair_conjugate kv.2 true ∧
        pair_env.e_size kv.2 / 2 > (sample_cfg 0).max_size ∧
        trace_neighbourhood pair_env (sample_cfg 0) matched_edges kv = none) ∧
      TraceHMM pair_env [0, 1] pair_hits (sample_cfg 0) [] = some [] ∧
      main_results pair_env [0, 1] pair_hits (sample_cfg 0) = some [] ∧
      (main_results pair_env [0, 1] pair_hits (sample_cfg 0)).map
        (SaveResults pair_env.graph (sample_cfg 0)) = some ([], [])) :=
  ⟨by decide,
    max_size_zero_all_skipped pair_env pair_conjugate pair_conjugate_edge [0, 1] pair_hits
      (sample_cfg 0) (by decide) (fun _ => rfl) (by decide) (by decide) (by decide)⟩

/-! ## Lemmas: `to_path` and the visited edges -/

theorem destutter'_ne_nil (a : EdgeId) (l : List EdgeId) :
    List.destutter' (fun x y => x ≠ y) a l ≠ [] := by
  induction l generalizing a with
  | nil => simp
  | cons b l ih =>
    by_cases h : a ≠ b
    · rw [List.destutter'_cons_pos _ h]; simp
    · rw [List.destutter'_cons_neg _ h]; exact ih a

theorem destutter'_append_getLastD (a : EdgeId) (l1 l2 : List EdgeId) :
    List.destutter' (fun x y => x ≠ y) a (l1 ++ l2) =
      (List.destutter' (fun x y => x ≠ y) a l1).dropLast ++
        List.destutter' (fun x y => x ≠ y) (l1.getLastD a) l2 := by
  induction l1 generalizing a with
  | nil => simp
  | cons b l1 ih =>
    by_cases h : a ≠ b
    · rw [List.cons_append, List.destutter'_cons_pos _ h, List.destutter'_cons_pos _ h, ih b,
        List.getLastD_cons, List.dropLast_cons_of_ne_nil (destutter'_ne_nil b l1),
        List.cons_append]
    · have hab : a = b := by
        by_contra c; exact h c
      rw [List.cons_append, List.destutter'_cons_neg _ h, List.destutter'_cons_neg _ h, ih a,
        List.getLastD_cons, hab]

theorem destutter'_getLast? (a : EdgeId) (l : List EdgeId) :
    (List.destutter' (fun x y => x ≠ y) a l).getLast? = some (l.getLastD a) := by
  induction l generalizing a with
  | nil => simp
  | cons b l ih =>
    by_cases h : a ≠ b
    · obtain ⟨x, t, hxt⟩ := List.exists_cons_of_ne_nil (destutter'_ne_nil b l)
      rw [List.destutter'_cons_pos _ h, hxt, List.getLast?_cons_cons, ← hxt, ih b,
        List.getLastD_cons]
    · have hab : a = b := by
        by_contra c; exact h c
      rw [List.destutter'_cons_neg _ h, ih a, List.getLastD_cons, hab]

theorem eq_dropLast_append_of_getLast? (p : List EdgeId) (b : EdgeId)
    (hb : p.getLast? = some b) : p = p.dropLast ++ [b] := by
  have hne : p ≠ [] := by
    intro c; rw [c] at hb; simp at hb
  have := List.dropLast_append_getLast hne
  rw [List.getLast?_eq_getLast _ hne] at hb
  rw [← Option.some.inj hb]
  exact this.symm

/-- The inner loop of `to_path` appends the edges with equal neighbours collapsed. -/
theorem to_path_edges_eq_destutter' (es : List EdgeId) (path : List EdgeId) (a : EdgeId)
    (hlast : path.getLast? = some a) :
    to_path_edges path es = path.dropLast ++ List.destutter' (fun x y => x ≠ y) a es := by
  unfold to_path_edges
  induction es generalizing path a with
  | nil =>
    simp only [List.foldl_nil, List.destutter'_nil]
    exact eq_dropLast_append_of_getLast? path a hlast
  | cons e rest ih =>
    simp only [List.foldl_cons]
    by_cases h : a = e
    · subst h
      have hn : ¬ (path.getLast? ≠ some a) := by simp [hlast]
      rw [if_neg hn, ih path a hlast, List.destutter'_cons_neg _ (by simp)]
    · have hp : path.getLast? ≠ some e := by
        rw [hlast]; intro c; exact h (Option.some.inj c)
      rw [if_pos hp, ih (path ++ [e]) e (by simp), List.destutter'_cons_pos _ h,
        List.dropLast_concat]
      conv_lhs => rw [eq_dropLast_append_of_getLast? path a hlast]
      simp

/-- The fold of the step of `to_path` from a path that ends with `a` appends the
visited edges with equal neighbours collapsed. -/
theorem foldl_to_path_step_visited (l : List Cursor) (path : List EdgeId) (a : EdgeId)
    (hlast : path.getLast? = some a) :
    l.foldl to_path_step path =
      path.dropLast ++ List.destutter' (fun x y => x ≠ y) a (visited_edges (some a) l) := by
  induction l generalizing path a with
  | nil =>
    simp only [List.foldl_nil, visited_edges, List.destutter'_nil]
    exact eq_dropLast_append_of_getLast? path a hlast
  | cons c rest ih =>
    have hpne : path ≠ [] := by
      intro h; rw [h] at hlast; simp at hlast
    have hlen : ¬ path.length = 0 := fun h => hpne (List.length_eq_zero.1 h)
    simp only [List.foldl_cons]
    by_cases hemp : c.is_empty = true
    · have hs : to_path_step path c = path := by simp [to_path_step, hemp]
      have hv : visited_edges (some a) (c :: rest) = visited_edges (some a) rest := by
        simp [visited_edges, hemp]
      rw [hs, hv]
      exact ih path a hlast
    · have hemp' : c.is_empty = false := by simpa using hemp
      by_cases hac : a = c.edge
      · have hcond : ¬ (path.length = 0 ∨ path.getLast? ≠ some c.edge) := by
          rintro (h | h)
          · exact hlen h
          · exact h (by rw [hlast, hac])
        have hs : to_path_step path c = to_path_edges path c.edges := by
          unfold to_path_step
          rw [if_neg hemp, if_neg hcond]
        have hv : visited_edges (some a) (c :: rest) =
            c.edge :: (c.edges ++ visited_edges (some (c.edges.getLastD c.edge)) rest) := by
          simp [visited_edges, hemp', hac]
        rw [hs, hv, to_path_edges_eq_destutter' c.edges path a hlast,
          List.destutter'_cons_neg _ (by simp [hac]), destutter'_append_getLastD]
        have hlast' : (path.dropLast ++ List.destutter' (fun x y => x ≠ y) a c.edges).getLast? =
            some (c.edges.getLastD a) := by
          rw [List.getLast?_append_of_ne_nil _ (destutter'_ne_nil a c.edges), destutter'_getLast?]
        rw [ih _ _ hlast', List.dropLast_append_of_ne_nil _ (destutter'_ne_nil a c.edges), hac,
          List.append_assoc]
      · have hcond : path.length = 0 ∨ path.getLast? ≠ some c.edge := by
          right; rw [hlast]; intro h; exact hac (Option.some.inj h)
        have hs : to_path_step path c = path ++ [c.edge] := by
          unfold to_path_step
          rw [if_neg hemp, if_pos hcond]
        have hv : visited_edges (some a) (c :: rest) =
            c.edge :: visited_edges (some c.edge) rest := by
          have : ¬ (some a = some c.edge) := fun h => hac (Option.some.inj h)
          simp [visited_edges, hemp', this]
        rw [hs, hv, ih (path ++ [c.edge]) c.edge (by simp), List.destutter'_cons_pos _ hac,
          List.dropLast_concat]
        conv_lhs => rw [eq_dropLast_append_of_getLast? path a hlast]
        simp

theorem foldl_to_path_step_nil_visited (l : List Cursor) :
    l.foldl to_path_step [] = List.destutter (fun x y => x ≠ y) (visited_edges none l) := by
  induction l with
  | nil => rfl
  | cons c rest ih =>
    simp only [List.foldl_cons]
    by_cases hemp : c.is_empty = true
    · have hs : to_path_step [] c = [] := by simp [to_path_step, hemp]
      have hv : visited_edges none (c :: rest) = visited_edges none rest := by
        simp [visited_edges, hemp]
      rw [hs, hv]
      exact ih
    · have hemp' : c.is_empty = false := by simpa using hemp
      have hs : to_path_step [] c = [c.edge] := by
        simp [to_path_step, hemp']
      have hv : visited_edges none (c :: rest) = c.edge :: visited_edges (some c.edge) rest := by
        simp [visited_edges, hemp']
      rw [hs, hv, foldl_to_path_step_visited rest [c.edge] c.edge (by simp)]
      simp [List.destutter]

theorem visited_edges_filter (last : Option EdgeId) (l : List Cursor) :
    visited_edges last (l.filter (fun c => !c.is_empty)) = visited_edges last l := by
  induction l generalizing last with
  | nil => rfl
  | cons c rest ih =>
    by_cases hemp : c.is_empty = true
    · simp only [List.filter_cons, hemp, Bool.not_true, Bool.false_eq_true, if_false]
      rw [ih last]
      simp [visited_edges, hemp]
    · have hemp' : c.is_empty = false := by simpa using hemp
      simp only [List.filter_cons, hemp', Bool.not_false, if_true]
      simp only [visited_edges, hemp', Bool.false_eq_true, if_false]
      by_cases h : last = some c.edge
      · rw [if_pos h, if_pos h, ih]
      · rw [if_neg h, if_neg h, ih]

/-- For every trace `to_path` is the visited edges with equal neighbours collapsed. -/
theorem to_path_eq_destutter_visited (cpath : List Cursor) :
    to_path cpath = List.destutter (fun x y => x ≠ y) (visited_edges none cpath) := by
  rw [to_path_eq_foldl_filter, foldl_to_path_step_nil_visited, visited_edges_filter]

theorem mem_visited_edges (l : List Cursor) (last : Option EdgeId) (c : Cursor) (hc : c ∈ l)
    (hne : c.is_empty = false) : c.edge ∈ visited_edges last l := by
  induction l generalizing last with
  | nil => simp at hc
  | cons d rest ih =>
    by_cases hemp : d.is_empty = true
    · have hcd : c ≠ d := by
        intro h; rw [h, hemp] at hne; exact absurd hne (by simp)
      have hc' : c ∈ rest := by
        rcases List.mem_cons.1 hc with h | h
        · exact absurd h hcd
        · exact h
      simp only [visited_edges, hemp, if_true]
      exact ih last hc'
    · have hemp' : d.is_empty = false := by simpa using hemp
      simp only [visited_edges, hemp', Bool.false_eq_true, if_false]
      rcases List.mem_cons.1 hc with h | h
      · subst h
        by_cases hl : last = some c.edge
        · rw [if_pos hl]; exact List.mem_cons_self _ _
        · rw [if_neg hl]; exact List.mem_cons_self _ _
      · by_cases hl : last = some d.edge
        · rw [if_pos hl]
          exact List.mem_cons_of_mem _ (List.mem_append_right _ (ih _ h))
        · rw [if_neg hl]
          exact List.mem_cons_of_mem _ (ih _ h)

theorem visited_edges_sound (l : List Cursor) (last : Option EdgeId) (e : EdgeId)
    (he : e ∈ visited_edges last l) :
    ∃ c ∈ l, c.is_empty = false ∧ (e = c.edge ∨ e ∈ c.edges) := by
  induction l generalizing last with
  | nil => simp [visited_edges] at he
  | cons d rest ih =>
    by_cases hemp : d.is_empty = true
    · simp only [visited_edges, hemp, if_true] at he
      obtain ⟨c, hc, h⟩ := ih last he
      exact ⟨c, List.mem_cons_of_mem _ hc, h⟩
    · have hemp' : d.is_empty = false := by simpa using hemp
      simp only [visited_edges, hemp', Bool.false_eq_true, if_false] at he
      by_cases hl : last = some d.edge
      · rw [if_pos hl] at he
        rcases List.mem_cons.1 he with h | h
        · exact ⟨d, List.mem_cons_self _ _, hemp', Or.inl h⟩
        · rcases List.mem_append.1 h with h | h
          · exact ⟨d, List.mem_cons_self _ _, hemp', Or.inr h⟩
          · obtain ⟨c, hc, h'⟩ := ih _ h
            exact ⟨c, List.mem_cons_of_mem _ hc, h'⟩
      · rw [if_neg hl] at he
        rcases List.mem_cons.1 he with h | h
        · exact ⟨d, List.mem_cons_self _ _, hemp', Or.inl h⟩
        · obtain ⟨c, hc, h'⟩ := ih _ h
          exact ⟨c, List.mem_cons_of_mem _ hc, h'⟩

theorem mem_destutter'_of_mem (a : EdgeId) (l : List EdgeId) (x : EdgeId) (hx : x ∈ a :: l) :
    x ∈ List.destutter' (fun x y => x ≠ y) a l := by
  induction l generalizing a with
  | nil => simpa using hx
  | cons b l ih =>
    by_cases h : a ≠ b
    · rw [List.destutter'_cons_pos _ h]
      rcases List.mem_cons.1 hx with hx | hx
      · rw [hx]; exact List.mem_cons_self _ _
      · exact List.mem_cons_of_mem _ (ih b hx)
    · have hab : a = b := by
        by_contra c; exact h c
      rw [List.destutter'_cons_neg _ h]
      apply ih a
      rcases List.mem_cons.1 hx with hx | hx
      · rw [hx]; exact List.mem_cons_self _ _
      · rcases List.mem_cons.1 hx with hx | hx
        · rw [hx, ← hab]; exact List.mem_cons_self _ _
        · exact List.mem_cons_of_mem _ hx

theorem mem_destutter_iff (l : List EdgeId) (x : EdgeId) :
    x ∈ List.destutter (fun x y => x ≠ y) l ↔ x ∈ l := by
  constructor
  · exact fun h => (List.destutter_sublist _ l).subset h
  · intro h
    cases l with
    | nil => simp at h
    | cons a l => exact mem_destutter'_of_mem a l x h

theorem count_destutter' (e a : EdgeId) (l : List EdgeId) :
    (List.destutter' (fun x y => x ≠ y) a l).count e =
      (if a = e then 1 else 0) + edge_entries e (some a) l := by
  induction l generalizing a with
  | nil =>
    by_cases h : a = e
    · simp [edge_entries, h]
    · simp [edge_entries, h, List.count_cons]
  | cons b l ih =>
    by_cases h : a ≠ b
    · rw [List.destutter'_cons_pos _ h, List.count_cons, ih b]
      simp only [edge_entries]
      by_cases hb : b = e
      · have hae : ¬ a = e := fun c => h (by rw [c, hb])
        simp [hb, hae]
      · by_cases ha : a = e
        · simp [hb, ha]; omega
        · simp [hb, ha]
    · have hab : a = b := by
        by_contra c; exact h c
      rw [List.destutter'_cons_neg _ h, ih a]
      simp only [edge_entries]
      subst hab
      by_cases ha : a = e
      · simp [ha]
      · simp [ha]

/-- An edge is listed in the collapsed list as many times as the sequence enters it. -/
theorem count_destutter (e : EdgeId) (l : List EdgeId) :
    (List.destutter (fun x y => x ≠ y) l).count e = edge_entries e none l := by
  cases l with
  | nil => simp [edge_entries]
  | cons a l =>
    rw [List.destutter_cons', count_destutter']
    simp only [edge_entries]
    by_cases h : a = e <;> simp [h]

/-- A sequence that has two occurrences of `e` with `x` between them as a subsequence
has two occurrences of `e` with `x` between them. -/
theorem sublist_two_occurrences (e x : EdgeId) (m b r : List EdgeId)
    (h : (e :: (m ++ e :: b)).Sublist r) (hx : x ∈ m) :
    ∃ a' m' b', r = a' ++ e :: (m' ++ e :: b') ∧ x ∈ m' := by
  obtain ⟨r1, r2, hr, he1, hrest⟩ := List.cons_sublist_iff.1 h
  obtain ⟨t1, t2, ht, hm, hrest2⟩ := List.append_sublist_iff.1 hrest
  obtain ⟨u1, u2, hu, he2, _⟩ := List.cons_sublist_iff.1 hrest2
  obtain ⟨p, q, hpq⟩ := List.append_of_mem he1
  obtain ⟨p', q', hpq'⟩ := List.append_of_mem he2
  refine ⟨p, q ++ t1 ++ p', q' ++ u2, ?_, ?_⟩
  · rw [hr, ht, hu, hpq, hpq']
    simp
  · exact List.mem_append_left _ (List.mem_append_right _ (hm.subset hx))

/-! ## Claims on `to_path` -/

/-- C14. For every cursor trace (with empty cursors at any position) the edge list
returned by `to_path` is the sequence of the visited edges with equal neighbours
collapsed.  No two adjacent entries are the same edge.  Empty cursors contribute
nothing.  The list holds exactly the visited edges: the `edge()` of every non-empty
cursor is listed, and every entry is the `edge()` or one of the `edges()` of a
non-empty cursor.  An edge is listed as many times as the visited sequence enters it:
when it is listed twice, the trace visits it, then another edge, then returns to it.
The path of a prefix of the trace is a prefix of the path.  For cursors that list only
their own edge in `edges()`, the path is the list of the edges of the non-empty
cursors with equal neighbours collapsed. -/
theorem to_path_collapsed (cpath : List Cursor) :
    to_path cpath = List.destutter (fun x y => x ≠ y) (visited_edges none cpath) ∧
    (∀ (i : Nat) (h : i + 1 < (to_path cpath).length),
      (to_path cpath)[i] ≠ (to_path cpath)[i + 1]) ∧
    (to_path cpath = to_path (cpath.filter (fun c => !c.is_empty)) ∧
      visited_edges none cpath = visited_edges none (cpath.filter (fun c => !c.is_empty))) ∧
    (∀ e, e ∈ to_path cpath ↔ e ∈ visited_edges none cpath) ∧
    (∀ c ∈ cpath, c.is_empty = false → c.edge ∈ to_path cpath) ∧
    (∀ e ∈ to_path cpath, ∃ c ∈ cpath, c.is_empty = false ∧ (e = c.edge ∨ e ∈ c.edges)) ∧
    (∀ e, (to_path cpath).count e = edge_entries e none (visited_edges none cpath)) ∧
    (∀ (a m b : List EdgeId) (e : EdgeId), to_path cpath = a ++ e :: (m ++ e :: b) →
      ∃ x ∈ m, x ≠ e ∧
        ∃ a' m' b', visited_edges none cpath = a' ++ e :: (m' ++ e :: b') ∧ x ∈ m') ∧
    (∀ l1 l2 : List Cursor, cpath = l1 ++ l2 → ∃ ext, to_path cpath = to_path l1 ++ ext) ∧
    ((∀ c ∈ cpath, c.is_empty = false → ∀ x ∈ c.edges, x = c.edge) →
      to_path cpath = List.destutter (fun x y => x ≠ y)
        ((cpath.filter (fun c => !c.is_empty)).map (fun c => c.edge))) := by
  have hvis := to_path_eq_destutter_visited cpath
  have hchain : (to_path cpath).Chain' (fun a b => a ≠ b) := by
    unfold to_path
    exact foldl_to_path_step_chain_ne _ _ List.chain'_nil
  have hmem : ∀ e, e ∈ to_path cpath ↔ e ∈ visited_edges none cpath := by
    intro e
    rw [hvis]
    exact mem_destutter_iff _ e
  refine ⟨hvis, fun i h => chain_ne_getElem _ hchain i h, ⟨?_, ?_⟩, hmem, ?_, ?_, ?_, ?_, ?_,
    to_path_eq_destutter cpath⟩
  · rw [to_path_eq_foldl_filter, to_path_eq_foldl_filter, List.filter_filter]
    simp
  · exact (visited_edges_filter none cpath).symm
  · intro c hc hne
    exact (hmem c.edge).2 (mem_visited_edges cpath none c hc hne)
  · intro e he
    exact visited_edges_sound cpath none e ((hmem e).1 he)
  · intro e
    rw [hvis]
    exact count_destutter e _
  · intro a m b e h
    obtain ⟨x, hx, hxe⟩ := chain_ne_separated _ hchain a m b e h
    have hsub : (e :: (m ++ e :: b)).Sublist (visited_edges none cpath) := by
      have h1 : (e :: (m ++ e :: b)).Sublist (to_path cpath) := by
        rw [h]
        exact List.sublist_append_right _ _
      have h2 : (to_path cpath).Sublist (visited_edges none cpath) := by
        rw [hvis]
        exact List.destutter_sublist _ _
      exact h1.trans h2
    exact ⟨x, hx, hxe, sublist_two_occurrences e x m b _ hsub hx⟩
  · intro l1 l2 h
    subst h
    rw [to_path_append]
    exact foldl_to_path_step_prefix _ _

/-- Instance of C14 on a trace with empty cursors and cursors that list further edges:
the visited edges are 1, 1, 2, 1, 3, 3, 4, 3 and the path is 1, 2, 1, 3, 4, 3. -/
theorem to_path_collapsed_witness :
    (visited_edges none revisit_trace = [1, 1, 2, 1, 3, 3, 4, 3] ∧
      to_path revisit_trace = [1, 2, 1, 3, 4, 3] ∧
      edge_entries 1 none (visited_edges none revisit_trace) = 2 ∧
      to_path sample_trace = [1, 2, 1]) ∧
    (to_path revisit_trace =
        List.destutter (fun x y => x ≠ y) (visited_edges none revisit_trace) ∧
    (∀ (i : Nat) (h : i + 1 < (to_path revisit_trace).length),
      (to_path revisit_trace)[i] ≠ (to_path revisit_trace)[i + 1]) ∧
    (to_path revisit_trace = to_path (revisit_trace.filter (fun c => !c.is_empty)) ∧
      visited_edges none revisit_trace =
        visited_edges none (revisit_trace.filter (fun c => !c.is_empty))) ∧
    (∀ e, e ∈ to_path revisit_trace ↔ e ∈ visited_edges none revisit_trace) ∧
    (∀ c ∈ revisit_trace, c.is_empty = false → c.edge ∈ to_path revisit_trace) ∧
    (∀ e ∈ to_path revisit_trace,
      ∃ c ∈ revisit_trace, c.is_empty = false ∧ (e = c.edge ∨ e ∈ c.edges)) ∧
    (∀ e, (to_path revisit_trace).count e =
      edge_entries e none (visited_edges none revisit_trace)) ∧
    (∀ (a m b : List EdgeId) (e : EdgeId), to_path revisit_trace = a ++ e :: (m ++ e :: b) →
      ∃ x ∈ m, x ≠ e ∧
        ∃ a' m' b', visited_edges none revisit_trace = a' ++ e :: (m' ++ e :: b') ∧ x ∈ m') ∧
    (∀ l1 l2 : List Cursor, revisit_trace = l1 ++ l2 →
      ∃ ext, to_path revisit_trace = to_path l1 ++ ext) ∧
    ((∀ c ∈ revisit_trace, c.is_empty = false → ∀ x ∈ c.edges, x = c.edge) →
      to_path revisit_trace = List.destutter (fun x y => x ≠ y)
        ((revisit_trace.filter (fun c => !c.is_empty)).map (fun c => c.edge)))) :=
  ⟨by decide, to_path_collapsed revisit_trace⟩

end GraphHMM
